import Mathlib

/-!
Verification development for the PEG-compiler core (passes.js, emitter.js):
a shallow embedding of the AST passes, the template formatter, the quoting
helpers, and an operational semantics of the code the emitter produces,
together with theorems checking the specification's claims.

Strings are modelled as lists of UTF-16-style code units (`List Char`),
matching the host language's string model on the basic multilingual plane.
-/

set_option maxHeartbeats 1000000

/-- Runtime values of the emitted parser: the null sentinel, strings and
arrays.  Values produced by user action blocks are modelled by the same
type (action blocks are treated as pure functions; see `Env`). -/
inductive Value where
  | vnull : Value
  | vstr (s : List Char) : Value
  | varr (vs : List Value) : Value

/-- One element of a character class: a single character or an inclusive
range (`class.parts` in the AST). -/
inductive ClassPart where
  | single (c : Char) : ClassPart
  | range (lo hi : Char) : ClassPart
deriving DecidableEq

/-- Grammar AST expression nodes, mirroring the node variants dispatched on
by `passes.js` and `emitter.js` (`choice`, `sequence`, `labeled`,
`simple_and`, `simple_not`, `semantic_and`, `semantic_not`, `optional`,
`zero_or_more`, `one_or_more`, `action`, `rule_ref`, `literal`, `any`,
`class`). -/
inductive Expr where
  | choice (alternatives : List Expr) : Expr
  | sequence (elements : List Expr) : Expr
  | labeled (label : String) (expression : Expr) : Expr
  | simple_and (expression : Expr) : Expr
  | simple_not (expression : Expr) : Expr
  | semantic_and (code : String) : Expr
  | semantic_not (code : String) : Expr
  | optional (expression : Expr) : Expr
  | zero_or_more (expression : Expr) : Expr
  | one_or_more (expression : Expr) : Expr
  | action (expression : Expr) (code : String) : Expr
  | rule_ref (name : String) : Expr
  | literal (value : List Char) : Expr
  | any : Expr
  | cls (parts : List ClassPart) (inverted : Bool) (rawText : String) : Expr

/-- A `rule` node: `name`, optional `displayName`, and body expression. -/
structure GRule where
  name : String
  displayName : Option String
  expression : Expr

/-- A `grammar` node: rules as an insertion-ordered association list (the
host object keyed by rule name) plus the start-rule name. -/
structure Grammar where
  rules : List (String × GRule)
  startRule : String

/-- Is a node a bare `rule_ref`?  (`isProxyRule` tests this on a rule's
body in `passes.js`.) -/
def isRef : Expr → Bool
  | Expr.rule_ref _ => true
  | _ => false

/- ### The emitted `computeErrorPosition` (emitter.js lines 256-285) -/

/-- `input.charAt(i)` for the emitted code's error-position walk; past the
end of the string the host returns an empty string, which compares unequal
to every newline character, so any non-newline sentinel is faithful. -/
def charAtD (input : List Char) (i : Nat) : Char :=
  input.getD i (Char.ofNat 0)

/-- The line-separator character U+2028. -/
def lineSep : Char := Char.ofNat 0x2028

/-- The paragraph-separator character U+2029. -/
def paraSep : Char := Char.ofNat 0x2029

/-- One iteration of the emitted `computeErrorPosition` loop: state is
(line, column, seenCR). -/
def cepStep (st : Nat × Nat × Bool) (ch : Char) : Nat × Nat × Bool :=
  if ch = '\n' then
    (if st.2.2 then st.1 else st.1 + 1, 1, false)
  else if ch = '\r' ∨ ch = lineSep ∨ ch = paraSep then
    (st.1 + 1, 1, true)
  else
    (st.1, st.2.1 + 1, false)

/-- The emitted `computeErrorPosition`: walk offsets `0 ≤ i < n`
(`n = rightmostFailuresPos`) over the input, starting from line 1,
column 1, `seenCR = false`; returns (line, column). -/
def computeErrorPosition (input : List Char) (n : Nat) : Nat × Nat :=
  let st := (List.range n).foldl (fun st i => cepStep st (charAtD input i)) (1, 1, false)
  (st.1, st.2.1)

/-- Modelled from the spec: the claim's literal newline rule, under which a
line-incrementing event is a '\n' not immediately preceded by '\r', or any
of '\r', U+2028, U+2029.  Returns the 1-based line this predicts. -/
def claimLine (input : List Char) (n : Nat) : Nat :=
  1 + ((List.range n).filter (fun i =>
    let ch := charAtD input i
    if ch = '\n' then decide ¬(0 < i ∧ charAtD input (i - 1) = '\r')
    else decide (ch = '\r' ∨ ch = lineSep ∨ ch = paraSep))).length

/-- Modelled from the spec (amended): the newline rules with the '\n'
suppression keyed to the `seenCR` flag, which is set by '\r', U+2028 and
U+2029 and cleared by every other character. -/
def cepSpec : List Char → Nat × Nat × Bool → Nat × Nat × Bool
  | [], st => st
  | ch :: rest, st =>
    let st' :=
      if ch = '\r' ∨ ch = lineSep ∨ ch = paraSep then (st.1 + 1, 1, true)
      else if ch = '\n' then (if st.2.2 then st.1 else st.1 + 1, 1, false)
      else (st.1, st.2.1 + 1, false)
    cepSpec rest st'

/- ### Start-rule exposure and dispatch (emitter.js lines 93-156, 289-291) -/

/-- How the generated `parse(input, startRule)` resolves the rule to run,
or fails.  `invalidRule` is the explicit `Error("Invalid rule name: ...")`;
`notAFunction` models calling an undefined member of `parseFunctions`. -/
inductive DispatchOutcome where
  | runRule (name : String) : DispatchOutcome
  | invalidRule : DispatchOutcome
  | notAFunction : DispatchOutcome
deriving DecidableEq

/-- The parse-function table keys: rule names kept when `startRules` is
empty or contains them (emitter.js lines 93-99). -/
def exposedRules (ruleNames : List String) (startRules : List String) : List String :=
  ruleNames.filter (fun n => startRules.isEmpty || startRules.contains n)

/-- Start-rule resolution of the generated `parse` function.  With exactly
one exposed rule the emitted code validates an explicit argument against
`node.startRule` and always calls `parse_<node.startRule>` (every rule gets
a parse function, exposed or not); with several, an explicit argument is
looked up in the table and an absent one defaults to `node.startRule`,
whose table entry may not exist. -/
def dispatchStart (exposed : List String) (grammarStart : String)
    (arg : Option String) : DispatchOutcome :=
  if exposed.length = 1 then
    match arg with
    | some r => if r ≠ grammarStart then DispatchOutcome.invalidRule
                else DispatchOutcome.runRule grammarStart
    | none => DispatchOutcome.runRule grammarStart
  else
    match arg with
    | some r => if exposed.contains r then DispatchOutcome.runRule r
                else DispatchOutcome.invalidRule
    | none => if exposed.contains grammarStart then DispatchOutcome.runRule grammarStart
              else DispatchOutcome.notAFunction

/- ### String quoting (the emitted `padLeft`/`escape`/`quote`,
emitter.js lines 160-207; per the "needs to be in sync" comments these are
also the compiler-side helpers behind the formatter's `string` filter). -/

/-- Concatenation map over code units: the effect of one global
single-character `replace` (or of the character-class `replace` with a
replacement function). -/
def cmap (f : Char → List Char) : List Char → List Char
  | [] => []
  | c :: cs => f c ++ cmap f cs

/-- Upper-case hexadecimal digit, as produced by
`toString(16).toUpperCase()`. -/
def hexDig (n : Nat) : Char :=
  (String.data ("0123456789ABCDEF")).getD n '0'

/-- Fuelled helper for `toHex` (structural recursion; the fuel `toHex`
passes is always sufficient because dividing by 16 reaches a single digit
within `n` steps). -/
def toHexF : Nat → Nat → List Char
  | 0, n => [hexDig n]
  | f + 1, n =>
    if n < 16 then [hexDig n]
    else toHexF f (n / 16) ++ [hexDig (n % 16)]

/-- `charCode.toString(16).toUpperCase()`: most-significant-first hex
digits, no leading zeros, `0` rendered as "0". -/
def toHex (n : Nat) : List Char :=
  toHexF n n

/-- The emitted `padLeft(input, padding, length)`: prepend
`length - input.length` copies of the padding character (never
truncates). -/
def padLeft (input : List Char) (padding : Char) (len : Nat) : List Char :=
  List.replicate (len - input.length) padding ++ input

/-- The emitted `escape(ch)`: `\xHH` for code units up to 0xFF, `\uHHHH`
above, with upper-case hex padded with zeros. -/
def escape (ch : Char) : List Char :=
  if ch.toNat ≤ 0xFF then '\\' :: 'x' :: padLeft (toHex ch.toNat) '0' 2
  else '\\' :: 'u' :: padLeft (toHex ch.toNat) '0' 4

/-- Stage 1 of the emitted `quote`: `replace(/\\/g, '\\\\')`. -/
def repBackslash (c : Char) : List Char :=
  if c = '\\' then ['\\', '\\'] else [c]

/-- Stage 2: `replace(/"/g, '\\"')`. -/
def repQuote (c : Char) : List Char :=
  if c = '"' then ['\\', '"'] else [c]

/-- Stage 3: `replace(/\r/g, '\\r')`. -/
def repCR (c : Char) : List Char :=
  if c = '\r' then ['\\', 'r'] else [c]

/-- Stage 4: `replace(/\n/g, '\\n')`. -/
def repLF (c : Char) : List Char :=
  if c = '\n' then ['\\', 'n'] else [c]

/-- Stage 5: `replace(/\t/g, '\\t')`. -/
def repTab (c : Char) : List Char :=
  if c = '\t' then ['\\', 't'] else [c]

/-- Stage 6: `replace(/\f/g, '\\f')`. -/
def repFF (c : Char) : List Char :=
  if c = '\x0C' then ['\\', 'f'] else [c]

/-- Is a code unit inside the character class `[\x20-\x7F]` (kept verbatim
by the final replace)? -/
def jsInRange (c : Char) : Bool :=
  decide (0x20 ≤ c.toNat ∧ c.toNat ≤ 0x7F)

/-- Stage 7: `replace(/[^\x20-\x7F]/g, escape)`. -/
def repNonAscii (c : Char) : List Char :=
  if jsInRange c then [c] else escape c

/-- The replace chain of the emitted `quote`: the six escaping replaces
followed by the non-ASCII replace, applied in source order. -/
def quoteBody (s : List Char) : List Char :=
  cmap repNonAscii (cmap repFF (cmap repTab (cmap repLF
      (cmap repCR (cmap repQuote (cmap repBackslash s))))))

/-- The emitted `quote(s)`: a double quote, the replace chain, and a
closing double quote. -/
def quote (s : List Char) : List Char :=
  '"' :: quoteBody s ++ ['"']

/-- Per-character image of the full replace chain of `quote`. -/
def qchar (c : Char) : List Char :=
  cmap repNonAscii (cmap repFF (cmap repTab (cmap repLF
      (cmap repCR (cmap repQuote (repBackslash c))))))

/-- Value of one hexadecimal digit of either case (as a host string
literal parser accepts). -/
def hexVal (c : Char) : Option Nat :=
  if '0' ≤ c ∧ c ≤ '9' then some (c.toNat - Char.toNat '0')
  else if 'A' ≤ c ∧ c ≤ 'F' then some (c.toNat - Char.toNat 'A' + 10)
  else if 'a' ≤ c ∧ c ≤ 'f' then some (c.toNat - Char.toNat 'a' + 10)
  else none

/-- The numeric value of a most-significant-first hex-digit string
(used to state decoding facts about `toHex`). -/
def hexListVal (l : List Char) : Nat :=
  l.foldl (fun acc c => 16 * acc + (hexVal c).getD 0) 0

/-- Line terminators, which may not appear unescaped in a host
double-quoted string literal (ECMA-262 7.8.4). -/
def isLineTerm (c : Char) : Bool :=
  c = '\n' ∨ c = '\r' ∨ c = lineSep ∨ c = paraSep

/-- Modelled from the spec: reading the body of a host double-quoted
string literal, for the escape forms `quote` can produce (`\\`, `\"`,
`\r`, `\n`, `\t`, `\f`, `\xHH`, `\uHHHH`) plus verbatim characters.
Returns the decoded content and the input following the closing quote. -/
def unqBody : List Char → Option (List Char × List Char)
  | [] => none
  | '"' :: rest => some ([], rest)
  | '\\' :: esc =>
    (match esc with
     | 'x' :: a :: b :: r => do
         let va ← hexVal a
         let vb ← hexVal b
         let (t, r2) ← unqBody r
         pure (Char.ofNat (16 * va + vb) :: t, r2)
     | 'u' :: a :: b :: c :: d :: r => do
         let va ← hexVal a
         let vb ← hexVal b
         let vc ← hexVal c
         let vd ← hexVal d
         let (t, r2) ← unqBody r
         pure (Char.ofNat (((va * 16 + vb) * 16 + vc) * 16 + vd) :: t, r2)
     | '\\' :: r => do
         let (t, r2) ← unqBody r
         pure ('\\' :: t, r2)
     | '"' :: r => do
         let (t, r2) ← unqBody r
         pure ('"' :: t, r2)
     | 'r' :: r => do
         let (t, r2) ← unqBody r
         pure ('\r' :: t, r2)
     | 'n' :: r => do
         let (t, r2) ← unqBody r
         pure ('\n' :: t, r2)
     | 't' :: r => do
         let (t, r2) ← unqBody r
         pure ('\t' :: t, r2)
     | 'f' :: r => do
         let (t, r2) ← unqBody r
         pure ('\x0C' :: t, r2)
     | _ => none)
  | c :: rest =>
    if isLineTerm c then none
    else do
      let (t, r2) ← unqBody rest
      pure (c :: t, r2)

/-- Modelled from the spec: parsing a complete host string literal —
a double quote, a body, the closing quote, and nothing after it. -/
def unquote (s : List Char) : Option (List Char) :=
  match s with
  | '"' :: body =>
    match unqBody body with
    | some (content, []) => some content
    | _ => none
  | _ => none

/- ### The template formatter `formatCode` (emitter.js lines 36-82) -/

/-- `[a-z_]` under the regex's `i` flag: an identifier start. -/
def isIdentStart (c : Char) : Bool :=
  ('a' ≤ c ∧ c ≤ 'z') ∨ ('A' ≤ c ∧ c ≤ 'Z') ∨ c = '_'

/-- `\w`: an identifier continuation character. -/
def isIdentChar (c : Char) : Bool :=
  isIdentStart c ∨ ('0' ≤ c ∧ c ≤ '9')

/-- Longest identifier-continuation prefix and the remainder (the greedy
`\w*` of the interpolation token regex). -/
def munchId : List Char → List Char × List Char
  | [] => ([], [])
  | c :: cs =>
    if isIdentChar c then
      let m := munchId cs
      (c :: m.1, m.2)
    else ([], c :: cs)

/-- Match the interpolation token `([a-z_]\w*)(?:\|([a-z_]\w*))?\}` right
after an opening `${`, returning the variable name, the optional filter
name, and the remaining input. -/
def parseToken : List Char → Option (List Char × Option (List Char) × List Char)
  | [] => none
  | c :: cs =>
    if isIdentStart c then
      let m := munchId cs
      match m.2 with
      | '}' :: r2 => some ((c :: m.1, none, r2) : List Char × Option (List Char) × List Char)
      | '|' :: d :: ds =>
        if isIdentStart d then
          let m2 := munchId ds
          match m2.2 with
          | '}' :: r3 => some (c :: m.1, some (d :: m2.1), r3)
          | _ => none
        else none
      | _ => none
    else none

/-- Look up a template variable (`vars[name]`; `undefined` when the
mapping has no such property). -/
def lookupVar (vars : List (String × List Char)) (name : List Char) : Option (List Char) :=
  (vars.find? (fun kv => kv.1 = String.mk name)).map (fun kv => kv.2)

/-- The `Error` text for an undefined template variable. -/
def undefVarMsg (name : List Char) : String :=
  "Undefined variable: \"" ++ String.mk name ++ "\"."

/-- The `Error` text for an unrecognized filter. -/
def unrecFilterMsg (f : List Char) : String :=
  "Unrecognized filter: \"" ++ String.mk f ++ "\"."

/-- Fuelled worker for the interpolation scan (structural recursion; one
code unit or one complete token is consumed per step, so fuel equal to the
part's length is always sufficient, and a part without a `$` is returned
unchanged at any fuel). -/
def interpGoF (vars : List (String × List Char)) : Nat → List Char → Except String (List Char)
  | 0, l => Except.ok l
  | _ + 1, [] => Except.ok []
  | f + 1, c :: rest =>
    if c = '$' then
      match rest with
      | '{' :: rest1 =>
        (match parseToken rest1 with
         | some (name, filt, rest2) =>
           (match lookupVar vars name with
            | none => Except.error (undefVarMsg name)
            | some v =>
              match filt with
              | none => do
                  let t ← interpGoF vars f rest2
                  pure (v ++ t)
              | some fl =>
                if fl = String.data ("string") then do
                  let t ← interpGoF vars f rest2
                  pure (quote v ++ t)
                else Except.error (unrecFilterMsg fl))
         | none => do
             let t ← interpGoF vars f rest
             pure ('$' :: t))
      | _ => do
          let t ← interpGoF vars f rest
          pure ('$' :: t)
    else do
      let t ← interpGoF vars f rest
      pure (c :: t)

/-- The global-regex replacement pass of `formatCode` over one part:
scan left to right, replacing each `${name}`/`${name|filter}` token, with
the `string` filter quoting the value; an undefined variable or an
unrecognized filter throws. -/
def interpGo (vars : List (String × List Char)) (l : List Char) : Except String (List Char) :=
  interpGoF vars l.length l

/-- `String.split`-on-newline as the host performs it inside
`indentMultilineParts` ("" splits to [""]). -/
def splitNl : List Char → List (List Char)
  | [] => [[]]
  | c :: cs =>
    if c = '\n' then [] :: splitNl cs
    else
      match splitNl cs with
      | [] => [[c]]
      | l :: ls => (c :: l) :: ls

/-- Join a list of lines (or of template parts) with single newlines
(`Array.join("\n")`). -/
def joinNl : List (List Char) → List Char
  | [] => []
  | [l] => l
  | l :: ls => l ++ '\n' :: joinNl ls

/-- `[ \t]`: the whitespace the re-indentation step copies from a part's
first line. -/
def isBlankWS (c : Char) : Bool :=
  c = ' ' ∨ c = '\t'

/-- `indentMultilineParts` on one part: if it contains a newline, prefix
every line after the first with the first line's leading `[ \t]*`. -/
def indentPart (part : List Char) : List Char :=
  if part.contains '\n' then
    let w := part.takeWhile isBlankWS
    match splitNl part with
    | [] => part
    | l0 :: ls => joinNl (l0 :: ls.map (fun l => w ++ l))
  else part

/-- `formatCode`: interpolate variables in every part, re-indent each
multi-line part, and join the parts with newlines.  The trailing variable
mapping of the variadic source function is the explicit second
argument. -/
def formatCode (parts : List (List Char)) (vars : List (String × List Char)) :
    Except String (List Char) := do
  let interpolated ← parts.mapM (interpGo vars)
  pure (joinNl (interpolated.map indentPart))

/- ### Failure-expectation sorting and message synthesis
(the emitted `matchFailed`/`buildErrorMessage`, emitter.js lines 209-254) -/

/-- Code-unit lexicographic "less or equal", the order induced by the
host's default array sort comparator on strings. -/
def cuLe : List Char → List Char → Bool
  | [], _ => true
  | _ :: _, [] => false
  | c :: cs, d :: ds =>
    if c.toNat < d.toNat then true
    else if d.toNat < c.toNat then false
    else cuLe cs ds

/-- String order used by `failuresExpected.sort()`. -/
def strLe (a b : String) : Bool :=
  cuLe a.data b.data

/-- Insertion into a sorted list under `strLe`. -/
def insertStr (x : String) : List String → List String
  | [] => [x]
  | y :: ys => if strLe x y then x :: y :: ys else y :: insertStr x ys

/-- `failuresExpected.sort()`: sorting under the default string
comparator, modelled as insertion sort. -/
def sortStr : List String → List String
  | [] => []
  | x :: xs => insertStr x (sortStr xs)

/-- The `lastFailure` loop of `buildExpected`: keep an element unless it
equals the last element kept (`lastFailure` starts as null, which equals
no string). -/
def dedupeGo : Option String → List String → List String
  | _, [] => []
  | last, x :: xs =>
    if some x = last then dedupeGo last xs
    else x :: dedupeGo (some x) xs

/-- Consecutive deduplication as performed on the sorted expectations. -/
def dedupeConsec (l : List String) : List String :=
  dedupeGo none l

/-- `Array.join(', ')`. -/
def joinComma : List String → String
  | [] => ""
  | [x] => x
  | x :: y :: ys => x ++ ", " ++ joinComma (y :: ys)

/-- The emitted `buildExpected`: sort, deduplicate, then switch on the
number of distinct alternatives (`slice`/`join` for the default arm). -/
def buildExpected (l : List String) : String :=
  let u := dedupeConsec (sortStr l)
  if u.length = 0 then "end of input"
  else if u.length = 1 then u.headD ""
  else joinComma (u.take (u.length - 1)) ++ " or " ++ u.getLastD ""

/-- Modelled from the spec: rendering the deduplicated alternatives as the
claim words it — zero as "end of input", one as itself, many joined by
commas with " or " before the last. -/
def renderAlternatives : List String → String
  | [] => "end of input"
  | [x] => x
  | x :: y :: ys =>
    joinComma (List.dropLast (x :: y :: ys)) ++ " or " ++ List.getLastD (x :: y :: ys) ""

/-- The emitted `buildErrorMessage`: the expected alternatives, and the
actual character (quoted) or "end of input" at `max(pos,
rightmostFailuresPos)`. -/
def buildErrorMessage (input : List Char) (pos failPos : Nat) (failExp : List String) : String :=
  let expected := buildExpected failExp
  let actualPos := max pos failPos
  let actual :=
    if actualPos < input.length then String.mk (quote [charAtD input actualPos])
    else "end of input"
  "Expected " ++ expected ++ " but " ++ actual ++ " found."

/- ### Pass 1 — proxy-rule elimination (passes.js lines 12-79) -/

mutual
/-- `replaceRuleRefs` on an expression: rename every `rule_ref` named
`f` to `t`; all other nodes are traversed structurally and otherwise
unchanged. -/
def replaceExpr (f t : String) : Expr → Expr
  | Expr.choice alts => Expr.choice (replaceExprList f t alts)
  | Expr.sequence elems => Expr.sequence (replaceExprList f t elems)
  | Expr.labeled l e => Expr.labeled l (replaceExpr f t e)
  | Expr.simple_and e => Expr.simple_and (replaceExpr f t e)
  | Expr.simple_not e => Expr.simple_not (replaceExpr f t e)
  | Expr.semantic_and c => Expr.semantic_and c
  | Expr.semantic_not c => Expr.semantic_not c
  | Expr.optional e => Expr.optional (replaceExpr f t e)
  | Expr.zero_or_more e => Expr.zero_or_more (replaceExpr f t e)
  | Expr.one_or_more e => Expr.one_or_more (replaceExpr f t e)
  | Expr.action e c => Expr.action (replaceExpr f t e) c
  | Expr.rule_ref n => Expr.rule_ref (if n = f then t else n)
  | Expr.literal v => Expr.literal v
  | Expr.any => Expr.any
  | Expr.cls p i r => Expr.cls p i r

/-- `replaceRuleRefs` over a list of subnodes. -/
def replaceExprList (f t : String) : List Expr → List Expr
  | [] => []
  | e :: es => replaceExpr f t e :: replaceExprList f t es
end

mutual
/-- All `rule_ref` names occurring in an expression, in traversal
order. -/
def refNames : Expr → List String
  | Expr.choice alts => refNamesList alts
  | Expr.sequence elems => refNamesList elems
  | Expr.labeled _ e => refNames e
  | Expr.simple_and e => refNames e
  | Expr.simple_not e => refNames e
  | Expr.semantic_and _ => []
  | Expr.semantic_not _ => []
  | Expr.optional e => refNames e
  | Expr.zero_or_more e => refNames e
  | Expr.one_or_more e => refNames e
  | Expr.action e _ => refNames e
  | Expr.rule_ref n => [n]
  | Expr.literal _ => []
  | Expr.any => []
  | Expr.cls _ _ _ => []

/-- `rule_ref` names of a list of subnodes. -/
def refNamesList : List Expr → List String
  | [] => []
  | e :: es => refNames e ++ refNamesList es
end

/-- `replaceRuleRefs` over the whole grammar: every (remaining) rule body
is rewritten; the start rule is untouched by the rewrite itself. -/
def replaceGrammar (f t : String) (g : Grammar) : Grammar :=
  { rules := g.rules.map
      (fun kv => (kv.1, { kv.2 with expression := replaceExpr f t kv.2.expression })),
    startRule := g.startRule }

/-- The target of a proxy body: `expression.name` when the body is a bare
`rule_ref`, nothing otherwise (`isProxyRule`'s test). -/
def refTarget : Expr → Option String
  | Expr.rule_ref n => some n
  | _ => none

/-- One iteration of the `proxyRules` loop for the key `name`: if that
rule's body is a bare `rule_ref`, rewrite references from the rule's
`name` attribute to the target, update `startRule` when it was this key,
and delete the key (the host object has unique keys, so filtering the
association list is the host `delete`). -/
def proxyStep (g : Grammar) (name : String) : Grammar :=
  match g.rules.find? (fun kv => kv.1 = name) with
  | none => g
  | some kv =>
    match refTarget kv.2.expression with
    | some target =>
      let g1 := replaceGrammar kv.2.name target g
      let sr := if name = g.startRule then target else g.startRule
      { rules := g1.rules.filter (fun kv2 => kv2.1 ≠ name), startRule := sr }
    | none => g

/-- The `proxyRules` pass: iterate once over the rule keys present at
entry (the host `for (var name in ast.rules)` visits every original key;
only the key under iteration is ever deleted). -/
def proxyRules (g : Grammar) : Grammar :=
  (g.rules.map (fun kv => kv.1)).foldl proxyStep g

/- ### Pass 2 — stack-depth annotation (passes.js lines 87-155) -/

/-- `Math.max.apply(null, list)` for the non-empty lists the pass builds.
(The host yields negative infinity on an empty list; `stackDepths` never
applies it to one on a front-end AST, where `choice` and `sequence` nodes
have at least one child — the claims assume such well-formed ASTs.) -/
def jsMaxList : List Int → Int
  | [] => 0
  | a :: rest => rest.foldl max a

/-- `i + e.resultStackDepth` for each element, by position. -/
def addIndices (l : List Int) : List Int :=
  l.enum.map (fun p => (p.1 : Int) + p.2)

mutual
/-- The `resultStackDepth` attribute computed by `stackDepths`. -/
def resultDepth : Expr → Int
  | Expr.choice alts => jsMaxList (resultDepthList alts)
  | Expr.sequence elems => 1 + jsMaxList (addIndices (resultDepthList elems))
  | Expr.labeled _ e => resultDepth e
  | Expr.simple_and e => resultDepth e
  | Expr.simple_not e => resultDepth e
  | Expr.semantic_and _ => 0
  | Expr.semantic_not _ => 0
  | Expr.optional e => resultDepth e
  | Expr.zero_or_more e => resultDepth e + 1
  | Expr.one_or_more e => resultDepth e + 1
  | Expr.action e _ => resultDepth e
  | Expr.rule_ref _ => 0
  | Expr.literal _ => 0
  | Expr.any => 0
  | Expr.cls _ _ _ => 0

/-- `resultStackDepth` of each node of a list, in order. -/
def resultDepthList : List Expr → List Int
  | [] => []
  | e :: es => resultDepth e :: resultDepthList es
end

mutual
/-- The `posStackDepth` attribute computed by `stackDepths`. -/
def posDepth : Expr → Int
  | Expr.choice alts => jsMaxList (posDepthList alts)
  | Expr.sequence elems => 1 + jsMaxList (posDepthList elems)
  | Expr.labeled _ e => posDepth e
  | Expr.simple_and e => posDepth e + 1
  | Expr.simple_not e => posDepth e + 1
  | Expr.semantic_and _ => 0
  | Expr.semantic_not _ => 0
  | Expr.optional e => posDepth e
  | Expr.zero_or_more e => posDepth e
  | Expr.one_or_more e => posDepth e
  | Expr.action e _ => posDepth e + 1
  | Expr.rule_ref _ => 0
  | Expr.literal _ => 0
  | Expr.any => 0
  | Expr.cls _ _ _ => 0

/-- `posStackDepth` of each node of a list, in order. -/
def posDepthList : List Expr → List Int
  | [] => []
  | e :: es => posDepth e :: posDepthList es
end

/-- `resultStackDepth` of a `rule` node: its expression's depth plus
one. -/
def ruleResultDepth (rl : GRule) : Int :=
  resultDepth rl.expression + 1

/-- `posStackDepth` of a `rule` node: its expression's depth plus one. -/
def rulePosDepth (rl : GRule) : Int :=
  posDepth rl.expression + 1

mutual
/-- Front-end well-formedness used by the depth claims: `choice` and
`sequence` nodes have at least one child. -/
def wfExpr : Expr → Bool
  | Expr.choice alts => !alts.isEmpty && wfExprList alts
  | Expr.sequence elems => !elems.isEmpty && wfExprList elems
  | Expr.labeled _ e => wfExpr e
  | Expr.simple_and e => wfExpr e
  | Expr.simple_not e => wfExpr e
  | Expr.semantic_and _ => true
  | Expr.semantic_not _ => true
  | Expr.optional e => wfExpr e
  | Expr.zero_or_more e => wfExpr e
  | Expr.one_or_more e => wfExpr e
  | Expr.action e _ => wfExpr e
  | Expr.rule_ref _ => true
  | Expr.literal _ => true
  | Expr.any => true
  | Expr.cls _ _ _ => true

/-- Well-formedness of a list of subnodes. -/
def wfExprList : List Expr → Bool
  | [] => true
  | e :: es => wfExpr e && wfExprList es
end

/- ### Operational semantics of the emitted parser
(the grammar/rule/operator snippets of emitter.js lines 358-810).

The emitted code for a rule body manipulates the numbered local variables
`result0, result1, ...` and `pos0, pos1, ...` of its `parse_<name>`
function (modelled by `Locals`), the parser-global position, failure
bookkeeping and memo cache (`GState`), and the input.  User code blocks of
`action`/`semantic_*` nodes are host snippets; they are modelled as pure
functions supplied by `Env`. -/

/-- The local `result<i>`/`pos<i>` variables of one emitted rule
function. -/
structure Locals where
  res : Nat → Value
  posv : Nat → Nat

/-- The parser-global state of the emitted `parse` function: `pos`,
`reportFailures`, `rightmostFailuresPos`, `rightmostFailuresExpected` and
the memo `cache`.  `log` is bookkeeping the emitted code does not have: it
records each rule-body evaluation (cache miss) as `(rule name, entry
position)`, making "the body was (not) evaluated" a statement about the
state. -/
structure GState where
  pos : Nat
  reportFailures : Nat
  failPos : Nat
  failExp : List String
  cache : List ((String × Nat) × (Nat × Value))
  log : List (String × Nat)

/-- The external collaborators of one parse: the input string and the
user's semantic-predicate and action blocks (keyed by their code text,
treated as pure host functions). -/
structure Env where
  input : List Char
  sem : String → Bool
  act : String → List Value → Value

/-- `x === null` on a runtime value. -/
def Value.isNull : Value → Bool
  | Value.vnull => true
  | _ => false

/-- Assignment `result<i> = v`. -/
def setRes (loc : Locals) (i : Nat) (v : Value) : Locals :=
  { loc with res := fun j => if j = i then v else loc.res j }

/-- Assignment `pos<i> = q`. -/
def setPosv (loc : Locals) (i : Nat) (q : Nat) : Locals :=
  { loc with posv := fun j => if j = i then q else loc.posv j }

/-- The emitted `matchFailed(failure)` (emitter.js lines 209-220): a no-op
left of the rightmost failure, a reset-and-record right of it, an append
at it.  It never raises. -/
def matchFailed (failure : String) (g : GState) : GState :=
  if g.pos < g.failPos then g
  else if g.pos > g.failPos then { g with failPos := g.pos, failExp := [failure] }
  else { g with failExp := g.failExp ++ [failure] }

/-- `if (reportFailures === 0) { matchFailed(failure); }`. -/
def reportFailure (failure : String) (g : GState) : GState :=
  if g.reportFailures = 0 then matchFailed failure g else g

/-- `cache[cacheKey]` (entries are objects, hence always truthy on a
hit). -/
def lookupCache (cache : List ((String × Nat) × (Nat × Value))) (k : String × Nat) :
    Option (Nat × Value) :=
  (cache.find? (fun e => e.1 = k)).map (fun e => e.2)

/-- Resolution of a call `parse_<n>()`: the function emitted for the rule
whose `name` attribute is `n`. -/
def lookupRuleByName (G : Grammar) (n : String) : Option GRule :=
  (G.rules.find? (fun kv => kv.2.name = n)).map (fun kv => kv.2)

/-- Membership of a character in `class.parts` (single characters and
inclusive ranges, compared by code unit). -/
def inClassParts (parts : List ClassPart) (c : Char) : Bool :=
  parts.any (fun p =>
    match p with
    | ClassPart.single d => c = d
    | ClassPart.range lo hi => lo ≤ c ∧ c ≤ hi)

/-- The actual arguments the emitted `action` code passes to the user
block: for a `sequence` body, the collected-array entries of its `labeled`
elements by position; for a `labeled` body, the single result; otherwise
none. -/
def actionArgs (e : Expr) (v : Value) : List Value :=
  match e with
  | Expr.sequence elems =>
    (match v with
     | Value.varr vs =>
       elems.enum.filterMap (fun p =>
         match p.2 with
         | Expr.labeled _ _ => some (vs.getD p.1 Value.vnull)
         | _ => none)
     | _ => [])
  | Expr.labeled _ _ => [v]
  | _ => []

/-- Fresh local variables of a newly entered `parse_<name>` function (the
`var` declarations; every emitted snippet writes its result slot before
reading it, so the initial value is never observed). -/
def freshLocals : Locals :=
  { res := fun _ => Value.vnull, posv := fun _ => 0 }

/-- A unit of emitted code to run: an expression snippet at a
(resultIndex, posIndex) context over given locals, the tail of a
`sequence` or `choice` snippet, the `while` loop of a repetition snippet,
or a `parse_<name>()` call. -/
inductive Req where
  | expr (e : Expr) (r p : Nat) (loc : Locals) : Req
  | seqElems (elems : List Expr) (i : Nat) (r p : Nat) (loc : Locals) : Req
  | chRest (alts : List Expr) (r p : Nat) (loc : Locals) : Req
  | starLoop (e : Expr) (r p : Nat) (loc : Locals) : Req
  | rule (name : String) : Req

/-- Result of running a unit: expression snippets yield updated locals, a
rule call yields its return value. -/
inductive EvalRes where
  | withLoc (g : GState) (loc : Locals) : EvalRes
  | withVal (g : GState) (v : Value) : EvalRes

/-- The interpreter of emitted code.  Fuel is consumed at every step, so
`none` means "did not finish within the fuel" (or a fault the host would
raise as a type error, such as a reference to a missing rule); `some`
faithfully reflects one complete run of the emitted snippet. -/
def evalCore (G : Grammar) (env : Env) : Nat → Req → GState → Option EvalRes
  | 0, _, _ => none
  | fuel + 1, req, g =>
    match req with
    | Req.expr e r p loc =>
      match e with
      | Expr.choice alts =>
        (match alts with
         | [] => none
         | a :: rest =>
           match evalCore G env fuel (Req.expr a r p loc) g with
           | some (EvalRes.withLoc g1 l1) => evalCore G env fuel (Req.chRest rest r p l1) g1
           | _ => none)
      | Expr.sequence elems =>
        evalCore G env fuel (Req.seqElems elems 0 r p (setPosv loc p g.pos)) g
      | Expr.labeled _ e1 => evalCore G env fuel (Req.expr e1 r p loc) g
      | Expr.simple_and e1 =>
        (match evalCore G env fuel
            (Req.expr e1 r (p + 1) (setPosv loc p g.pos))
            { g with reportFailures := g.reportFailures + 1 } with
         | some (EvalRes.withLoc g2 l2) =>
           let g3 := { g2 with reportFailures := g2.reportFailures - 1 }
           if (l2.res r).isNull then
             some (EvalRes.withLoc g3 (setRes l2 r Value.vnull))
           else
             some (EvalRes.withLoc { g3 with pos := l2.posv p } (setRes l2 r (Value.vstr [])))
         | _ => none)
      | Expr.simple_not e1 =>
        (match evalCore G env fuel
            (Req.expr e1 r (p + 1) (setPosv loc p g.pos))
            { g with reportFailures := g.reportFailures + 1 } with
         | some (EvalRes.withLoc g2 l2) =>
           let g3 := { g2 with reportFailures := g2.reportFailures - 1 }
           if (l2.res r).isNull then
             some (EvalRes.withLoc g3 (setRes l2 r (Value.vstr [])))
           else
             some (EvalRes.withLoc { g3 with pos := l2.posv p } (setRes l2 r Value.vnull))
         | _ => none)
      | Expr.semantic_and code =>
        some (EvalRes.withLoc g
          (setRes loc r (if env.sem code then Value.vstr [] else Value.vnull)))
      | Expr.semantic_not code =>
        some (EvalRes.withLoc g
          (setRes loc r (if env.sem code then Value.vnull else Value.vstr [])))
      | Expr.optional e1 =>
        (match evalCore G env fuel (Req.expr e1 r p loc) g with
         | some (EvalRes.withLoc g1 l1) =>
           some (EvalRes.withLoc g1
             (setRes l1 r (if (l1.res r).isNull then Value.vstr [] else l1.res r)))
         | _ => none)
      | Expr.zero_or_more e1 =>
        (match evalCore G env fuel (Req.expr e1 (r + 1) p (setRes loc r (Value.varr []))) g with
         | some (EvalRes.withLoc g1 l1) => evalCore G env fuel (Req.starLoop e1 r p l1) g1
         | _ => none)
      | Expr.one_or_more e1 =>
        (match evalCore G env fuel (Req.expr e1 (r + 1) p loc) g with
         | some (EvalRes.withLoc g1 l1) =>
           if (l1.res (r + 1)).isNull then
             some (EvalRes.withLoc g1 (setRes l1 r Value.vnull))
           else
             evalCore G env fuel (Req.starLoop e1 r p (setRes l1 r (Value.varr []))) g1
         | _ => none)
      | Expr.action e1 code =>
        (match evalCore G env fuel (Req.expr e1 r (p + 1) (setPosv loc p g.pos)) g with
         | some (EvalRes.withLoc g1 l1) =>
           let l2 :=
             if (l1.res r).isNull then l1
             else setRes l1 r (env.act code (actionArgs e1 (l1.res r)))
           if (l2.res r).isNull then
             some (EvalRes.withLoc { g1 with pos := l2.posv p } l2)
           else some (EvalRes.withLoc g1 l2)
         | _ => none)
      | Expr.rule_ref n =>
        (match evalCore G env fuel (Req.rule n) g with
         | some (EvalRes.withVal g1 v) => some (EvalRes.withLoc g1 (setRes loc r v))
         | _ => none)
      | Expr.literal v =>
        if v.isEmpty then some (EvalRes.withLoc g (setRes loc r (Value.vstr v)))
        else if (env.input.drop g.pos).take v.length = v then
          some (EvalRes.withLoc { g with pos := g.pos + v.length } (setRes loc r (Value.vstr v)))
        else
          some (EvalRes.withLoc (reportFailure (String.mk (quote v)) g)
            (setRes loc r Value.vnull))
      | Expr.any =>
        if g.pos < env.input.length then
          some (EvalRes.withLoc { g with pos := g.pos + 1 }
            (setRes loc r (Value.vstr [charAtD env.input g.pos])))
        else
          some (EvalRes.withLoc (reportFailure ("any character") g)
            (setRes loc r Value.vnull))
      | Expr.cls parts inverted rawText =>
        if g.pos < env.input.length
            && (inClassParts parts (charAtD env.input g.pos) != inverted) then
          some (EvalRes.withLoc { g with pos := g.pos + 1 }
            (setRes loc r (Value.vstr [charAtD env.input g.pos])))
        else
          some (EvalRes.withLoc (reportFailure rawText g) (setRes loc r Value.vnull))
    | Req.seqElems elems i r p loc =>
      (match elems with
       | [] =>
         some (EvalRes.withLoc g
           (setRes loc r (Value.varr ((List.range i).map (fun j => loc.res (r + j))))))
       | e :: rest =>
         match evalCore G env fuel (Req.expr e (r + i) (p + 1) loc) g with
         | some (EvalRes.withLoc g1 l1) =>
           if (l1.res (r + i)).isNull then
             some (EvalRes.withLoc { g1 with pos := l1.posv p } (setRes l1 r Value.vnull))
           else
             evalCore G env fuel (Req.seqElems rest (i + 1) r p l1) g1
         | _ => none)
    | Req.chRest alts r p loc =>
      (match alts with
       | [] => some (EvalRes.withLoc g loc)
       | a :: rest =>
         if (loc.res r).isNull then
           match evalCore G env fuel (Req.expr a r p loc) g with
           | some (EvalRes.withLoc g1 l1) => evalCore G env fuel (Req.chRest rest r p l1) g1
           | _ => none
         else some (EvalRes.withLoc g loc))
    | Req.starLoop e1 r p loc =>
      if (loc.res (r + 1)).isNull then some (EvalRes.withLoc g loc)
      else
        (match loc.res r with
         | Value.varr vs =>
           match evalCore G env fuel
               (Req.expr e1 (r + 1) p (setRes loc r (Value.varr (vs ++ [loc.res (r + 1)])))) g with
           | some (EvalRes.withLoc g1 l1) => evalCore G env fuel (Req.starLoop e1 r p l1) g1
           | _ => none
         | _ => none)
    | Req.rule name =>
      match lookupRuleByName G name with
      | none => none
      | some rl =>
        let key := (name, g.pos)
        match lookupCache g.cache key with
        | some qv => some (EvalRes.withVal { g with pos := qv.1 } qv.2)
        | none =>
          let g1 :=
            if rl.displayName.isSome then
              { g with log := g.log ++ [key], reportFailures := g.reportFailures + 1 }
            else { g with log := g.log ++ [key] }
          match evalCore G env fuel (Req.expr rl.expression 0 0 freshLocals) g1 with
          | some (EvalRes.withLoc g2 l2) =>
            let g3 :=
              if rl.displayName.isSome then { g2 with reportFailures := g2.reportFailures - 1 }
              else g2
            let g4 :=
              match rl.displayName with
              | some d => if g3.reportFailures = 0 && (l2.res 0).isNull then matchFailed d g3 else g3
              | none => g3
            some (EvalRes.withVal { g4 with cache := (key, (g4.pos, l2.res 0)) :: g4.cache }
              (l2.res 0))
          | _ => none

/-- Running one expression snippet: the updated global state and
locals. -/
def evalExpr (G : Grammar) (env : Env) (fuel : Nat) (e : Expr) (r p : Nat)
    (g : GState) (loc : Locals) : Option (GState × Locals) :=
  match evalCore G env fuel (Req.expr e r p loc) g with
  | some (EvalRes.withLoc g1 l1) => some (g1, l1)
  | _ => none

/-- Running one `parse_<name>()` call: the updated global state and the
returned value. -/
def evalRule (G : Grammar) (env : Env) (fuel : Nat) (name : String)
    (g : GState) : Option (GState × Value) :=
  match evalCore G env fuel (Req.rule name) g with
  | some (EvalRes.withVal g1 v) => some (g1, v)
  | _ => none

/-- The state the emitted `parse` function starts a parse from. -/
def initGState : GState :=
  { pos := 0, reportFailures := 0, failPos := 0, failExp := [], cache := [], log := [] }

/-- The emitted parser's syntax-error object: message, 1-based line and
column. -/
structure SyntaxErr where
  message : String
  line : Nat
  column : Nat

/-- The tail of the emitted `parse` entry function: run the start rule
from a fresh state and raise `SyntaxError` exactly when the result is null
or input remains; otherwise return the result. -/
def evalParse (G : Grammar) (env : Env) (fuel : Nat) (startName : String) :
    Option (Except SyntaxErr Value) :=
  match evalRule G env fuel startName initGState with
  | none => none
  | some gv =>
    if gv.2.isNull || decide (gv.1.pos ≠ env.input.length) then
      some (Except.error
        { message := buildErrorMessage env.input gv.1.pos gv.1.failPos gv.1.failExp,
          line := (computeErrorPosition env.input gv.1.failPos).1,
          column := (computeErrorPosition env.input gv.1.failPos).2 })
    else some (Except.ok gv.2)

/- ### Contract vocabulary for the emitted-snippet semantics -/

/-- Memo-cache well-formedness maintained by the rule wrapper: a stored
entry `name@P ↦ (nextPos, v)` never moves the position backwards, and a
stored failure restores the position exactly. -/
def WFcache (g : GState) : Prop :=
  ∀ e ∈ g.cache, e.1.2 ≤ e.2.1 ∧ (e.2.2.isNull = true → e.2.1 = e.1.2)

/-- Cache keys are never dropped (`delete` is never emitted). -/
def cacheMono (g g' : GState) : Prop :=
  ∀ k, (lookupCache g.cache k).isSome = true → (lookupCache g'.cache k).isSome = true

/-- The body-evaluation log only grows. -/
def logMono (g g' : GState) : Prop :=
  ∃ L, g'.log = g.log ++ L

/-- Frame condition of the slot contract: local variables strictly below
the context's window are untouched. -/
def framePre (r p : Nat) (l l' : Locals) : Prop :=
  (∀ i, i < r → l'.res i = l.res i) ∧ (∀ i, i < p → l'.posv i = l.posv i)

/-- Agreement of two local frames on the window at or above the given
result and position indices (what a snippet is allowed to read). -/
def windowAgree (r p : Nat) (l1 l2 : Locals) : Prop :=
  (∀ i, r ≤ i → l1.res i = l2.res i) ∧ (∀ i, p ≤ i → l1.posv i = l2.posv i)

/-- Relating the outcomes of two runs differing only in out-of-window
locals: they fail together, update globals identically, and agree on the
window. -/
def outRel (r p : Nat) : Option EvalRes → Option EvalRes → Prop
  | none, none => True
  | some (EvalRes.withLoc g1 l1), some (EvalRes.withLoc g2 l2) =>
      g1 = g2 ∧ windowAgree r p l1 l2
  | some (EvalRes.withVal g1 v1), some (EvalRes.withVal g2 v2) =>
      g1 = g2 ∧ v1 = v2
  | _, _ => False

/-- Bundled global-state conditions every completed snippet satisfies. -/
def gOK (g g' : GState) : Prop :=
  WFcache g' ∧ cacheMono g g' ∧ logMono g g'

/-- The rule `s = "a"` used by concrete witnesses. -/
def ruleA : GRule :=
  { name := "s", displayName := none, expression := Expr.literal (String.data ("a")) }

/-- A one-rule grammar (`s = "a"`) used by concrete witnesses. -/
def gramA : Grammar :=
  { rules := [(("s"), ruleA)], startRule := "s" }

/-- The environment of a parse of `gramA` over the input "b" (predicates
and actions are never invoked). -/
def envB : Env :=
  { input := String.data ("b"), sem := fun _ => false, act := fun _ _ => Value.vnull }

/-- The state a run of `gramA`'s start rule on "b" ends in: the literal
fails at position 0 and records its quoted form. -/
def gStateB : GState :=
  { pos := 0, reportFailures := 0, failPos := 0, failExp := ["\"a\""],
    cache := [(("s", 0), (0, Value.vnull))], log := [("s", 0)] }

/-- The proxy rule `start = a` of the chain counterexample. -/
def ruleStart : GRule :=
  { name := "start", displayName := none, expression := Expr.rule_ref "a" }

/-- The proxy rule `a = b` of the chain counterexample. -/
def ruleAB : GRule :=
  { name := "a", displayName := none, expression := Expr.rule_ref "b" }

/-- The plain rule `b = "x"` of the chain counterexample. -/
def ruleBX : GRule :=
  { name := "b", displayName := none, expression := Expr.literal (String.data ("x")) }

/-- The surviving rule `c = start "y"` of the chain counterexample. -/
def ruleCSeq : GRule :=
  { name := "c", displayName := none,
    expression := Expr.sequence [Expr.rule_ref "start", Expr.literal (String.data ("y"))] }

/-- A grammar with the proxy chain `start → a → b` plus a surviving rule
`c` that references `start`. -/
def gChain : Grammar :=
  { rules := [(("start"), ruleStart), (("a"), ruleAB), (("b"), ruleBX), (("c"), ruleCSeq)],
    startRule := "start" }

/-- The environment of a parse over the input "ab" (predicates and
actions are never invoked by the snippets exercised on it). -/
def envAB : Env :=
  { input := String.data ("ab"), sem := fun _ => false, act := fun _ _ => Value.vnull }

/-- A local frame whose position slots all start at 42, to observe which
`pos<i>` variables a snippet writes. -/
def loc42 : Locals :=
  { res := fun _ => Value.vnull, posv := fun _ => 42 }

/-- The locals after `"a"` matches at context (0, 0) from `loc42`. -/
def locLitA : Locals :=
  setRes loc42 0 (Value.vstr [('a' : Char)])

/- ### C6 — error-position computation -/

theorem cepStep_nonneg (st : Nat × Nat × Bool) (ch : Char) (h1 : 1 ≤ st.1)
    (h2 : 1 ≤ st.2.1) : 1 ≤ (cepStep st ch).1 ∧ 1 ≤ (cepStep st ch).2.1 := by
  unfold cepStep
  split
  · constructor
    · split <;> simp <;> omega
    · simp
  · split <;> simp <;> omega

theorem cepSpec_step (ch : Char) (st : Nat × Nat × Bool) (rest : List Char) :
    cepSpec (ch :: rest) st = cepSpec rest (cepStep st ch) := by
  simp only [cepSpec, cepStep]
  by_cases hc : ch = '\r' ∨ ch = lineSep ∨ ch = paraSep
  · have hn : ¬ ch = '\n' := by
      rcases hc with h | h | h <;> subst h <;> decide
    simp [hc, hn]
  · by_cases hn : ch = '\n'
    · subst hn
      have hx : ¬('\n' = lineSep ∨ '\n' = paraSep) := by decide
      simp [hc, hx]
    · simp [hc, hn]

theorem cepSpec_eq_foldl (l : List Char) (st : Nat × Nat × Bool) :
    cepSpec l st = l.foldl cepStep st := by
  induction l generalizing st with
  | nil => simp [cepSpec]
  | cons ch rest ih => rw [cepSpec_step, List.foldl_cons, ih]

theorem range_foldl_eq_take_foldl (input : List Char) :
    ∀ n, n ≤ input.length →
    ∀ st : Nat × Nat × Bool,
      (List.range n).foldl (fun st i => cepStep st (charAtD input i)) st =
        (input.take n).foldl cepStep st := by
  intro n
  induction n with
  | zero => intro _ st; simp
  | succ m ih =>
    intro hle st
    have hm : m < input.length := by omega
    rw [List.range_succ, List.foldl_append]
    rw [ih (by omega) st]
    have : input.take (m + 1) = input.take m ++ [input.get ⟨m, hm⟩] := by
      rw [List.take_succ]
      congr 1
      rw [List.getElem?_eq_getElem hm]
      simp
    rw [this, List.foldl_append]
    simp only [List.foldl_cons, List.foldl_nil]
    congr 1
    unfold charAtD
    rw [List.getD_eq_getElem _ _ hm]
    simp

theorem cep_foldl_nonneg (l : List Char) :
    ∀ st : Nat × Nat × Bool, 1 ≤ st.1 → 1 ≤ st.2.1 →
      1 ≤ (l.foldl cepStep st).1 ∧ 1 ≤ (l.foldl cepStep st).2.1 := by
  induction l with
  | nil => intro st h1 h2; exact ⟨h1, h2⟩
  | cons ch rest ih =>
    intro st h1 h2
    have h := cepStep_nonneg st ch h1 h2
    simpa using ih (cepStep st ch) h.1 h.2

/-- C6 (counterexample): on the input U+2028 followed by '\n' with
`rightmostFailuresPos = 2`, the emitted walk reports line 2 (the '\n'
does not increment the line because `seenCR` was set by U+2028), while
the claim's rule — '\n' increments the line unless immediately preceded
by '\r' — predicts line 3. -/
theorem c6_counterexample :
    (computeErrorPosition [lineSep, '\n'] 2).1 = 2 ∧ claimLine [lineSep, '\n'] 2 = 3 := by
  constructor <;> decide

/-- C6 (amended): the emitted error-position computation walks the input
from offset 0 up to but not including `rightmostFailuresPos` and returns
1-based line and column, where '\n' increments line unless the `seenCR`
flag is set; each of '\r', U+2028, U+2029 increments line and sets the
`seenCR` flag; and any other character increments column and clears
`seenCR` (the suppression after U+2028/U+2029 is what the claim's
"immediately preceded by '\r'" phrasing misses). -/
theorem computeErrorPosition_spec (input : List Char) (n : Nat) (h : n ≤ input.length) :
    computeErrorPosition input n =
      ((cepSpec (input.take n) (1, 1, false)).1,
       (cepSpec (input.take n) (1, 1, false)).2.1) ∧
    1 ≤ (computeErrorPosition input n).1 ∧ 1 ≤ (computeErrorPosition input n).2 := by
  refine ⟨?_, ?_⟩
  · unfold computeErrorPosition
    rw [cepSpec_eq_foldl, range_foldl_eq_take_foldl input n h]
  · unfold computeErrorPosition
    have hmap : (List.range n).foldl (fun st i => cepStep st (charAtD input i)) (1, 1, false) =
        ((List.range n).map (charAtD input)).foldl cepStep (1, 1, false) := by
      rw [List.foldl_map]
    simp only [hmap]
    exact cep_foldl_nonneg _ _ (by decide) (by decide)

/-- C6 (witness): the amended theorem applied to the input "ab\ncd" with
failure position 4. -/
theorem computeErrorPosition_spec_witness :
    4 ≤ (String.data ("ab\ncd")).length ∧
    (computeErrorPosition (String.data ("ab\ncd")) 4 =
      ((cepSpec ((String.data ("ab\ncd")).take 4) (1, 1, false)).1,
       (cepSpec ((String.data ("ab\ncd")).take 4) (1, 1, false)).2.1) ∧
     1 ≤ (computeErrorPosition (String.data ("ab\ncd")) 4).1 ∧
     1 ≤ (computeErrorPosition (String.data ("ab\ncd")) 4).2) :=
  ⟨by decide, computeErrorPosition_spec (String.data ("ab\ncd")) 4 (by decide)⟩

/- ### C9 — start-rule selection -/

/-- C9 (counterexample): rules "a","b" with `grammar.startRule = "a"` and
`startRules = ["b"]` expose exactly the single rule "b"; yet calling the
generated parser with the explicit argument "b" — the one exposed rule —
raises "Invalid rule name", because the single-rule branch validates
against `grammar.startRule` ("a") and would invoke `parse_a`, not
`parse_b`.  This refutes the claim that an explicit argument equal to the
single exposed rule invokes that rule's parse function. -/
theorem c9_counterexample :
    exposedRules [("a" : String), "b"] [("b" : String)] = [("b" : String)] ∧
    dispatchStart (exposedRules [("a" : String), "b"] [("b" : String)]) ("a") (some ("b")) =
      DispatchOutcome.invalidRule := by
  constructor <;> rfl

/-- C9 (amended): a rule name is exposed iff it is a grammar rule that
`startRules` selects (all of them when `startRules` is empty).  When
exactly one rule is exposed, the generated `parse` raises for any explicit
`startRule` argument different from `grammar.startRule` and otherwise
invokes `grammar.startRule`'s parse function — which coincides with the
exposed rule precisely when `grammar.startRule` is exposed.  With several
exposed rules, an explicit unknown name raises, a known one dispatches to
it, and an absent argument defaults to `grammar.startRule` (whose table
entry need not exist). -/
theorem dispatchStart_spec (exposed : List String) (gs : String) :
    (∀ names srs n, n ∈ exposedRules names srs ↔
        n ∈ names ∧ (srs = [] ∨ n ∈ srs)) ∧
    (exposed.length = 1 →
      (∀ r, dispatchStart exposed gs (some r) =
        (if r = gs then DispatchOutcome.runRule gs else DispatchOutcome.invalidRule)) ∧
      dispatchStart exposed gs none = DispatchOutcome.runRule gs) ∧
    (exposed.length ≠ 1 →
      (∀ r, dispatchStart exposed gs (some r) =
        (if exposed.contains r then DispatchOutcome.runRule r
         else DispatchOutcome.invalidRule)) ∧
      dispatchStart exposed gs none =
        (if exposed.contains gs then DispatchOutcome.runRule gs
         else DispatchOutcome.notAFunction)) := by
  refine ⟨?_, ?_, ?_⟩
  · intro names srs n
    simp [exposedRules, List.mem_filter, List.isEmpty_iff]
  · intro h1
    constructor
    · intro r
      simp only [dispatchStart, h1, if_pos]
      by_cases hr : r = gs
      · simp [hr]
      · simp [hr]
    · simp [dispatchStart, h1]
  · intro h1
    constructor
    · intro r
      simp [dispatchStart, if_neg h1]
    · simp [dispatchStart, if_neg h1]

/-- C9 (witness): the amended theorem applied to the single-exposed-rule
configuration of the counterexample. -/
theorem dispatchStart_spec_witness :
    (dispatchStart [("b" : String)] ("a") (some ("b")) =
      (if ("b" : String) = ("a" : String) then DispatchOutcome.runRule ("a")
       else DispatchOutcome.invalidRule)) ∧
    dispatchStart [("b" : String)] ("a") none = DispatchOutcome.runRule ("a") :=
  ⟨((dispatchStart_spec [("b" : String)] ("a")).2.1 (by decide)).1 ("b"),
   ((dispatchStart_spec [("b" : String)] ("a")).2.1 (by decide)).2⟩

/- ### C7 — the template formatter -/

theorem interpGoF_no_dollar (vars : List (String × List Char)) :
    ∀ f l, ('$' : Char) ∉ l → interpGoF vars f l = Except.ok l := by
  intro f
  induction f with
  | zero => intro l _; rfl
  | succ f ih =>
    intro l h
    cases l with
    | nil => rfl
    | cons c rest =>
      have hc : ¬(c = '$') := by
        intro hh
        exact h (hh ▸ List.mem_cons_self c rest)
      have hr : ('$' : Char) ∉ rest := fun hh => h (List.mem_cons_of_mem _ hh)
      simp only [interpGoF, if_neg hc]
      rw [ih rest hr]
      rfl

theorem mapM_interpGo_no_dollar (vars : List (String × List Char)) :
    ∀ parts : List (List Char), (∀ p ∈ parts, ('$' : Char) ∉ p) →
      parts.mapM (interpGo vars) = Except.ok parts := by
  intro parts
  induction parts with
  | nil => intro _; rfl
  | cons p ps ih =>
    intro h
    have hp : interpGo vars p = Except.ok p :=
      interpGoF_no_dollar vars p.length p (h p (List.mem_cons_self p ps))
    have hps := ih (fun q hq => h q (List.mem_cons_of_mem _ hq))
    rw [List.mapM_cons, hp, hps]
    rfl

/-- C7: `formatCode` first replaces every `${name}` and `${name|filter}`
token in each part (the `string` filter quoting the value), then prefixes
every line after the first of a newline-containing part with that part's
first-line `[ \t]*` whitespace, then joins the parts with single newlines;
in particular the claim's two round-trip examples hold, and an undefined
variable or an unrecognized filter makes `formatCode` throw. -/
theorem formatCode_spec :
    formatCode [(String.data ("  ${x}"))] [("x", String.data ("a\nb"))] =
      Except.ok (String.data ("  a\n  b")) ∧
    formatCode [(String.data ("a")), (String.data ("${b|string}"))]
        [("b", String.data ("x"))] =
      Except.ok (String.data ("a\n\"x\"")) ∧
    formatCode [(String.data ("${q}"))] [] =
      Except.error (undefVarMsg (String.data ("q"))) ∧
    formatCode [(String.data ("${b|eeek}"))] [("b", String.data ("x"))] =
      Except.error (unrecFilterMsg (String.data ("eeek"))) ∧
    (∀ parts vars, formatCode parts vars =
      (parts.mapM (interpGo vars)).map (fun ps => joinNl (ps.map indentPart))) ∧
    (∀ parts vars, (∀ p ∈ parts, ('$' : Char) ∉ p) →
      formatCode parts vars = Except.ok (joinNl (parts.map indentPart))) := by
  refine ⟨by rfl, by rfl, by rfl, by rfl, ?_, ?_⟩
  · intro parts vars
    unfold formatCode
    cases h : parts.mapM (interpGo vars) with
    | ok ps => simp [h, Except.map]
    | error e => simp [h, Except.map]
  · intro parts vars h
    unfold formatCode
    rw [mapM_interpGo_no_dollar vars parts h]
    rfl

/-- C7 (witness): the join-and-indent component of the theorem applied to
two token-free parts. -/
theorem formatCode_spec_witness :
    (∀ p ∈ [(String.data ("ab")), (String.data ("c"))], ('$' : Char) ∉ p) ∧
    formatCode [(String.data ("ab")), (String.data ("c"))] [] =
      Except.ok (joinNl ([(String.data ("ab")), (String.data ("c"))].map indentPart)) :=
  ⟨by decide, formatCode_spec.2.2.2.2.2 [(String.data ("ab")), (String.data ("c"))] []
      (by decide)⟩

/- ### C5 — failure recording and SyntaxError synthesis -/

theorem cuLe_total : ∀ a b : List Char, cuLe a b = true ∨ cuLe b a = true := by
  intro a
  induction a with
  | nil => intro b; left; rfl
  | cons c cs ih =>
    intro b
    cases b with
    | nil => right; rfl
    | cons d ds =>
      simp only [cuLe]
      by_cases h1 : c.toNat < d.toNat
      · left
        rw [if_pos h1]
      · by_cases h2 : d.toNat < c.toNat
        · right
          rw [if_pos h2]
        · rw [if_neg h1, if_neg h2, if_neg h2, if_neg h1]
          exact ih ds

theorem strLe_total (a b : String) : strLe a b = true ∨ strLe b a = true :=
  cuLe_total a.data b.data

theorem insertStr_chain (x : String) :
    ∀ l, List.Chain' (fun a b => strLe a b = true) l →
      List.Chain' (fun a b => strLe a b = true) (insertStr x l) := by
  intro l
  induction l with
  | nil => intro _; simp [insertStr]
  | cons y ys ih =>
    intro h
    simp only [insertStr]
    by_cases hxy : strLe x y = true
    · rw [if_pos hxy]
      exact List.Chain'.cons hxy h
    · rw [if_neg hxy]
      have hyx : strLe y x = true := (strLe_total x y).resolve_left hxy
      have hys := (List.chain'_cons'.mp h).2
      have htail := ih hys
      refine List.chain'_cons'.mpr ⟨?_, htail⟩
      intro z hz
      cases ys with
      | nil =>
        simp [insertStr] at hz
        subst hz
        exact hyx
      | cons w ws =>
        simp only [insertStr] at hz
        by_cases hxw : strLe x w = true
        · rw [if_pos hxw] at hz
          simp at hz
          subst hz
          exact hyx
        · rw [if_neg hxw] at hz
          simp at hz
          subst hz
          exact (List.chain'_cons.mp h).1

theorem insertStr_perm (x : String) :
    ∀ l, List.Perm (insertStr x l) (x :: l) := by
  intro l
  induction l with
  | nil => simp [insertStr]
  | cons y ys ih =>
    simp only [insertStr]
    by_cases hxy : strLe x y = true
    · rw [if_pos hxy]
    · rw [if_neg hxy]
      exact List.Perm.trans (List.Perm.cons y ih) (List.Perm.swap x y ys)

theorem sortStr_chain (l : List String) :
    List.Chain' (fun a b => strLe a b = true) (sortStr l) := by
  induction l with
  | nil => simp [sortStr]
  | cons x xs ih => exact insertStr_chain x _ ih

theorem sortStr_perm (l : List String) : List.Perm (sortStr l) l := by
  induction l with
  | nil => simp [sortStr]
  | cons x xs ih =>
    simp only [sortStr]
    exact List.Perm.trans (insertStr_perm x (sortStr xs)) (List.Perm.cons x ih)

theorem take_len_sub_one : ∀ l : List String, l.take (l.length - 1) = l.dropLast := by
  intro l
  induction l with
  | nil => rfl
  | cons x xs ih =>
    cases xs with
    | nil => rfl
    | cons y ys =>
      have h1 : (x :: y :: ys).length - 1 = (y :: ys).length := by
        simp
      rw [h1]
      have h2 : (x :: y :: ys).take ((y :: ys).length) = x :: (y :: ys).take ((y :: ys).length - 1) := by
        simp [List.take_succ_cons]
      rw [h2]
      have h3 : (y :: ys).length - 1 = (y :: ys).length - 1 := rfl
      rw [ih]
      rfl

theorem buildExpected_render (u : List String) :
    (if u.length = 0 then ("end of input" : String)
     else if u.length = 1 then u.headD ""
     else joinComma (u.take (u.length - 1)) ++ " or " ++ u.getLastD "") =
      renderAlternatives u := by
  match u with
  | [] => rfl
  | [x] => rfl
  | x :: y :: ys =>
    have h0 : (x :: y :: ys).length ≠ 0 := by simp
    have h1 : (x :: y :: ys).length ≠ 1 := by simp
    rw [if_neg h0, if_neg h1]
    unfold renderAlternatives
    rw [take_len_sub_one]

theorem Value_isNull_iff (v : Value) : v.isNull = true ↔ v = Value.vnull := by
  cases v <;> simp [Value.isNull]

/-- C5: inside the emitted parser `matchFailed` is a total state update
(it never raises): a no-op when `pos < rightmostFailuresPos`, a
reset-and-record when `pos > rightmostFailuresPos`, an append otherwise;
the `parse` entry raises `SyntaxError` exactly when the start rule's
result is null or `pos` differs from the input length; and its message's
expected part is the sorted, consecutively-deduplicated alternatives
rendered as "end of input" / the single alternative / a comma join with
" or " before the last. -/
theorem matchFailed_and_raise_spec (G : Grammar) (env : Env) (fuel : Nat)
    (start : String) (g : GState) (v : Value)
    (h : evalRule G env fuel start initGState = some (g, v)) :
    (∀ exp g0,
      (g0.pos < g0.failPos → matchFailed exp g0 = g0) ∧
      (g0.pos > g0.failPos →
        matchFailed exp g0 = { g0 with failPos := g0.pos, failExp := [exp] }) ∧
      (g0.pos = g0.failPos →
        matchFailed exp g0 = { g0 with failExp := g0.failExp ++ [exp] })) ∧
    ((∃ e, evalParse G env fuel start = some (Except.error e)) ↔
      (v = Value.vnull ∨ g.pos ≠ env.input.length)) ∧
    (∀ e, evalParse G env fuel start = some (Except.error e) →
      e.message = buildErrorMessage env.input g.pos g.failPos g.failExp ∧
      e.line = (computeErrorPosition env.input g.failPos).1 ∧
      e.column = (computeErrorPosition env.input g.failPos).2) ∧
    (v ≠ Value.vnull → g.pos = env.input.length →
      evalParse G env fuel start = some (Except.ok v)) ∧
    (∀ l, buildExpected l = renderAlternatives (dedupeConsec (sortStr l)) ∧
      List.Chain' (fun a b => strLe a b = true) (sortStr l) ∧
      List.Perm (sortStr l) l) := by
  refine ⟨?_, ?_, ?_, ?_, ?_⟩
  · intro exp g0
    refine ⟨?_, ?_, ?_⟩
    · intro hlt
      unfold matchFailed
      rw [if_pos hlt]
    · intro hgt
      unfold matchFailed
      rw [if_neg (by omega), if_pos hgt]
    · intro heq
      unfold matchFailed
      rw [if_neg (by omega), if_neg (by omega)]
  · unfold evalParse
    rw [h]
    dsimp only
    by_cases hc : v.isNull = true ∨ g.pos ≠ env.input.length
    · constructor
      · intro _
        rcases hc with hn | hp
        · exact Or.inl ((Value_isNull_iff v).mp hn)
        · exact Or.inr hp
      · intro _
        have : (v.isNull || decide (g.pos ≠ env.input.length)) = true := by
          rcases hc with hn | hp
          · simp [hn]
          · simp [hp]
        rw [if_pos this]
        exact ⟨_, rfl⟩
    · push_neg at hc
      obtain ⟨hn, hp⟩ := hc
      have hft : (v.isNull || decide (g.pos ≠ env.input.length)) = false := by
        simp only [Bool.or_eq_false_iff]
        refine ⟨?_, by simp [hp]⟩
        cases hb : v.isNull with
        | false => rfl
        | true => exact absurd hb hn
      rw [if_neg (by rw [hft]; simp)]
      constructor
      · intro ⟨e, he⟩
        simp at he
      · intro hor
        rcases hor with h1 | h2
        · exact absurd ((Value_isNull_iff v).mpr h1) hn
        · exact absurd h2 (by simpa using hp)
  · intro e he
    unfold evalParse at he
    rw [h] at he
    dsimp only at he
    by_cases hc : (v.isNull || decide (g.pos ≠ env.input.length)) = true
    · rw [if_pos hc] at he
      have : e = { message := buildErrorMessage env.input g.pos g.failPos g.failExp,
                   line := (computeErrorPosition env.input g.failPos).1,
                   column := (computeErrorPosition env.input g.failPos).2 } := by
        simpa using he.symm
      rw [this]
      exact ⟨rfl, rfl, rfl⟩
    · rw [if_neg hc] at he
      simp at he
  · intro hn hp
    unfold evalParse
    rw [h]
    dsimp only
    have hft : (v.isNull || decide (g.pos ≠ env.input.length)) = false := by
      simp only [Bool.or_eq_false_iff]
      refine ⟨?_, by simp [hp]⟩
      cases v with
      | vnull => exact absurd rfl hn
      | vstr s => rfl
      | varr vs => rfl
    rw [if_neg (by rw [hft]; simp)]
  · intro l
    refine ⟨?_, sortStr_chain l, sortStr_perm l⟩
    unfold buildExpected
    exact buildExpected_render (dedupeConsec (sortStr l))

/-- C5 (witness): the theorem applied to the failing parse of `s = "a"`
over the input "b", whose SyntaxError raise condition holds because the
rule's result is null. -/
theorem matchFailed_and_raise_spec_witness :
    evalRule gramA envB 10 ("s") initGState = some (gStateB, Value.vnull) ∧
    ((∃ e, evalParse gramA envB 10 ("s") = some (Except.error e)) ↔
      (Value.vnull = Value.vnull ∨ gStateB.pos ≠ envB.input.length)) :=
  ⟨by rfl,
   (matchFailed_and_raise_spec gramA envB 10 ("s") gStateB Value.vnull (by rfl)).2.1⟩

/- ### C4 — stack-depth annotation -/

theorem le_foldl_max (l : List Int) : ∀ a : Int, a ≤ l.foldl max a ∧
    ∀ x ∈ l, x ≤ l.foldl max a := by
  induction l with
  | nil => intro a; exact ⟨le_refl a, by simp⟩
  | cons b t ih =>
    intro a
    have h := ih (max a b)
    constructor
    · exact le_trans (le_max_left a b) h.1
    · intro x hx
      rcases List.mem_cons.mp hx with rfl | hxt
      · exact le_trans (le_max_right a x) h.1
      · exact h.2 x hxt

theorem le_jsMaxList (l : List Int) (x : Int) (hx : x ∈ l) : x ≤ jsMaxList l := by
  cases l with
  | nil => simp at hx
  | cons a t =>
    simp only [jsMaxList]
    rcases List.mem_cons.mp hx with rfl | hxt
    · exact (le_foldl_max t x).1
    · exact (le_foldl_max t a).2 x hxt

theorem depths_nonneg_aux :
    ∀ n, ∀ e : Expr, sizeOf e ≤ n → wfExpr e = true →
      0 ≤ resultDepth e ∧ 0 ≤ posDepth e := by
  intro n
  induction n with
  | zero =>
    intro e h
    cases e <;> simp at h
  | succ n ih =>
    intro e hsz hwf
    cases e with
    | choice alts =>
      cases alts with
      | nil => simp [wfExpr] at hwf
      | cons a rest =>
        have hwa : wfExpr a = true := by
          simp [wfExpr, wfExprList] at hwf
          exact hwf.1
        have hsa : sizeOf a ≤ n := by
          simp at hsz
          omega
        have ha := ih a hsa hwa
        constructor
        · refine le_trans ha.1 (le_jsMaxList _ _ ?_)
          simp [resultDepthList]
        · refine le_trans ha.2 (le_jsMaxList _ _ ?_)
          simp [posDepthList]
    | sequence elems =>
      cases elems with
      | nil => simp [wfExpr] at hwf
      | cons a rest =>
        have hwa : wfExpr a = true := by
          simp [wfExpr, wfExprList] at hwf
          exact hwf.1
        have hsa : sizeOf a ≤ n := by
          simp at hsz
          omega
        have ha := ih a hsa hwa
        constructor
        · have hmem : ((0 : Nat) : Int) + resultDepth a ∈ addIndices (resultDepthList (a :: rest)) := by
            simp [addIndices, resultDepthList, List.enum_cons]
          have := le_jsMaxList _ _ hmem
          simp only [resultDepth]
          omega
        · have hmem : posDepth a ∈ posDepthList (a :: rest) := by
            simp [posDepthList]
          have := le_jsMaxList _ _ hmem
          simp only [posDepth]
          omega
    | labeled l e1 =>
      have h1 := ih e1 (by simp at hsz; omega) (by simpa [wfExpr] using hwf)
      simpa [resultDepth, posDepth] using h1
    | simple_and e1 =>
      have h1 := ih e1 (by simp at hsz; omega) (by simpa [wfExpr] using hwf)
      simp only [resultDepth, posDepth]
      omega
    | simple_not e1 =>
      have h1 := ih e1 (by simp at hsz; omega) (by simpa [wfExpr] using hwf)
      simp only [resultDepth, posDepth]
      omega
    | semantic_and c => simp [resultDepth, posDepth]
    | semantic_not c => simp [resultDepth, posDepth]
    | optional e1 =>
      have h1 := ih e1 (by simp at hsz; omega) (by simpa [wfExpr] using hwf)
      simpa [resultDepth, posDepth] using h1
    | zero_or_more e1 =>
      have h1 := ih e1 (by simp at hsz; omega) (by simpa [wfExpr] using hwf)
      simp only [resultDepth, posDepth]
      omega
    | one_or_more e1 =>
      have h1 := ih e1 (by simp at hsz; omega) (by simpa [wfExpr] using hwf)
      simp only [resultDepth, posDepth]
      omega
    | action e1 c =>
      have h1 := ih e1 (by simp at hsz; omega) (by simpa [wfExpr] using hwf)
      simp only [resultDepth, posDepth]
      omega
    | rule_ref nm => simp [resultDepth, posDepth]
    | literal v => simp [resultDepth, posDepth]
    | any => simp [resultDepth, posDepth]
    | cls p i r => simp [resultDepth, posDepth]

/-- C4: after the stack-depth pass every rule node and expression node of
a well-formed AST carries non-negative `resultStackDepth` and
`posStackDepth` (with a rule's depths at least 1), and the annotations
satisfy the claimed recurrence: leaves get 0/0; `labeled` and `optional`
copy the child; `simple_and`, `simple_not` and `action` add 1 to the pos
depth only; repetitions add 1 to the result depth only; `choice` takes
maxima over alternatives; a sequence with elements `e_0..e_{n-1}` gets
result depth `1 + max_i (i + e_i.resultStackDepth)` and pos depth
`1 + max_e e.posStackDepth`; a rule adds 1 to both. -/
theorem stackDepths_spec :
    (∀ e : Expr, wfExpr e = true → 0 ≤ resultDepth e ∧ 0 ≤ posDepth e) ∧
    (∀ rl : GRule, wfExpr rl.expression = true →
      1 ≤ ruleResultDepth rl ∧ 1 ≤ rulePosDepth rl) ∧
    (∀ nm, resultDepth (Expr.rule_ref nm) = 0 ∧ posDepth (Expr.rule_ref nm) = 0) ∧
    (∀ v, resultDepth (Expr.literal v) = 0 ∧ posDepth (Expr.literal v) = 0) ∧
    (resultDepth Expr.any = 0 ∧ posDepth Expr.any = 0) ∧
    (∀ p i r, resultDepth (Expr.cls p i r) = 0 ∧ posDepth (Expr.cls p i r) = 0) ∧
    (∀ c, resultDepth (Expr.semantic_and c) = 0 ∧ posDepth (Expr.semantic_and c) = 0 ∧
      resultDepth (Expr.semantic_not c) = 0 ∧ posDepth (Expr.semantic_not c) = 0) ∧
    (∀ l e, resultDepth (Expr.labeled l e) = resultDepth e ∧
      posDepth (Expr.labeled l e) = posDepth e) ∧
    (∀ e, resultDepth (Expr.optional e) = resultDepth e ∧
      posDepth (Expr.optional e) = posDepth e) ∧
    (∀ e, resultDepth (Expr.simple_and e) = resultDepth e ∧
      posDepth (Expr.simple_and e) = posDepth e + 1) ∧
    (∀ e, resultDepth (Expr.simple_not e) = resultDepth e ∧
      posDepth (Expr.simple_not e) = posDepth e + 1) ∧
    (∀ e c, resultDepth (Expr.action e c) = resultDepth e ∧
      posDepth (Expr.action e c) = posDepth e + 1) ∧
    (∀ e, resultDepth (Expr.zero_or_more e) = resultDepth e + 1 ∧
      posDepth (Expr.zero_or_more e) = posDepth e) ∧
    (∀ e, resultDepth (Expr.one_or_more e) = resultDepth e + 1 ∧
      posDepth (Expr.one_or_more e) = posDepth e) ∧
    (∀ alts, resultDepth (Expr.choice alts) = jsMaxList (resultDepthList alts) ∧
      posDepth (Expr.choice alts) = jsMaxList (posDepthList alts)) ∧
    (∀ elems, resultDepth (Expr.sequence elems) =
        1 + jsMaxList (addIndices (resultDepthList elems)) ∧
      posDepth (Expr.sequence elems) = 1 + jsMaxList (posDepthList elems)) ∧
    (∀ rl : GRule, ruleResultDepth rl = resultDepth rl.expression + 1 ∧
      rulePosDepth rl = posDepth rl.expression + 1) := by
  refine ⟨?_, ?_, ?_, ?_, ?_, ?_, ?_, ?_, ?_, ?_, ?_, ?_, ?_, ?_, ?_, ?_, ?_⟩
  · intro e hwf
    exact depths_nonneg_aux (sizeOf e) e (le_refl _) hwf
  · intro rl hwf
    have h := depths_nonneg_aux (sizeOf rl.expression) rl.expression (le_refl _) hwf
    unfold ruleResultDepth rulePosDepth
    omega
  · intro nm; exact ⟨rfl, rfl⟩
  · intro v; exact ⟨rfl, rfl⟩
  · exact ⟨rfl, rfl⟩
  · intro p i r; exact ⟨rfl, rfl⟩
  · intro c; exact ⟨rfl, rfl, rfl, rfl⟩
  · intro l e; exact ⟨rfl, rfl⟩
  · intro e; exact ⟨rfl, rfl⟩
  · intro e; exact ⟨rfl, rfl⟩
  · intro e; exact ⟨rfl, rfl⟩
  · intro e c; exact ⟨rfl, rfl⟩
  · intro e; exact ⟨rfl, rfl⟩
  · intro e; exact ⟨rfl, rfl⟩
  · intro alts; exact ⟨rfl, rfl⟩
  · intro elems; exact ⟨rfl, rfl⟩
  · intro rl; exact ⟨rfl, rfl⟩

/-- C4 (witness): the non-negativity component applied to the sequence
`"a" ("b")*`, a well-formed AST whose depths the pass computes as 3/1. -/
theorem stackDepths_spec_witness :
    wfExpr (Expr.sequence [Expr.literal (String.data ("a")),
      Expr.zero_or_more (Expr.literal (String.data ("b")))]) = true ∧
    (0 ≤ resultDepth (Expr.sequence [Expr.literal (String.data ("a")),
        Expr.zero_or_more (Expr.literal (String.data ("b")))]) ∧
     0 ≤ posDepth (Expr.sequence [Expr.literal (String.data ("a")),
        Expr.zero_or_more (Expr.literal (String.data ("b")))])) :=
  ⟨by rfl,
   stackDepths_spec.1 (Expr.sequence [Expr.literal (String.data ("a")),
      Expr.zero_or_more (Expr.literal (String.data ("b")))]) (by rfl)⟩

/- ### C3 — proxy-rule elimination -/

theorem isRef_replaceExpr (f t : String) (e : Expr) :
    isRef (replaceExpr f t e) = isRef e := by
  cases e <;> rfl

theorem refTarget_none_isRef (e : Expr) (h : refTarget e = none) :
    isRef e = false := by
  cases e <;> first | rfl | simp [refTarget] at h

theorem refNames_replace_aux (f t : String) :
    ∀ n : Nat,
      (∀ e : Expr, sizeOf e ≤ n →
        refNames (replaceExpr f t e) =
          (refNames e).map (fun x => if x = f then t else x)) ∧
      (∀ l : List Expr, sizeOf l ≤ n →
        refNamesList (replaceExprList f t l) =
          (refNamesList l).map (fun x => if x = f then t else x)) := by
  intro n
  induction n with
  | zero =>
    constructor
    · intro e h
      cases e <;> simp at h
    · intro l h
      cases l with
      | nil => rfl
      | cons e es => simp at h
  | succ n ih =>
    constructor
    · intro e hsz
      cases e with
      | choice alts =>
        simp only [replaceExpr, refNames]
        exact ih.2 alts (by simp at hsz; omega)
      | sequence elems =>
        simp only [replaceExpr, refNames]
        exact ih.2 elems (by simp at hsz; omega)
      | labeled l e1 =>
        simp only [replaceExpr, refNames]
        exact ih.1 e1 (by simp at hsz; omega)
      | simple_and e1 =>
        simp only [replaceExpr, refNames]
        exact ih.1 e1 (by simp at hsz; omega)
      | simple_not e1 =>
        simp only [replaceExpr, refNames]
        exact ih.1 e1 (by simp at hsz; omega)
      | semantic_and c => rfl
      | semantic_not c => rfl
      | optional e1 =>
        simp only [replaceExpr, refNames]
        exact ih.1 e1 (by simp at hsz; omega)
      | zero_or_more e1 =>
        simp only [replaceExpr, refNames]
        exact ih.1 e1 (by simp at hsz; omega)
      | one_or_more e1 =>
        simp only [replaceExpr, refNames]
        exact ih.1 e1 (by simp at hsz; omega)
      | action e1 c =>
        simp only [replaceExpr, refNames]
        exact ih.1 e1 (by simp at hsz; omega)
      | rule_ref nm => simp [replaceExpr, refNames]
      | literal v => rfl
      | any => rfl
      | cls p i r => rfl
    · intro l hsz
      cases l with
      | nil => rfl
      | cons e es =>
        simp only [replaceExprList, refNamesList, List.map_append]
        rw [ih.1 e (by simp at hsz; omega), ih.2 es (by simp at hsz; omega)]

theorem refNames_replaceExpr (f t : String) (e : Expr) :
    refNames (replaceExpr f t e) =
      (refNames e).map (fun x => if x = f then t else x) :=
  (refNames_replace_aux f t (sizeOf e)).1 e (le_refl _)

theorem keys_unique (rules : List (String × GRule))
    (h : (rules.map (fun kv => kv.1)).Nodup) :
    ∀ kv ∈ rules, ∀ kv' ∈ rules, kv.1 = kv'.1 → kv = kv' := by
  induction rules with
  | nil => intro kv hkv; simp at hkv
  | cons a rest ih =>
    intro kv hkv kv' hkv' hk
    simp only [List.map_cons, List.nodup_cons] at h
    rcases List.mem_cons.mp hkv with rfl | hkvt
    · rcases List.mem_cons.mp hkv' with rfl | hkvt'
      · rfl
      · exact absurd (hk ▸ List.mem_map_of_mem (fun kv => kv.1) hkvt') h.1
    · rcases List.mem_cons.mp hkv' with rfl | hkvt'
      · exact absurd (hk ▸ List.mem_map_of_mem (fun kv => kv.1) hkvt) h.1
      · exact ih h.2 kv hkvt kv' hkvt' hk

theorem proxyStep_entry (g : Grammar) (nm : String) :
    ∀ kv' ∈ (proxyStep g nm).rules, ∃ kv ∈ g.rules, kv'.1 = kv.1 ∧
      isRef kv'.2.expression = isRef kv.2.expression := by
  intro kv' h
  unfold proxyStep at h
  cases hf : g.rules.find? (fun kv => kv.1 = nm) with
  | none =>
    rw [hf] at h
    exact ⟨kv', h, rfl, rfl⟩
  | some kv0 =>
    rw [hf] at h
    dsimp only at h
    cases hrt : refTarget kv0.2.expression with
    | none =>
      rw [hrt] at h
      exact ⟨kv', h, rfl, rfl⟩
    | some target =>
      rw [hrt] at h
      dsimp only at h
      have h2 := List.mem_filter.mp h
      obtain ⟨a, b, hab, heq⟩ := by simpa [replaceGrammar] using h2.1
      refine ⟨(a, b), hab, ?_, ?_⟩
      · rw [← heq]
      · rw [← heq]
        exact isRef_replaceExpr _ _ _

theorem proxyStep_keys_nodup (g : Grammar) (nm : String)
    (h : (g.rules.map (fun kv => kv.1)).Nodup) :
    ((proxyStep g nm).rules.map (fun kv => kv.1)).Nodup := by
  unfold proxyStep
  cases hf : g.rules.find? (fun kv => kv.1 = nm) with
  | none => exact h
  | some kv0 =>
    dsimp only
    cases hrt : refTarget kv0.2.expression with
    | none => exact h
    | some target =>
      dsimp only
      have hmapkeys :
          ((replaceGrammar kv0.2.name target g).rules.map (fun kv => kv.1)) =
            g.rules.map (fun kv => kv.1) := by
        simp [replaceGrammar, List.map_map]
      have hsub := List.Sublist.map (fun kv : String × GRule => kv.1)
        (List.filter_sublist (l := (replaceGrammar kv0.2.name target g).rules)
          (p := fun kv2 => kv2.1 ≠ nm))
      rw [hmapkeys] at hsub
      exact List.Nodup.sublist hsub h

theorem fold_entry :
    ∀ (names : List String) (g : Grammar),
      ∀ kv' ∈ (names.foldl proxyStep g).rules, ∃ kv ∈ g.rules, kv'.1 = kv.1 ∧
        isRef kv'.2.expression = isRef kv.2.expression := by
  intro names
  induction names with
  | nil =>
    intro g kv' h
    exact ⟨kv', h, rfl, rfl⟩
  | cons nm rest ih =>
    intro g kv' h
    rw [List.foldl_cons] at h
    obtain ⟨kv1, hkv1, hk1, hr1⟩ := ih (proxyStep g nm) kv' h
    obtain ⟨kv2, hkv2, hk2, hr2⟩ := proxyStep_entry g nm kv1 hkv1
    exact ⟨kv2, hkv2, hk1.trans hk2, hr1.trans hr2⟩

theorem fold_no_proxy :
    ∀ (names : List String) (g : Grammar),
      (g.rules.map (fun kv => kv.1)).Nodup →
      (∀ kv ∈ g.rules, kv.1 ∉ names → isRef kv.2.expression = false) →
      ∀ kv ∈ (names.foldl proxyStep g).rules, isRef kv.2.expression = false := by
  intro names
  induction names with
  | nil =>
    intro g _ hinv kv hkv
    exact hinv kv hkv (by simp)
  | cons nm rest ih =>
    intro g hnd hinv
    rw [List.foldl_cons]
    refine ih (proxyStep g nm) (proxyStep_keys_nodup g nm hnd) ?_
    intro kv hkv hnin
    revert hkv
    unfold proxyStep
    cases hf : g.rules.find? (fun kv2 => kv2.1 = nm) with
    | none =>
      intro hkv
      by_cases hknm : kv.1 = nm
      · exfalso
        have hall := List.find?_eq_none.mp hf kv hkv
        simp [hknm] at hall
      · refine hinv kv hkv ?_
        intro hmem
        rcases List.mem_cons.mp hmem with h1 | h1
        · exact hknm h1
        · exact hnin h1
    | some kv0 =>
      dsimp only
      cases hrt : refTarget kv0.2.expression with
      | none =>
        intro hkv
        by_cases hknm : kv.1 = nm
        · have hkv0mem := List.mem_of_find?_eq_some hf
          have hkv0key : kv0.1 = nm := by simpa using List.find?_some hf
          have heq : kv = kv0 :=
            keys_unique g.rules hnd kv hkv kv0 hkv0mem (by rw [hknm, hkv0key])
          rw [heq]
          exact refTarget_none_isRef _ hrt
        · refine hinv kv hkv ?_
          intro hmem
          rcases List.mem_cons.mp hmem with h1 | h1
          · exact hknm h1
          · exact hnin h1
      | some target =>
        dsimp only
        intro hkv
        have h2 := List.mem_filter.mp hkv
        obtain ⟨a, b, hab, heq⟩ := by simpa [replaceGrammar] using h2.1
        have hkne : kv.1 ≠ nm := by simpa using h2.2
        have hkey : kv.1 = a := by rw [← heq]
        rw [hkey] at hkne hnin
        have hiso : isRef kv.2.expression = isRef (a, b).2.expression := by
          rw [← heq]
          exact isRef_replaceExpr _ _ _
        rw [hiso]
        refine hinv (a, b) hab ?_
        intro hmem
        rcases List.mem_cons.mp hmem with h1 | h1
        · exact hkne h1
        · exact hnin h1

/-- C3 (counterexample): in the proxy chain `start = a; a = b; b = "x"`
with `startRule = "start"`, the removed proxy `start` has target `T = "a"`,
but after the pass `grammar.startRule` is "b" and the `rule_ref` in `c`
that named `start` is named "b" — not `T` — because later removals
rewrite again.  This refutes the claim that refs to a removed proxy `R`
end up named exactly `R`'s target. -/
theorem c3_counterexample :
    refTarget ruleStart.expression = some ("a") ∧
    gChain.startRule = ("start" : String) ∧
    (proxyRules gChain).startRule = ("b" : String) ∧
    ((proxyRules gChain).rules.find? (fun kv => kv.1 = ("c" : String))).map
        (fun kv => refNames kv.2.expression) = some [("b" : String)] ∧
    ("b" : String) ≠ ("a" : String) :=
  ⟨rfl, rfl, rfl, rfl, by decide⟩

theorem proxyRules_no_proxy (g : Grammar)
    (hnd : (g.rules.map (fun kv => kv.1)).Nodup) :
    ∀ kv ∈ (proxyRules g).rules, isRef kv.2.expression = false := by
  intro kv hkv
  unfold proxyRules at hkv
  refine fold_no_proxy (g.rules.map (fun kv => kv.1)) g hnd ?_ kv hkv
  intro kv2 hkv2 hnin
  exact absurd (List.mem_map_of_mem (fun kv => kv.1) hkv2) hnin

/-- C3 (amended): after the pass no remaining rule's body is a bare
`rule_ref`, and every rule whose body was a `rule_ref` has been removed.
Reference rewriting holds step-wise: the step removing proxy key `R`
with current target `T` rewrites every `rule_ref` named `R.name` to `T` in
every surviving body (so none names the removed rule when `T` differs
from it) and sets `startRule` to `T` when it equalled `R`; later steps may
rewrite those names again, so after the whole pass a reference follows
the chain of removed proxies rather than stopping at the first target. -/
theorem proxyRules_spec :
    (∀ g : Grammar, (g.rules.map (fun kv => kv.1)).Nodup →
      ∀ kv ∈ (proxyRules g).rules, isRef kv.2.expression = false) ∧
    (∀ g : Grammar, (g.rules.map (fun kv => kv.1)).Nodup →
      ∀ kv ∈ g.rules, isRef kv.2.expression = true →
        ∀ kv' ∈ (proxyRules g).rules, kv'.1 ≠ kv.1) ∧
    (∀ f t e, refNames (replaceExpr f t e) =
      (refNames e).map (fun x => if x = f then t else x)) ∧
    (∀ g nm kv0 target, g.rules.find? (fun kv => kv.1 = nm) = some kv0 →
      refTarget kv0.2.expression = some target →
      (proxyStep g nm).startRule =
        (if nm = g.startRule then target else g.startRule) ∧
      (∀ kv' ∈ (proxyStep g nm).rules, kv'.1 ≠ nm ∧
        ∃ kv ∈ g.rules, kv'.1 = kv.1 ∧
          kv'.2.expression = replaceExpr kv0.2.name target kv.2.expression) ∧
      (target ≠ kv0.2.name →
        ∀ kv' ∈ (proxyStep g nm).rules, kv0.2.name ∉ refNames kv'.2.expression)) := by
  refine ⟨proxyRules_no_proxy, ?_, refNames_replaceExpr, ?_⟩
  · intro g hnd kv hkv href kv' hkv' hkeq
    have hkv2' := hkv'
    unfold proxyRules at hkv2'
    obtain ⟨kv2, hkv2, hk2, hr2⟩ := fold_entry (g.rules.map (fun kv => kv.1)) g kv' hkv2'
    have hkv2eq : kv2 = kv := keys_unique g.rules hnd kv2 hkv2 kv hkv (by rw [← hk2, hkeq])
    have hfalse := proxyRules_no_proxy g hnd kv' hkv'
    rw [hr2, hkv2eq, href] at hfalse
    exact absurd hfalse (by simp)
  · intro g nm kv0 target hf hrt
    unfold proxyStep
    rw [hf]
    dsimp only
    rw [hrt]
    dsimp only
    refine ⟨rfl, ?_, ?_⟩
    · intro kv' h
      have h2 := List.mem_filter.mp h
      obtain ⟨a, b, hab, heq⟩ := by simpa [replaceGrammar] using h2.1
      refine ⟨by simpa using h2.2, (a, b), hab, ?_, ?_⟩
      · rw [← heq]
      · rw [← heq]
    · intro hne kv' h
      have h2 := List.mem_filter.mp h
      obtain ⟨a, b, hab, heq⟩ := by simpa [replaceGrammar] using h2.1
      have hexp : kv'.2.expression = replaceExpr kv0.2.name target b.expression := by
        rw [← heq]
      rw [hexp, refNames_replaceExpr]
      intro hcontra
      obtain ⟨x, hx, hxe⟩ := List.mem_map.mp hcontra
      by_cases hxf : x = kv0.2.name
      · rw [if_pos hxf] at hxe
        exact hne hxe
      · rw [if_neg hxf] at hxe
        exact hxf hxe

/-- C3 (witness): after the pass on the chain grammar, no surviving rule
body is a bare `rule_ref`. -/
theorem proxyRules_spec_witness :
    ((gChain.rules.map (fun kv => kv.1)).Nodup) ∧
    (∀ kv ∈ (proxyRules gChain).rules, isRef kv.2.expression = false) :=
  ⟨by decide, proxyRules_spec.1 gChain (by decide)⟩

/- ### C8 — quote round-trip -/

theorem cmap_append (f : Char → List Char) :
    ∀ a b : List Char, cmap f (a ++ b) = cmap f a ++ cmap f b := by
  intro a b
  induction a with
  | nil => rfl
  | cons c cs ih => simp [cmap, ih]

theorem quoteBody_eq_cmap (s : List Char) : quoteBody s = cmap qchar s := by
  induction s with
  | nil => rfl
  | cons c cs ih =>
    unfold quoteBody at ih ⊢
    have hstep : cmap repBackslash (c :: cs) = repBackslash c ++ cmap repBackslash cs := by
      simp [cmap]
    rw [hstep, cmap_append, cmap_append, cmap_append, cmap_append, cmap_append, cmap_append]
    rw [ih]
    rfl

theorem mem_cmap (f : Char → List Char) (c' : Char) :
    ∀ l : List Char, c' ∈ cmap f l → ∃ c ∈ l, c' ∈ f c := by
  intro l
  induction l with
  | nil => intro h; simp [cmap] at h
  | cons c cs ih =>
    intro h
    rcases List.mem_append.mp (by simpa [cmap] using h) with h1 | h1
    · exact ⟨c, List.mem_cons_self c cs, h1⟩
    · obtain ⟨d, hd, hcd⟩ := ih h1
      exact ⟨d, List.mem_cons_of_mem c hd, hcd⟩

theorem qchar_eq (c : Char) :
    qchar c =
      if c = '\\' then ['\\', '\\']
      else if c = '"' then ['\\', '"']
      else if c = '\r' then ['\\', 'r']
      else if c = '\n' then ['\\', 'n']
      else if c = '\t' then ['\\', 't']
      else if c = '\x0C' then ['\\', 'f']
      else if jsInRange c then [c]
      else escape c := by
  by_cases h1 : c = '\\'
  · subst h1; decide
  by_cases h2 : c = '"'
  · subst h2; simp [h1]; decide
  by_cases h3 : c = '\r'
  · subst h3; simp [h1, h2]; decide
  by_cases h4 : c = '\n'
  · subst h4; simp [h1, h2, h3]; decide
  by_cases h5 : c = '\t'
  · subst h5; simp [h1, h2, h3, h4]; decide
  by_cases h6 : c = '\x0C'
  · subst h6; simp [h1, h2, h3, h4, h5]; decide
  rw [if_neg h1, if_neg h2, if_neg h3, if_neg h4, if_neg h5, if_neg h6]
  unfold qchar
  rw [show repBackslash c = [c] from if_neg h1]
  have e2 : cmap repQuote [c] = [c] := by simp [cmap, repQuote, h2]
  have e3 : cmap repCR [c] = [c] := by simp [cmap, repCR, h3]
  have e4 : cmap repLF [c] = [c] := by simp [cmap, repLF, h4]
  have e5 : cmap repTab [c] = [c] := by simp [cmap, repTab, h5]
  have e6 : cmap repFF [c] = [c] := by simp [cmap, repFF, h6]
  rw [e2, e3, e4, e5, e6]
  by_cases h7 : jsInRange c
  · simp [cmap, repNonAscii, h7]
  · simp [cmap, repNonAscii, h7]

theorem toHex_small (n : Nat) (h : n < 16) : toHex n = [hexDig n] := by
  cases n with
  | zero => rfl
  | succ m => simp [toHex, toHexF, h]

theorem toHexF_suff : ∀ f, ∀ n, n ≤ f → toHexF f n = toHex n := by
  intro f
  induction f using Nat.strong_induction_on with
  | _ f ih =>
    intro n hn
    cases f with
    | zero =>
      have : n = 0 := by omega
      subst this
      rfl
    | succ f' =>
      by_cases h16 : n < 16
      · rw [toHex_small n h16]
        simp [toHexF, h16]
      · have hdiv : n / 16 < n := Nat.div_lt_self (by omega) (by omega)
        cases n with
        | zero => omega
        | succ m =>
          have lhs : toHexF (f' + 1) (m + 1) =
              toHexF f' ((m + 1) / 16) ++ [hexDig ((m + 1) % 16)] := by
            simp [toHexF, h16]
          have rhs : toHex (m + 1) =
              toHexF m ((m + 1) / 16) ++ [hexDig ((m + 1) % 16)] := by
            show toHexF (m + 1) (m + 1) = _
            simp [toHexF, h16]
          rw [lhs, rhs]
          rw [ih f' (by omega) ((m + 1) / 16) (by omega)]
          rw [ih m (by omega) ((m + 1) / 16) (by omega)]

theorem toHex_rec (n : Nat) :
    toHex n = if n < 16 then [hexDig n]
      else toHex (n / 16) ++ [hexDig (n % 16)] := by
  by_cases h : n < 16
  · rw [if_pos h, toHex_small n h]
  · rw [if_neg h]
    cases n with
    | zero => omega
    | succ m =>
      show toHexF (m + 1) (m + 1) = _
      simp only [toHexF, if_neg h]
      rw [toHexF_suff m ((m + 1) / 16) (by omega)]

theorem hexVal_hexDig (m : Nat) (h : m < 16) : hexVal (hexDig m) = some m := by
  interval_cases m <;> rfl

theorem toHex_mem : ∀ n, ∀ d ∈ toHex n, ∃ m, m < 16 ∧ d = hexDig m := by
  intro n
  induction n using Nat.strong_induction_on with
  | _ n ih =>
    intro d hd
    rw [toHex_rec] at hd
    by_cases h : n < 16
    · rw [if_pos h] at hd
      simp at hd
      exact ⟨n, h, hd⟩
    · rw [if_neg h] at hd
      rcases List.mem_append.mp hd with h1 | h1
      · exact ih (n / 16) (Nat.div_lt_self (by omega) (by omega)) d h1
      · simp at h1
        exact ⟨n % 16, Nat.mod_lt _ (by omega), h1⟩

theorem toHex_val : ∀ n, (∀ d ∈ toHex n, (hexVal d).isSome) ∧ hexListVal (toHex n) = n := by
  intro n
  induction n using Nat.strong_induction_on with
  | _ n ih =>
    by_cases h : n < 16
    · rw [toHex_small n h]
      constructor
      · intro d hd
        simp at hd
        rw [hd, hexVal_hexDig n h]
        rfl
      · simp [hexListVal, hexVal_hexDig n h]
    · rw [toHex_rec, if_neg h]
      have ihd := ih (n / 16) (Nat.div_lt_self (by omega) (by omega))
      constructor
      · intro d hd
        rcases List.mem_append.mp hd with h1 | h1
        · exact ihd.1 d h1
        · simp at h1
          rw [h1, hexVal_hexDig _ (Nat.mod_lt _ (by omega))]
          rfl
      · unfold hexListVal
        rw [List.foldl_append]
        have : hexListVal (toHex (n / 16)) = n / 16 := ihd.2
        unfold hexListVal at this
        rw [this]
        simp [hexVal_hexDig _ (Nat.mod_lt n (by omega : 0 < 16))]
        omega

theorem toHex_len_le : ∀ k n, 1 ≤ k → n < 16 ^ k → (toHex n).length ≤ k := by
  intro k
  induction k with
  | zero => intro n h; omega
  | succ k ihk =>
    intro n _ hlt
    by_cases h : n < 16
    · rw [toHex_small n h]
      simp
    · have hk1 : 1 ≤ k := by
        by_contra hk0
        have : k = 0 := by omega
        subst this
        simp at hlt
        omega
      rw [toHex_rec, if_neg h]
      have hdivlt : n / 16 < 16 ^ k := by
        have h16 : (16 : Nat) ^ (k + 1) = 16 ^ k * 16 := by ring
        rw [h16] at hlt
        exact Nat.div_lt_of_lt_mul (by omega)
      have := ihk (n / 16) hk1 hdivlt
      simp [List.length_append]
      omega

theorem hexListVal_zeros : ∀ m (l : List Char),
    hexListVal (List.replicate m '0' ++ l) = hexListVal l := by
  intro m
  induction m with
  | zero => intro l; rfl
  | succ m ih =>
    intro l
    show hexListVal ('0' :: (List.replicate m '0' ++ l)) = hexListVal l
    unfold hexListVal
    simp only [List.foldl_cons]
    have h0 : (16 * 0 + (hexVal '0').getD 0) = 0 := by decide
    rw [h0]
    exact ih l

theorem padLeft_hex (k n : Nat) (hk : 1 ≤ k) (hn : n < 16 ^ k) :
    (padLeft (toHex n) '0' k).length = k ∧
    hexListVal (padLeft (toHex n) '0' k) = n ∧
    (∀ d ∈ padLeft (toHex n) '0' k, (hexVal d).isSome) := by
  have hlen := toHex_len_le k n hk hn
  have hval := toHex_val n
  unfold padLeft
  refine ⟨?_, ?_, ?_⟩
  · simp [List.length_replicate]
    have h1 : 1 ≤ (toHex n).length := by
      rw [toHex_rec]
      by_cases h : n < 16
      · simp [h]
      · simp [h]
    omega
  · rw [hexListVal_zeros]
    exact hval.2
  · intro d hd
    rcases List.mem_append.mp hd with h1 | h1
    · have : d = '0' := List.eq_of_mem_replicate h1
      rw [this]
      rfl
    · exact hval.1 d h1

theorem len2_ex {α : Type} (l : List α) (h : l.length = 2) : ∃ a b, l = [a, b] := by
  match l, h with
  | [a, b], _ => exact ⟨a, b, rfl⟩

theorem len4_ex {α : Type} (l : List α) (h : l.length = 4) :
    ∃ a b c d, l = [a, b, c, d] := by
  match l, h with
  | [a, b, c, d], _ => exact ⟨a, b, c, d, rfl⟩

theorem unqBody_quoteBody :
    ∀ s : List Char, (∀ c ∈ s, c.toNat < 65536) →
      ∀ rest, unqBody (quoteBody s ++ '"' :: rest) = some (s, rest) := by
  intro s
  induction s with
  | nil => intro _ rest; rfl
  | cons c cs ih =>
    intro hlt rest
    have hc : c.toNat < 65536 := hlt c (List.mem_cons_self c cs)
    have hcs : ∀ x ∈ cs, x.toNat < 65536 := fun x hx => hlt x (List.mem_cons_of_mem c hx)
    have IH := ih hcs rest
    have hqb : quoteBody (c :: cs) = qchar c ++ quoteBody cs := by
      rw [quoteBody_eq_cmap, quoteBody_eq_cmap]
      simp [cmap]
    rw [hqb, List.append_assoc, qchar_eq c]
    by_cases h1 : c = '\\'
    · subst h1
      rw [if_pos rfl]
      show unqBody ('\\' :: '\\' :: (quoteBody cs ++ '"' :: rest)) = _
      rw [unqBody.eq_def]
      simp [IH]
    rw [if_neg h1]
    by_cases h2 : c = '"'
    · subst h2
      rw [if_pos rfl]
      show unqBody ('\\' :: '"' :: (quoteBody cs ++ '"' :: rest)) = _
      rw [unqBody.eq_def]
      simp [IH]
    rw [if_neg h2]
    by_cases h3 : c = '\r'
    · subst h3
      rw [if_pos rfl]
      show unqBody ('\\' :: 'r' :: (quoteBody cs ++ '"' :: rest)) = _
      rw [unqBody.eq_def]
      simp [IH]
    rw [if_neg h3]
    by_cases h4 : c = '\n'
    · subst h4
      rw [if_pos rfl]
      show unqBody ('\\' :: 'n' :: (quoteBody cs ++ '"' :: rest)) = _
      rw [unqBody.eq_def]
      simp [IH]
    rw [if_neg h4]
    by_cases h5 : c = '\t'
    · subst h5
      rw [if_pos rfl]
      show unqBody ('\\' :: 't' :: (quoteBody cs ++ '"' :: rest)) = _
      rw [unqBody.eq_def]
      simp [IH]
    rw [if_neg h5]
    by_cases h6 : c = '\x0C'
    · subst h6
      rw [if_pos rfl]
      show unqBody ('\\' :: 'f' :: (quoteBody cs ++ '"' :: rest)) = _
      rw [unqBody.eq_def]
      simp [IH]
    rw [if_neg h6]
    by_cases h7 : jsInRange c
    · rw [if_pos h7]
      show unqBody (c :: (quoteBody cs ++ '"' :: rest)) = _
      have hrange := of_decide_eq_true h7
      have hnlt : isLineTerm c = false := by
        unfold isLineTerm
        have e1 : ¬(c = lineSep) := by
          intro hh
          have : c.toNat = 8232 := by rw [hh]; rfl
          omega
        have e2 : ¬(c = paraSep) := by
          intro hh
          have : c.toNat = 8233 := by rw [hh]; rfl
          omega
        simp [h3, h4, e1, e2]
      rw [unqBody.eq_def]
      simp [h1, h2, hnlt, IH]
    · rw [if_neg h7]
      by_cases h8 : c.toNat ≤ 255
      · have hesc : escape c = '\\' :: 'x' :: padLeft (toHex c.toNat) '0' 2 := by
          unfold escape
          rw [if_pos h8]
        obtain ⟨hplen, hpval, hpdig⟩ := padLeft_hex 2 c.toNat (by omega) (by omega)
        obtain ⟨d1, d2, hd⟩ := len2_ex _ hplen
        rw [hd] at hpval hpdig
        obtain ⟨v1, hv1⟩ := Option.isSome_iff_exists.mp (hpdig d1 (by simp))
        obtain ⟨v2, hv2⟩ := Option.isSome_iff_exists.mp (hpdig d2 (by simp))
        have hval2 : 16 * v1 + v2 = c.toNat := by
          unfold hexListVal at hpval
          simp [hv1, hv2] at hpval
          omega
        rw [hesc, hd]
        show unqBody ('\\' :: 'x' :: d1 :: d2 :: (quoteBody cs ++ '"' :: rest)) = _
        rw [unqBody.eq_def]
        simp [hv1, hv2, IH, hval2, Char.ofNat_toNat]
      · have hesc : escape c = '\\' :: 'u' :: padLeft (toHex c.toNat) '0' 4 := by
          unfold escape
          rw [if_neg h8]
        obtain ⟨hplen, hpval, hpdig⟩ := padLeft_hex 4 c.toNat (by omega) (by omega)
        obtain ⟨d1, d2, d3, d4, hd⟩ := len4_ex _ hplen
        rw [hd] at hpval hpdig
        obtain ⟨v1, hv1⟩ := Option.isSome_iff_exists.mp (hpdig d1 (by simp))
        obtain ⟨v2, hv2⟩ := Option.isSome_iff_exists.mp (hpdig d2 (by simp))
        obtain ⟨v3, hv3⟩ := Option.isSome_iff_exists.mp (hpdig d3 (by simp))
        obtain ⟨v4, hv4⟩ := Option.isSome_iff_exists.mp (hpdig d4 (by simp))
        have hval4 : ((v1 * 16 + v2) * 16 + v3) * 16 + v4 = c.toNat := by
          unfold hexListVal at hpval
          simp [hv1, hv2, hv3, hv4] at hpval
          omega
        rw [hesc, hd]
        show unqBody ('\\' :: 'u' :: d1 :: d2 :: d3 :: d4 :: (quoteBody cs ++ '"' :: rest)) = _
        rw [unqBody.eq_def]
        simp [hv1, hv2, hv3, hv4, IH, hval4, Char.ofNat_toNat]

theorem hexDig_ascii (m : Nat) (h : m < 16) :
    0x20 ≤ (hexDig m).toNat ∧ (hexDig m).toNat ≤ 0x7F := by
  interval_cases m <;> decide

theorem padHex_ascii (k n : Nat) :
    ∀ d ∈ padLeft (toHex n) '0' k, 0x20 ≤ d.toNat ∧ d.toNat ≤ 0x7F := by
  intro d hd
  unfold padLeft at hd
  rcases List.mem_append.mp hd with h | h
  · rw [List.eq_of_mem_replicate h]
    decide
  · obtain ⟨m, hm, rfl⟩ := toHex_mem n d h
    exact hexDig_ascii m hm

theorem escape_ascii (c : Char) :
    ∀ d ∈ escape c, 0x20 ≤ d.toNat ∧ d.toNat ≤ 0x7F := by
  intro d hd
  unfold escape at hd
  by_cases h : c.toNat ≤ 255
  · rw [if_pos h] at hd
    rcases List.mem_cons.mp hd with rfl | hd
    · decide
    rcases List.mem_cons.mp hd with rfl | hd
    · decide
    exact padHex_ascii 2 c.toNat d hd
  · rw [if_neg h] at hd
    rcases List.mem_cons.mp hd with rfl | hd
    · decide
    rcases List.mem_cons.mp hd with rfl | hd
    · decide
    exact padHex_ascii 4 c.toNat d hd

theorem quote_ascii (s : List Char) :
    ∀ c' ∈ quote s, 0x20 ≤ c'.toNat ∧ c'.toNat ≤ 0x7F := by
  intro c' h
  unfold quote at h
  rcases List.mem_cons.mp h with rfl | h
  · decide
  rcases List.mem_append.mp h with h | h
  · rw [quoteBody_eq_cmap] at h
    obtain ⟨c, _, hc⟩ := mem_cmap qchar c' s h
    rw [qchar_eq] at hc
    by_cases h1 : c = '\\'
    · rw [if_pos h1] at hc
      rcases List.mem_cons.mp hc with rfl | hc
      · decide
      · simp at hc
        subst hc
        decide
    rw [if_neg h1] at hc
    by_cases h2 : c = '"'
    · rw [if_pos h2] at hc
      rcases List.mem_cons.mp hc with rfl | hc
      · decide
      · simp at hc
        subst hc
        decide
    rw [if_neg h2] at hc
    by_cases h3 : c = '\r'
    · rw [if_pos h3] at hc
      rcases List.mem_cons.mp hc with rfl | hc
      · decide
      · simp at hc
        subst hc
        decide
    rw [if_neg h3] at hc
    by_cases h4 : c = '\n'
    · rw [if_pos h4] at hc
      rcases List.mem_cons.mp hc with rfl | hc
      · decide
      · simp at hc
        subst hc
        decide
    rw [if_neg h4] at hc
    by_cases h5 : c = '\t'
    · rw [if_pos h5] at hc
      rcases List.mem_cons.mp hc with rfl | hc
      · decide
      · simp at hc
        subst hc
        decide
    rw [if_neg h5] at hc
    by_cases h6 : c = '\x0C'
    · rw [if_pos h6] at hc
      rcases List.mem_cons.mp hc with rfl | hc
      · decide
      · simp at hc
        subst hc
        decide
    rw [if_neg h6] at hc
    by_cases h7 : jsInRange c
    · rw [if_pos h7] at hc
      simp at hc
      subst hc
      exact of_decide_eq_true h7
    · rw [if_neg h7] at hc
      exact escape_ascii c c' hc
  · simp at h
    subst h
    decide

/-- C8 (counterexample): a control character in 0x00..0x1F need not
appear as a `\xHH` or `\uHHHH` escape: TAB (0x09) is replaced by the
earlier `replace` stage for `\t` (emitter.js lines 200-203) before the
final `[^\x20-\x7F]` pass ever sees it, so the literal emitted for a
lone tab is the two-character escape `\t` — it contains no 'x' and no
'u' at all.  This refutes the claim's only-as-`\xHH`-or-`\uHHHH`
clause. -/
theorem c8_counterexample :
    quote [Char.ofNat 0x09] = [('"' : Char), '\\', 't', '"'] ∧
    (quote [Char.ofNat 0x09]).contains ('x') = false ∧
    (quote [Char.ofNat 0x09]).contains ('u') = false :=
  ⟨by decide, by decide, by decide⟩

/-- C8: for every string of UTF-16 code units, the emitted `quote`
produces a double-quoted literal that parses back (as a host string
literal) to exactly the input, and every character of the literal lies
in 0x20..0x7F, so input characters in 0x00..0x1F and at or above 0x80
occur only in escaped form — but not always as `\xHH`/`\uHHHH`: the
literal body is the concatenation of the per-character images of the
replace chain, which sends CR, LF, TAB and FF to the two-character
escapes `\r`, `\n`, `\t`, `\f`, and every other character outside
0x20..0x7F to `escape`, which yields `\xHH` (two upper-case-table hex
digits) for code units up to 0xFF and `\uHHHH` (four) above. -/
theorem quote_roundtrip_spec (s : List Char) (h : ∀ c ∈ s, c.toNat < 65536) :
    unquote (quote s) = some s ∧
    (∀ c ∈ quote s, 0x20 ≤ c.toNat ∧ c.toNat ≤ 0x7F) ∧
    quoteBody s = cmap qchar s ∧
    (qchar (Char.ofNat 0x0D) = ['\\', ('r' : Char)] ∧
      qchar (Char.ofNat 0x0A) = ['\\', ('n' : Char)] ∧
      qchar (Char.ofNat 0x09) = ['\\', ('t' : Char)] ∧
      qchar (Char.ofNat 0x0C) = ['\\', ('f' : Char)]) ∧
    (∀ c : Char, jsInRange c = false → c.toNat ≠ 0x0D → c.toNat ≠ 0x0A →
      c.toNat ≠ 0x09 → c.toNat ≠ 0x0C → qchar c = escape c) ∧
    (∀ c : Char, c.toNat ≤ 0xFF →
      ∃ d1 d2, escape c = ['\\', 'x', d1, d2]) ∧
    (∀ c : Char, 0xFF < c.toNat → c.toNat < 65536 →
      ∃ d1 d2 d3 d4, escape c = ['\\', 'u', d1, d2, d3, d4]) ∧
    (∀ n : Nat, ∀ d ∈ toHex n, ∃ m, m < 16 ∧ d = hexDig m) := by
  refine ⟨?_, quote_ascii s, quoteBody_eq_cmap s,
    ⟨by decide, by decide, by decide, by decide⟩, ?_, ?_, ?_, toHex_mem⟩
  · have hq : quote s = '"' :: (quoteBody s ++ ['"']) := rfl
    have hcons : ∀ body : List Char, unquote ('"' :: body) =
        (match unqBody body with
         | some (content, []) => some content
         | _ => none) := fun _ => rfl
    rw [hq, hcons, unqBody_quoteBody s h []]
  · intro c hrange h13 h10 h9 h12
    have hb : ¬(c = '\\') := by
      intro hc
      rw [hc] at hrange
      exact absurd hrange (by decide)
    have hq : ¬(c = '"') := by
      intro hc
      rw [hc] at hrange
      exact absurd hrange (by decide)
    have h3 : ¬(c = '\r') := by
      intro hc
      rw [hc] at h13
      exact h13 rfl
    have h4 : ¬(c = '\n') := by
      intro hc
      rw [hc] at h10
      exact h10 rfl
    have h5 : ¬(c = '\t') := by
      intro hc
      rw [hc] at h9
      exact h9 rfl
    have h6 : ¬(c = '\x0C') := by
      intro hc
      rw [hc] at h12
      exact h12 rfl
    rw [qchar_eq, if_neg hb, if_neg hq, if_neg h3, if_neg h4, if_neg h5, if_neg h6,
      if_neg (by rw [hrange]; simp)]
  · intro c hle
    obtain ⟨hplen, _, _⟩ := padLeft_hex 2 c.toNat (by omega) (by omega)
    obtain ⟨d1, d2, hd⟩ := len2_ex _ hplen
    refine ⟨d1, d2, ?_⟩
    unfold escape
    rw [if_pos hle, hd]
  · intro c hgt hlt
    obtain ⟨hplen, _, _⟩ := padLeft_hex 4 c.toNat (by omega) (by omega)
    obtain ⟨d1, d2, d3, d4, hd⟩ := len4_ex _ hplen
    refine ⟨d1, d2, d3, d4, ?_⟩
    unfold escape
    rw [if_neg (by omega), hd]

/-- C8 (witness): the round-trip applied to a concrete string containing
a printable character, a control character, a double quote and a
non-ASCII code unit. -/
theorem quote_roundtrip_spec_witness :
    (∀ c ∈ [('a' : Char), Char.ofNat 1, '"', Char.ofNat 0x2028], c.toNat < 65536) ∧
    unquote (quote [('a' : Char), Char.ofNat 1, '"', Char.ofNat 0x2028]) =
      some [('a' : Char), Char.ofNat 1, '"', Char.ofNat 0x2028] :=
  ⟨by decide,
   (quote_roundtrip_spec [('a' : Char), Char.ofNat 1, '"', Char.ofNat 0x2028] (by decide)).1⟩

/- ### Helper lemmas about the evaluator's state operations -/

theorem matchFailed_fields (e : String) (g : GState) :
    (matchFailed e g).pos = g.pos ∧ (matchFailed e g).cache = g.cache ∧
    (matchFailed e g).log = g.log ∧
    (matchFailed e g).reportFailures = g.reportFailures := by
  unfold matchFailed
  split
  · exact ⟨rfl, rfl, rfl, rfl⟩
  · split
    · exact ⟨rfl, rfl, rfl, rfl⟩
    · exact ⟨rfl, rfl, rfl, rfl⟩

theorem reportFailure_fields (e : String) (g : GState) :
    (reportFailure e g).pos = g.pos ∧ (reportFailure e g).cache = g.cache ∧
    (reportFailure e g).log = g.log := by
  unfold reportFailure
  split
  · exact ⟨(matchFailed_fields e g).1, (matchFailed_fields e g).2.1,
      (matchFailed_fields e g).2.2.1⟩
  · exact ⟨rfl, rfl, rfl⟩

theorem cacheMono_refl (g : GState) : cacheMono g g := fun _ h => h

theorem cacheMono_trans {a b c : GState} (h1 : cacheMono a b) (h2 : cacheMono b c) :
    cacheMono a c := fun k hk => h2 k (h1 k hk)

theorem logMono_refl (g : GState) : logMono g g := ⟨[], by simp⟩

theorem logMono_trans {a b c : GState} (h1 : logMono a b) (h2 : logMono b c) :
    logMono a c := by
  obtain ⟨L1, e1⟩ := h1
  obtain ⟨L2, e2⟩ := h2
  exact ⟨L1 ++ L2, by rw [e2, e1, List.append_assoc]⟩

theorem framePre_refl (r p : Nat) (l : Locals) : framePre r p l l :=
  ⟨fun _ _ => rfl, fun _ _ => rfl⟩

theorem framePre_trans {r p : Nat} {a b c : Locals} (h1 : framePre r p a b)
    (h2 : framePre r p b c) : framePre r p a c :=
  ⟨fun i hi => (h2.1 i hi).trans (h1.1 i hi),
   fun i hi => (h2.2 i hi).trans (h1.2 i hi)⟩

theorem framePre_mono_p {r p p' : Nat} {a b : Locals} (h : framePre r p a b)
    (hp : p' ≤ p) : framePre r p' a b :=
  ⟨h.1, fun i hi => h.2 i (by omega)⟩

theorem setRes_get (l : Locals) (i : Nat) (v : Value) : (setRes l i v).res i = v := by
  simp [setRes]

theorem setRes_get_ne (l : Locals) (i : Nat) (v : Value) (j : Nat) (h : j ≠ i) :
    (setRes l i v).res j = l.res j := by
  simp [setRes, h]

theorem setRes_posv (l : Locals) (i : Nat) (v : Value) (j : Nat) :
    (setRes l i v).posv j = l.posv j := rfl

theorem setPosv_get (l : Locals) (i : Nat) (q : Nat) : (setPosv l i q).posv i = q := by
  simp [setPosv]

theorem setPosv_get_ne (l : Locals) (i q : Nat) (j : Nat) (h : j ≠ i) :
    (setPosv l i q).posv j = l.posv j := by
  simp [setPosv, h]

theorem setPosv_res (l : Locals) (i q : Nat) (j : Nat) :
    (setPosv l i q).res j = l.res j := rfl

theorem framePre_setRes (r p : Nat) (l : Locals) (i : Nat) (v : Value) (hi : r ≤ i) :
    framePre r p l (setRes l i v) :=
  ⟨fun j hj => setRes_get_ne l i v j (by omega), fun j _ => rfl⟩

theorem framePre_setPosv (r p : Nat) (l : Locals) (i q : Nat) (hi : p ≤ i) :
    framePre r p l (setPosv l i q) :=
  ⟨fun j _ => rfl, fun j hj => setPosv_get_ne l i q j (by omega)⟩

theorem lookupCache_cons (entry : (String × Nat) × (Nat × Value))
    (c : List ((String × Nat) × (Nat × Value))) (k : String × Nat)
    (h : (lookupCache c k).isSome = true) :
    (lookupCache (entry :: c) k).isSome = true := by
  unfold lookupCache at h ⊢
  rw [List.find?_cons]
  split
  · rfl
  · exact h

theorem lookupCache_head (key : String × Nat) (qv : Nat × Value)
    (c : List ((String × Nat) × (Nat × Value))) :
    lookupCache ((key, qv) :: c) key = some qv := by
  unfold lookupCache
  rw [List.find?_cons]
  simp

theorem lookupCache_mem (c : List ((String × Nat) × (Nat × Value))) (k : String × Nat)
    (qv : Nat × Value) (h : lookupCache c k = some qv) : (k, qv) ∈ c := by
  unfold lookupCache at h
  cases hf : c.find? (fun e => e.1 = k) with
  | none => rw [hf] at h; cases h
  | some e =>
    rw [hf] at h
    simp at h
    have hmem := List.mem_of_find?_eq_some hf
    have hkey : e.1 = k := by simpa using List.find?_some hf
    have he : e = (k, qv) := by
      cases e with
      | mk e1 e2 =>
        simp at hkey h
        rw [hkey, h]
    rw [he] at hmem
    exact hmem

theorem evalCore_contract (G : Grammar) (env : Env) : ∀ f : Nat,
    (∀ e r p loc g g' loc', WFcache g →
      evalCore G env f (Req.expr e r p loc) g = some (EvalRes.withLoc g' loc') →
      gOK g g' ∧ g.pos ≤ g'.pos ∧ framePre r p loc loc' ∧
      ((loc'.res r).isNull = true → g'.pos = g.pos)) ∧
    (∀ elems i r p loc g g' loc', WFcache g →
      evalCore G env f (Req.seqElems elems i r p loc) g = some (EvalRes.withLoc g' loc') →
      gOK g g' ∧ (loc.posv p ≤ g.pos → loc.posv p ≤ g'.pos) ∧
      framePre r (p + 1) loc loc' ∧
      ((loc'.res r).isNull = true → g'.pos = loc.posv p)) ∧
    (∀ alts r p loc g g' loc', WFcache g →
      evalCore G env f (Req.chRest alts r p loc) g = some (EvalRes.withLoc g' loc') →
      gOK g g' ∧ g.pos ≤ g'.pos ∧ framePre r p loc loc' ∧
      ((loc'.res r).isNull = true → g'.pos = g.pos) ∧
      ((loc.res r).isNull = false → g' = g ∧ loc' = loc)) ∧
    (∀ e1 r p loc g g' loc', WFcache g →
      evalCore G env f (Req.starLoop e1 r p loc) g = some (EvalRes.withLoc g' loc') →
      gOK g g' ∧ g.pos ≤ g'.pos ∧ framePre r p loc loc' ∧
      ((loc.res r).isNull = false → (loc'.res r).isNull = false) ∧
      ((loc'.res r).isNull = true → g'.pos = g.pos)) ∧
    (∀ n g g' v, WFcache g →
      evalCore G env f (Req.rule n) g = some (EvalRes.withVal g' v) →
      gOK g g' ∧ g.pos ≤ g'.pos ∧ (v.isNull = true → g'.pos = g.pos)) := by
  intro f
  induction f with
  | zero =>
    refine ⟨?_, ?_, ?_, ?_, ?_⟩
    · intro e r p loc g g' loc' _ heval
      simp [evalCore] at heval
    · intro elems i r p loc g g' loc' _ heval
      simp [evalCore] at heval
    · intro alts r p loc g g' loc' _ heval
      simp [evalCore] at heval
    · intro e1 r p loc g g' loc' _ heval
      simp [evalCore] at heval
    · intro n g g' v _ heval
      simp [evalCore] at heval
  | succ f ih =>
    obtain ⟨ih1, ih2, ih3, ih4, ih5⟩ := ih
    refine ⟨?_, ?_, ?_, ?_, ?_⟩
    · -- expressions
      intro e r p loc g g' loc' hwf heval
      cases e with
      | choice alts =>
        simp only [evalCore] at heval
        cases alts with
        | nil => exact absurd heval (by simp)
        | cons a rest =>
          dsimp only at heval
          cases h1 : evalCore G env f (Req.expr a r p loc) g with
          | none => rw [h1] at heval; exact absurd heval (by simp)
          | some res1 =>
            rw [h1] at heval
            cases res1 with
            | withVal g1 v => exact absurd heval (by simp)
            | withLoc g1 l1 =>
              dsimp only at heval
              have Ha := ih1 a r p loc g g1 l1 hwf h1
              have Hr := ih3 rest r p l1 g1 g' loc' Ha.1.1 heval
              refine ⟨⟨Hr.1.1, cacheMono_trans Ha.1.2.1 Hr.1.2.1,
                logMono_trans Ha.1.2.2 Hr.1.2.2⟩,
                le_trans Ha.2.1 Hr.2.1,
                framePre_trans Ha.2.2.1 Hr.2.2.1, ?_⟩
              intro hnull
              by_cases hl1 : (l1.res r).isNull = true
              · rw [Hr.2.2.2.1 hnull, Ha.2.2.2 hl1]
              · obtain ⟨rfl, rfl⟩ := Hr.2.2.2.2 (by simpa using hl1)
                exact absurd hnull (by simpa using hl1)
      | sequence elems =>
        simp only [evalCore] at heval
        have H2 := ih2 elems 0 r p (setPosv loc p g.pos) g g' loc' hwf heval
        refine ⟨H2.1, ?_, ?_, ?_⟩
        · have hpre : (setPosv loc p g.pos).posv p ≤ g.pos := by
            rw [setPosv_get]
          have hle := H2.2.1 hpre
          rw [setPosv_get] at hle
          exact hle
        · constructor
          · intro i hi
            rw [H2.2.2.1.1 i hi]
            exact setPosv_res loc p g.pos i
          · intro i hi
            rw [H2.2.2.1.2 i (by omega)]
            exact setPosv_get_ne loc p g.pos i (by omega)
        · intro hnull
          have hp := H2.2.2.2 hnull
          rw [setPosv_get] at hp
          exact hp
      | labeled lab e1 =>
        simp only [evalCore] at heval
        exact ih1 e1 r p loc g g' loc' hwf heval
      | simple_and e1 =>
        simp only [evalCore] at heval
        cases h1 : evalCore G env f (Req.expr e1 r (p + 1) (setPosv loc p g.pos))
            { g with reportFailures := g.reportFailures + 1 } with
        | none => rw [h1] at heval; exact absurd heval (by simp)
        | some res1 =>
          rw [h1] at heval
          cases res1 with
          | withVal g1 v => exact absurd heval (by simp)
          | withLoc g2 l2 =>
            dsimp only at heval
            have H1 := ih1 e1 r (p + 1) (setPosv loc p g.pos)
              { g with reportFailures := g.reportFailures + 1 } g2 l2 hwf h1
            have hposv : l2.posv p = g.pos := by
              rw [H1.2.2.1.2 p (by omega)]
              exact setPosv_get loc p g.pos
            have hframe : framePre r p loc l2 := by
              constructor
              · intro i hi
                rw [H1.2.2.1.1 i hi]
                exact setPosv_res loc p g.pos i
              · intro i hi
                rw [H1.2.2.1.2 i (by omega)]
                exact setPosv_get_ne loc p g.pos i (by omega)
            by_cases hn : (l2.res r).isNull = true
            · rw [if_pos hn] at heval
              obtain ⟨rfl, rfl⟩ := by simpa using heval
              refine ⟨H1.1, H1.2.1, ?_, ?_⟩
              · exact framePre_trans hframe (framePre_setRes r p l2 r Value.vnull (le_refl r))
              · intro _
                exact H1.2.2.2 hn
            · rw [if_neg hn] at heval
              obtain ⟨rfl, rfl⟩ := by simpa using heval
              refine ⟨H1.1, ?_, ?_, ?_⟩
              · show g.pos ≤ l2.posv p
                rw [hposv]
              · exact framePre_trans hframe (framePre_setRes r p l2 r (Value.vstr []) (le_refl r))
              · intro hx
                rw [setRes_get] at hx
                simp [Value.isNull] at hx
      | simple_not e1 =>
        simp only [evalCore] at heval
        cases h1 : evalCore G env f (Req.expr e1 r (p + 1) (setPosv loc p g.pos))
            { g with reportFailures := g.reportFailures + 1 } with
        | none => rw [h1] at heval; exact absurd heval (by simp)
        | some res1 =>
          rw [h1] at heval
          cases res1 with
          | withVal g1 v => exact absurd heval (by simp)
          | withLoc g2 l2 =>
            dsimp only at heval
            have H1 := ih1 e1 r (p + 1) (setPosv loc p g.pos)
              { g with reportFailures := g.reportFailures + 1 } g2 l2 hwf h1
            have hposv : l2.posv p = g.pos := by
              rw [H1.2.2.1.2 p (by omega)]
              exact setPosv_get loc p g.pos
            have hframe : framePre r p loc l2 := by
              constructor
              · intro i hi
                rw [H1.2.2.1.1 i hi]
                exact setPosv_res loc p g.pos i
              · intro i hi
                rw [H1.2.2.1.2 i (by omega)]
                exact setPosv_get_ne loc p g.pos i (by omega)
            by_cases hn : (l2.res r).isNull = true
            · rw [if_pos hn] at heval
              obtain ⟨rfl, rfl⟩ := by simpa using heval
              refine ⟨H1.1, ?_, ?_, ?_⟩
              · rw [H1.2.2.2 hn]
              · exact framePre_trans hframe (framePre_setRes r p l2 r (Value.vstr []) (le_refl r))
              · intro hx
                rw [setRes_get] at hx
                simp [Value.isNull] at hx
            · rw [if_neg hn] at heval
              obtain ⟨rfl, rfl⟩ := by simpa using heval
              refine ⟨H1.1, ?_, ?_, ?_⟩
              · show g.pos ≤ l2.posv p
                rw [hposv]
              · exact framePre_trans hframe (framePre_setRes r p l2 r Value.vnull (le_refl r))
              · intro _
                show l2.posv p = g.pos
                exact hposv
      | semantic_and code =>
        simp only [evalCore] at heval
        obtain ⟨rfl, rfl⟩ := by simpa using heval
        refine ⟨⟨hwf, cacheMono_refl g, logMono_refl g⟩, le_refl _,
          framePre_setRes r p loc r _ (le_refl r), fun _ => rfl⟩
      | semantic_not code =>
        simp only [evalCore] at heval
        obtain ⟨rfl, rfl⟩ := by simpa using heval
        refine ⟨⟨hwf, cacheMono_refl g, logMono_refl g⟩, le_refl _,
          framePre_setRes r p loc r _ (le_refl r), fun _ => rfl⟩
      | optional e1 =>
        simp only [evalCore] at heval
        cases h1 : evalCore G env f (Req.expr e1 r p loc) g with
        | none => rw [h1] at heval; exact absurd heval (by simp)
        | some res1 =>
          rw [h1] at heval
          cases res1 with
          | withVal g1 v => exact absurd heval (by simp)
          | withLoc g1 l1 =>
            dsimp only at heval
            obtain ⟨rfl, rfl⟩ := by simpa using heval
            have H1 := ih1 e1 r p loc g g1 l1 hwf h1
            refine ⟨H1.1, H1.2.1, framePre_trans H1.2.2.1
              (framePre_setRes r p l1 r _ (le_refl r)), ?_⟩
            intro hx
            rw [setRes_get] at hx
            by_cases hn : (l1.res r).isNull = true
            · rw [if_pos hn] at hx
              simp [Value.isNull] at hx
            · rw [if_neg hn] at hx
              exact absurd hx hn
      | zero_or_more e1 =>
        simp only [evalCore] at heval
        cases h1 : evalCore G env f
            (Req.expr e1 (r + 1) p (setRes loc r (Value.varr []))) g with
        | none => rw [h1] at heval; exact absurd heval (by simp)
        | some res1 =>
          rw [h1] at heval
          cases res1 with
          | withVal g1 v => exact absurd heval (by simp)
          | withLoc g1 l1 =>
            dsimp only at heval
            have H1 := ih1 e1 (r + 1) p (setRes loc r (Value.varr [])) g g1 l1 hwf h1
            have H4 := ih4 e1 r p l1 g1 g' loc' H1.1.1 heval
            have hl1r : l1.res r = Value.varr [] := by
              rw [H1.2.2.1.1 r (by omega)]
              exact setRes_get loc r (Value.varr [])
            refine ⟨⟨H4.1.1, cacheMono_trans H1.1.2.1 H4.1.2.1,
              logMono_trans H1.1.2.2 H4.1.2.2⟩,
              le_trans H1.2.1 H4.2.1, ?_, ?_⟩
            · constructor
              · intro i hi
                rw [H4.2.2.1.1 i hi, H1.2.2.1.1 i (by omega)]
                exact setRes_get_ne loc r _ i (by omega)
              · intro i hi
                rw [H4.2.2.1.2 i hi, H1.2.2.1.2 i hi]
                exact setRes_posv loc r (Value.varr []) i
            · intro hx
              have hpres := H4.2.2.2.1 (by rw [hl1r]; rfl)
              exact absurd hx (by simp [hpres])
      | one_or_more e1 =>
        simp only [evalCore] at heval
        cases h1 : evalCore G env f (Req.expr e1 (r + 1) p loc) g with
        | none => rw [h1] at heval; exact absurd heval (by simp)
        | some res1 =>
          rw [h1] at heval
          cases res1 with
          | withVal g1 v => exact absurd heval (by simp)
          | withLoc g1 l1 =>
            dsimp only at heval
            have H1 := ih1 e1 (r + 1) p loc g g1 l1 hwf h1
            by_cases hn : (l1.res (r + 1)).isNull = true
            · rw [if_pos hn] at heval
              obtain ⟨rfl, rfl⟩ := by simpa using heval
              refine ⟨H1.1, H1.2.1, ?_, ?_⟩
              · refine framePre_trans ?_ (framePre_setRes r p l1 r Value.vnull (le_refl r))
                exact ⟨fun i hi => H1.2.2.1.1 i (by omega), H1.2.2.1.2⟩
              · intro _
                exact H1.2.2.2 hn
            · rw [if_neg hn] at heval
              have H4 := ih4 e1 r p (setRes l1 r (Value.varr [])) g1 g' loc' H1.1.1 heval
              refine ⟨⟨H4.1.1, cacheMono_trans H1.1.2.1 H4.1.2.1,
                logMono_trans H1.1.2.2 H4.1.2.2⟩,
                le_trans H1.2.1 H4.2.1, ?_, ?_⟩
              · constructor
                · intro i hi
                  rw [H4.2.2.1.1 i hi, setRes_get_ne l1 r _ i (by omega)]
                  exact H1.2.2.1.1 i (by omega)
                · intro i hi
                  rw [H4.2.2.1.2 i hi, setRes_posv l1 r (Value.varr []) i]
                  exact H1.2.2.1.2 i hi
              · intro hx
                have hpres := H4.2.2.2.1 (by rw [setRes_get]; rfl)
                exact absurd hx (by simp [hpres])
      | action e1 code =>
        simp only [evalCore] at heval
        cases h1 : evalCore G env f (Req.expr e1 r (p + 1) (setPosv loc p g.pos)) g with
        | none => rw [h1] at heval; exact absurd heval (by simp)
        | some res1 =>
          rw [h1] at heval
          cases res1 with
          | withVal g1 v => exact absurd heval (by simp)
          | withLoc g1 l1 =>
            dsimp only at heval
            have H1 := ih1 e1 r (p + 1) (setPosv loc p g.pos) g g1 l1 hwf h1
            have hposv : l1.posv p = g.pos := by
              rw [H1.2.2.1.2 p (by omega)]
              exact setPosv_get loc p g.pos
            have hframe : framePre r p loc l1 := by
              constructor
              · intro i hi
                rw [H1.2.2.1.1 i hi]
                exact setPosv_res loc p g.pos i
              · intro i hi
                rw [H1.2.2.1.2 i (by omega)]
                exact setPosv_get_ne loc p g.pos i (by omega)
            by_cases ha : (l1.res r).isNull = true
            · rw [if_pos ha] at heval
              rw [if_pos ha] at heval
              obtain ⟨rfl, rfl⟩ := by simpa using heval
              refine ⟨H1.1, ?_, hframe, ?_⟩
              · show g.pos ≤ l1.posv p
                rw [hposv]
              · intro _
                exact hposv
            · rw [if_neg ha] at heval
              by_cases hb : ((setRes l1 r (env.act code (actionArgs e1 (l1.res r)))).res r).isNull = true
              · rw [if_pos hb] at heval
                obtain ⟨rfl, rfl⟩ := by simpa using heval
                refine ⟨H1.1, ?_, ?_, ?_⟩
                · show g.pos ≤ (setRes l1 r (env.act code (actionArgs e1 (l1.res r)))).posv p
                  rw [setRes_posv, hposv]
                · exact framePre_trans hframe (framePre_setRes r p l1 r _ (le_refl r))
                · intro _
                  show (setRes l1 r (env.act code (actionArgs e1 (l1.res r)))).posv p = g.pos
                  rw [setRes_posv, hposv]
              · rw [if_neg hb] at heval
                obtain ⟨rfl, rfl⟩ := by simpa using heval
                refine ⟨H1.1, H1.2.1, ?_, ?_⟩
                · exact framePre_trans hframe (framePre_setRes r p l1 r _ (le_refl r))
                · intro hx
                  exact absurd hx hb
      | rule_ref n =>
        simp only [evalCore] at heval
        cases h1 : evalCore G env f (Req.rule n) g with
        | none => rw [h1] at heval; exact absurd heval (by simp)
        | some res1 =>
          rw [h1] at heval
          cases res1 with
          | withLoc g1 l1 => exact absurd heval (by simp)
          | withVal g1 v =>
            dsimp only at heval
            obtain ⟨rfl, rfl⟩ := by simpa using heval
            have H5 := ih5 n g g1 v hwf h1
            refine ⟨H5.1, H5.2.1, framePre_setRes r p loc r v (le_refl r), ?_⟩
            intro hx
            rw [setRes_get] at hx
            exact H5.2.2 hx
      | literal v =>
        simp only [evalCore] at heval
        by_cases he : v.isEmpty = true
        · rw [if_pos he] at heval
          obtain ⟨rfl, rfl⟩ := by simpa using heval
          refine ⟨⟨hwf, cacheMono_refl g, logMono_refl g⟩, le_refl _,
            framePre_setRes r p loc r _ (le_refl r), ?_⟩
          intro _
          rfl
        · rw [if_neg he] at heval
          by_cases hm : (env.input.drop g.pos).take v.length = v
          · rw [if_pos hm] at heval
            obtain ⟨rfl, rfl⟩ := by simpa using heval
            refine ⟨⟨hwf, fun k hk => hk, ⟨[], by simp⟩⟩, by simp,
              framePre_setRes r p loc r _ (le_refl r), ?_⟩
            intro hx
            rw [setRes_get] at hx
            simp [Value.isNull] at hx
          · rw [if_neg hm] at heval
            obtain ⟨rfl, rfl⟩ := by simpa using heval
            have hrf := reportFailure_fields (String.mk (quote v)) g
            refine ⟨⟨?_, ?_, ?_⟩, by rw [hrf.1], framePre_setRes r p loc r _ (le_refl r), ?_⟩
            · intro entry hmem
              rw [hrf.2.1] at hmem
              exact hwf entry hmem
            · intro k hk
              rw [hrf.2.1]
              exact hk
            · exact ⟨[], by rw [hrf.2.2]; simp⟩
            · intro _
              exact hrf.1
      | any =>
        simp only [evalCore] at heval
        by_cases hm : g.pos < env.input.length
        · rw [if_pos hm] at heval
          obtain ⟨rfl, rfl⟩ := by simpa using heval
          refine ⟨⟨hwf, fun k hk => hk, ⟨[], by simp⟩⟩, by simp,
            framePre_setRes r p loc r _ (le_refl r), ?_⟩
          intro hx
          rw [setRes_get] at hx
          simp [Value.isNull] at hx
        · rw [if_neg hm] at heval
          obtain ⟨rfl, rfl⟩ := by simpa using heval
          have hrf := reportFailure_fields ("any character") g
          refine ⟨⟨?_, ?_, ?_⟩, by rw [hrf.1], framePre_setRes r p loc r _ (le_refl r), ?_⟩
          · intro entry hmem
            rw [hrf.2.1] at hmem
            exact hwf entry hmem
          · intro k hk
            rw [hrf.2.1]
            exact hk
          · exact ⟨[], by rw [hrf.2.2]; simp⟩
          · intro _
            exact hrf.1
      | cls parts inverted rawText =>
        simp only [evalCore] at heval
        by_cases hm : (g.pos < env.input.length
            && (inClassParts parts (charAtD env.input g.pos) != inverted)) = true
        · rw [if_pos hm] at heval
          obtain ⟨rfl, rfl⟩ := by simpa using heval
          refine ⟨⟨hwf, fun k hk => hk, ⟨[], by simp⟩⟩, by simp,
            framePre_setRes r p loc r _ (le_refl r), ?_⟩
          intro hx
          rw [setRes_get] at hx
          simp [Value.isNull] at hx
        · rw [if_neg hm] at heval
          obtain ⟨rfl, rfl⟩ := by simpa using heval
          have hrf := reportFailure_fields rawText g
          refine ⟨⟨?_, ?_, ?_⟩, by rw [hrf.1], framePre_setRes r p loc r _ (le_refl r), ?_⟩
          · intro entry hmem
            rw [hrf.2.1] at hmem
            exact hwf entry hmem
          · intro k hk
            rw [hrf.2.1]
            exact hk
          · exact ⟨[], by rw [hrf.2.2]; simp⟩
          · intro _
            exact hrf.1
    · -- sequence elements
      intro elems i r p loc g g' loc' hwf heval
      cases elems with
      | nil =>
        simp only [evalCore] at heval
        obtain ⟨rfl, rfl⟩ := by simpa using heval
        refine ⟨⟨hwf, cacheMono_refl g, logMono_refl g⟩, fun h => h,
          framePre_setRes r (p + 1) loc r _ (le_refl r), ?_⟩
        intro hx
        rw [setRes_get] at hx
        simp [Value.isNull] at hx
      | cons e rest =>
        simp only [evalCore] at heval
        cases h1 : evalCore G env f (Req.expr e (r + i) (p + 1) loc) g with
        | none => rw [h1] at heval; exact absurd heval (by simp)
        | some res1 =>
          rw [h1] at heval
          cases res1 with
          | withVal g1 v => exact absurd heval (by simp)
          | withLoc g1 l1 =>
            dsimp only at heval
            have H1 := ih1 e (r + i) (p + 1) loc g g1 l1 hwf h1
            have hframe1 : framePre r (p + 1) loc l1 :=
              ⟨fun j hj => H1.2.2.1.1 j (by omega), H1.2.2.1.2⟩
            have hposv : l1.posv p = loc.posv p := H1.2.2.1.2 p (by omega)
            by_cases hn : (l1.res (r + i)).isNull = true
            · rw [if_pos hn] at heval
              obtain ⟨rfl, rfl⟩ := by simpa using heval
              refine ⟨H1.1, ?_, ?_, ?_⟩
              · intro hpre
                show loc.posv p ≤ l1.posv p
                rw [hposv]
              · exact framePre_trans hframe1
                  (framePre_setRes r (p + 1) l1 r Value.vnull (le_refl r))
              · intro _
                exact hposv
            · rw [if_neg hn] at heval
              have H2 := ih2 rest (i + 1) r p l1 g1 g' loc' H1.1.1 heval
              refine ⟨⟨H2.1.1, cacheMono_trans H1.1.2.1 H2.1.2.1,
                logMono_trans H1.1.2.2 H2.1.2.2⟩, ?_,
                framePre_trans hframe1 H2.2.2.1, ?_⟩
              · intro hpre
                have hp1 : l1.posv p ≤ g1.pos := by
                  rw [hposv]
                  exact le_trans hpre H1.2.1
                have := H2.2.1 hp1
                rw [hposv] at this
                exact this
              · intro hx
                have := H2.2.2.2 hx
                rw [hposv] at this
                exact this
    · -- choice continuation
      intro alts r p loc g g' loc' hwf heval
      cases alts with
      | nil =>
        simp only [evalCore] at heval
        obtain ⟨rfl, rfl⟩ := by simpa using heval
        exact ⟨⟨hwf, cacheMono_refl g, logMono_refl g⟩, le_refl _,
          framePre_refl r p loc, fun _ => rfl, fun _ => ⟨rfl, rfl⟩⟩
      | cons a rest =>
        simp only [evalCore] at heval
        by_cases hn : (loc.res r).isNull = true
        · rw [if_pos hn] at heval
          cases h1 : evalCore G env f (Req.expr a r p loc) g with
          | none => rw [h1] at heval; exact absurd heval (by simp)
          | some res1 =>
            rw [h1] at heval
            cases res1 with
            | withVal g1 v => exact absurd heval (by simp)
            | withLoc g1 l1 =>
              dsimp only at heval
              have Ha := ih1 a r p loc g g1 l1 hwf h1
              have Hr := ih3 rest r p l1 g1 g' loc' Ha.1.1 heval
              refine ⟨⟨Hr.1.1, cacheMono_trans Ha.1.2.1 Hr.1.2.1,
                logMono_trans Ha.1.2.2 Hr.1.2.2⟩,
                le_trans Ha.2.1 Hr.2.1,
                framePre_trans Ha.2.2.1 Hr.2.2.1, ?_, ?_⟩
              · intro hnull
                by_cases hl1 : (l1.res r).isNull = true
                · rw [Hr.2.2.2.1 hnull, Ha.2.2.2 hl1]
                · obtain ⟨rfl, rfl⟩ := Hr.2.2.2.2 (by simpa using hl1)
                  exact absurd hnull (by simpa using hl1)
              · intro hfalse
                rw [hfalse] at hn
                exact absurd hn (by simp)
        · rw [if_neg hn] at heval
          obtain ⟨rfl, rfl⟩ := by simpa using heval
          refine ⟨⟨hwf, cacheMono_refl g, logMono_refl g⟩, le_refl _,
            framePre_refl r p loc, ?_, fun _ => ⟨rfl, rfl⟩⟩
          intro hx
          exact absurd hx hn
    · -- repetition loop
      intro e1 r p loc g g' loc' hwf heval
      simp only [evalCore] at heval
      by_cases hn : (loc.res (r + 1)).isNull = true
      · rw [if_pos hn] at heval
        obtain ⟨rfl, rfl⟩ := by simpa using heval
        exact ⟨⟨hwf, cacheMono_refl g, logMono_refl g⟩, le_refl _,
          framePre_refl r p loc, fun h => h, fun _ => rfl⟩
      · rw [if_neg hn] at heval
        cases hv : loc.res r with
        | vnull => rw [hv] at heval; exact absurd heval (by simp)
        | vstr s => rw [hv] at heval; exact absurd heval (by simp)
        | varr vs =>
          rw [hv] at heval
          dsimp only at heval
          cases h1 : evalCore G env f
              (Req.expr e1 (r + 1) p
                (setRes loc r (Value.varr (vs ++ [loc.res (r + 1)])))) g with
          | none => rw [h1] at heval; exact absurd heval (by simp)
          | some res1 =>
            rw [h1] at heval
            cases res1 with
            | withVal g1 v => exact absurd heval (by simp)
            | withLoc g1 l1 =>
              dsimp only at heval
              have H1 := ih1 e1 (r + 1) p
                (setRes loc r (Value.varr (vs ++ [loc.res (r + 1)]))) g g1 l1 hwf h1
              have H4 := ih4 e1 r p l1 g1 g' loc' H1.1.1 heval
              have hl1r : l1.res r = Value.varr (vs ++ [loc.res (r + 1)]) := by
                rw [H1.2.2.1.1 r (by omega)]
                exact setRes_get loc r _
              have hpres : (loc'.res r).isNull = false := by
                refine H4.2.2.2.1 ?_
                rw [hl1r]
                rfl
              refine ⟨⟨H4.1.1, cacheMono_trans H1.1.2.1 H4.1.2.1,
                logMono_trans H1.1.2.2 H4.1.2.2⟩,
                le_trans H1.2.1 H4.2.1, ?_, fun _ => hpres, ?_⟩
              · constructor
                · intro j hj
                  rw [H4.2.2.1.1 j hj, H1.2.2.1.1 j (by omega)]
                  exact setRes_get_ne loc r _ j (by omega)
                · intro j hj
                  rw [H4.2.2.1.2 j hj, H1.2.2.1.2 j hj]
                  exact setRes_posv loc r (Value.varr (vs ++ [loc.res (r + 1)])) j
              · intro hx
                exact absurd hx (by simp [hpres])
    · -- rule calls
      intro n g g' v hwf heval
      simp only [evalCore] at heval
      cases hr : lookupRuleByName G n with
      | none => rw [hr] at heval; exact absurd heval (by simp)
      | some rl =>
        rw [hr] at heval
        dsimp only at heval
        cases hc : lookupCache g.cache (n, g.pos) with
        | some qv =>
          rw [hc] at heval
          obtain ⟨rfl, rfl⟩ := by simpa using heval
          have hentry := hwf ((n, g.pos), qv) (lookupCache_mem g.cache (n, g.pos) qv hc)
          exact ⟨⟨hwf, fun k hk => hk, ⟨[], by simp⟩⟩, hentry.1,
            fun hnull => (hentry.2 hnull).symm ▸ rfl⟩
        | none =>
          rw [hc] at heval
          dsimp only at heval
          cases hdd : rl.displayName with
          | none =>
            rw [hdd] at heval
            simp only [Option.isSome_none, Bool.false_eq_true, if_false] at heval
            cases h1 : evalCore G env f (Req.expr rl.expression 0 0 freshLocals)
                { g with log := g.log ++ [(n, g.pos)] } with
            | none => rw [h1] at heval; exact absurd heval (by simp)
            | some res1 =>
              rw [h1] at heval
              cases res1 with
              | withVal g2 v2 => exact absurd heval (by simp)
              | withLoc g2 l2 =>
                dsimp only at heval
                obtain ⟨rfl, rfl⟩ := by simpa using heval
                have H1 := ih1 rl.expression 0 0 freshLocals
                  { g with log := g.log ++ [(n, g.pos)] } g2 l2 hwf h1
                refine ⟨⟨?_, ?_, ?_⟩, H1.2.1, ?_⟩
                · intro entry hmem
                  rcases List.mem_cons.mp hmem with rfl | hmem2
                  · exact ⟨H1.2.1, fun hnull => H1.2.2.2 hnull⟩
                  · exact H1.1.1 entry hmem2
                · intro k hk
                  exact lookupCache_cons _ _ k (H1.1.2.1 k hk)
                · obtain ⟨L, hL⟩ := H1.1.2.2
                  refine ⟨(n, g.pos) :: L, ?_⟩
                  show g2.log = g.log ++ (n, g.pos) :: L
                  rw [hL]
                  simp
                · intro hnull
                  exact H1.2.2.2 hnull
          | some d =>
            rw [hdd] at heval
            simp only [Option.isSome_some, if_true] at heval
            cases h1 : evalCore G env f (Req.expr rl.expression 0 0 freshLocals)
                { g with log := g.log ++ [(n, g.pos)],
                         reportFailures := g.reportFailures + 1 } with
            | none => rw [h1] at heval; exact absurd heval (by simp)
            | some res1 =>
              rw [h1] at heval
              cases res1 with
              | withVal g2 v2 => exact absurd heval (by simp)
              | withLoc g2 l2 =>
                dsimp only at heval
                have H1 := ih1 rl.expression 0 0 freshLocals
                  { g with log := g.log ++ [(n, g.pos)],
                           reportFailures := g.reportFailures + 1 } g2 l2 hwf h1
                have hmf2 := matchFailed_fields d { g2 with reportFailures := g2.reportFailures - 1 }
                split at heval
                · obtain ⟨rfl, rfl⟩ := by simpa using heval
                  refine ⟨⟨?_, ?_, ?_⟩, ?_, ?_⟩
                  · intro entry hmem
                    rcases List.mem_cons.mp hmem with rfl | hmem2
                    · refine ⟨?_, ?_⟩
                      · show g.pos ≤ (matchFailed d { g2 with reportFailures := g2.reportFailures - 1 }).pos
                        rw [hmf2.1]
                        exact H1.2.1
                      · intro hnull
                        show (matchFailed d { g2 with reportFailures := g2.reportFailures - 1 }).pos = g.pos
                        rw [hmf2.1]
                        exact H1.2.2.2 hnull
                    · rw [hmf2.2.1] at hmem2
                      exact H1.1.1 entry hmem2
                  · intro k hk
                    refine lookupCache_cons _ _ k ?_
                    rw [hmf2.2.1]
                    exact H1.1.2.1 k hk
                  · obtain ⟨L, hL⟩ := H1.1.2.2
                    refine ⟨(n, g.pos) :: L, ?_⟩
                    show (matchFailed d { g2 with reportFailures := g2.reportFailures - 1 }).log
                      = g.log ++ (n, g.pos) :: L
                    rw [hmf2.2.2.1]
                    show g2.log = g.log ++ (n, g.pos) :: L
                    rw [hL]
                    simp
                  · show g.pos ≤ (matchFailed d { g2 with reportFailures := g2.reportFailures - 1 }).pos
                    rw [hmf2.1]
                    exact H1.2.1
                  · intro hnull
                    show (matchFailed d { g2 with reportFailures := g2.reportFailures - 1 }).pos = g.pos
                    rw [hmf2.1]
                    exact H1.2.2.2 hnull
                · obtain ⟨rfl, rfl⟩ := by simpa using heval
                  refine ⟨⟨?_, ?_, ?_⟩, H1.2.1, ?_⟩
                  · intro entry hmem
                    rcases List.mem_cons.mp hmem with rfl | hmem2
                    · exact ⟨H1.2.1, fun hnull => H1.2.2.2 hnull⟩
                    · exact H1.1.1 entry hmem2
                  · intro k hk
                    exact lookupCache_cons _ _ k (H1.1.2.1 k hk)
                  · obtain ⟨L, hL⟩ := H1.1.2.2
                    refine ⟨(n, g.pos) :: L, ?_⟩
                    show g2.log = g.log ++ (n, g.pos) :: L
                    rw [hL]
                    simp
                  · intro hnull
                    exact H1.2.2.2 hnull

theorem windowAgree_mono (r r' p p' : Nat) {la lb : Locals} (hr : r ≤ r') (hp : p ≤ p')
    (h : windowAgree r p la lb) : windowAgree r' p' la lb :=
  ⟨fun i hi => h.1 i (le_trans hr hi), fun i hi => h.2 i (le_trans hp hi)⟩

theorem windowAgree_setRes (r p : Nat) (la lb : Locals) (j : Nat) (v : Value)
    (h : windowAgree r p la lb) : windowAgree r p (setRes la j v) (setRes lb j v) := by
  constructor
  · intro i hi
    by_cases hij : i = j
    · subst hij
      rw [setRes_get, setRes_get]
    · rw [setRes_get_ne la j v i hij, setRes_get_ne lb j v i hij]
      exact h.1 i hi
  · intro i hi
    rw [setRes_posv, setRes_posv]
    exact h.2 i hi

theorem windowAgree_setPosv (r p : Nat) (la lb : Locals) (j q : Nat)
    (h : windowAgree r p la lb) : windowAgree r p (setPosv la j q) (setPosv lb j q) := by
  constructor
  · intro i hi
    rw [setPosv_res, setPosv_res]
    exact h.1 i hi
  · intro i hi
    by_cases hij : i = j
    · subst hij
      rw [setPosv_get, setPosv_get]
    · rw [setPosv_get_ne la j q i hij, setPosv_get_ne lb j q i hij]
      exact h.2 i hi

theorem windowAgree_recover (r' p' r p : Nat) (la lb l1a l1b : Locals)
    (hr : r ≤ r') (hp : p ≤ p') (hin : windowAgree r p la lb)
    (hfa : framePre r' p' la l1a) (hfb : framePre r' p' lb l1b)
    (hout : windowAgree r' p' l1a l1b) : windowAgree r p l1a l1b := by
  constructor
  · intro i hi
    by_cases hlt : i < r'
    · rw [hfa.1 i hlt, hfb.1 i hlt]
      exact hin.1 i hi
    · exact hout.1 i (by omega)
  · intro i hi
    by_cases hlt : i < p'
    · rw [hfa.2 i hlt, hfb.2 i hlt]
      exact hin.2 i hi
    · exact hout.2 i (by omega)

theorem outRel_none_some (r p : Nat) (o : EvalRes) : outRel r p none (some o) → False := by
  cases o with
  | withVal g v => exact fun h => h
  | withLoc g l => exact fun h => h

theorem outRel_some_none (r p : Nat) (o : EvalRes) : outRel r p (some o) none → False := by
  cases o with
  | withVal g v => exact fun h => h
  | withLoc g l => exact fun h => h

theorem evalCore_reads (G : Grammar) (env : Env) : ∀ f : Nat,
    (∀ e r p la lb g, WFcache g → windowAgree r p la lb →
      outRel r p (evalCore G env f (Req.expr e r p la) g)
        (evalCore G env f (Req.expr e r p lb) g)) ∧
    (∀ elems i r p la lb g, WFcache g → windowAgree r p la lb →
      outRel r p (evalCore G env f (Req.seqElems elems i r p la) g)
        (evalCore G env f (Req.seqElems elems i r p lb) g)) ∧
    (∀ alts r p la lb g, WFcache g → windowAgree r p la lb →
      outRel r p (evalCore G env f (Req.chRest alts r p la) g)
        (evalCore G env f (Req.chRest alts r p lb) g)) ∧
    (∀ e1 r p la lb g, WFcache g → windowAgree r p la lb →
      outRel r p (evalCore G env f (Req.starLoop e1 r p la) g)
        (evalCore G env f (Req.starLoop e1 r p lb) g)) := by
  intro f
  induction f with
  | zero =>
    refine ⟨?_, ?_, ?_, ?_⟩
    · intro e r p la lb g _ _
      exact trivial
    · intro elems i r p la lb g _ _
      exact trivial
    · intro alts r p la lb g _ _
      exact trivial
    · intro e1 r p la lb g _ _
      exact trivial
  | succ f ih =>
    obtain ⟨ih1, ih2, ih3, ih4⟩ := ih
    have HC := (evalCore_contract G env f).1
    refine ⟨?_, ?_, ?_, ?_⟩
    · -- expressions
      intro e r p la lb g hwf hag
      cases e with
      | choice alts =>
        simp only [evalCore]
        cases alts with
        | nil => exact trivial
        | cons a rest =>
          dsimp only
          have HA := ih1 a r p la lb g hwf hag
          cases hA : evalCore G env f (Req.expr a r p la) g with
          | none =>
            cases hB : evalCore G env f (Req.expr a r p lb) g with
            | none => exact trivial
            | some resB => rw [hA, hB] at HA; exact absurd HA (outRel_none_some _ _ resB)
          | some resA =>
            cases hB : evalCore G env f (Req.expr a r p lb) g with
            | none => rw [hA, hB] at HA; exact absurd HA (outRel_some_none _ _ resA)
            | some resB =>
              rw [hA, hB] at HA
              cases resA with
              | withVal g1 v =>
                cases resB with
                | withVal g2 v2 => exact trivial
                | withLoc g2 l2 => exact False.elim HA
              | withLoc g1 l1a =>
                cases resB with
                | withVal g2 v2 => exact False.elim HA
                | withLoc g2 l1b =>
                  have HA2 : g1 = g2 ∧ windowAgree r p l1a l1b := HA
                  obtain ⟨rfl, hagl⟩ := HA2
                  dsimp only
                  have hwf1 : WFcache g1 := (HC a r p la g g1 l1a hwf hA).1.1
                  exact ih3 rest r p l1a l1b g1 hwf1 hagl
      | sequence elems =>
        simp only [evalCore]
        exact ih2 elems 0 r p (setPosv la p g.pos) (setPosv lb p g.pos) g hwf
          (windowAgree_setPosv r p la lb p g.pos hag)
      | labeled lab e1 =>
        simp only [evalCore]
        exact ih1 e1 r p la lb g hwf hag
      | simple_and e1 =>
        simp only [evalCore]
        have hag1 : windowAgree r (p + 1) (setPosv la p g.pos) (setPosv lb p g.pos) :=
          windowAgree_mono r r p (p + 1) (le_refl r) (Nat.le_succ p)
            (windowAgree_setPosv r p la lb p g.pos hag)
        have HA := ih1 e1 r (p + 1) (setPosv la p g.pos) (setPosv lb p g.pos)
          { g with reportFailures := g.reportFailures + 1 } hwf hag1
        cases hA : evalCore G env f (Req.expr e1 r (p + 1) (setPosv la p g.pos))
            { g with reportFailures := g.reportFailures + 1 } with
        | none =>
          cases hB : evalCore G env f (Req.expr e1 r (p + 1) (setPosv lb p g.pos))
              { g with reportFailures := g.reportFailures + 1 } with
          | none => exact trivial
          | some resB => rw [hA, hB] at HA; exact absurd HA (outRel_none_some _ _ resB)
        | some resA =>
          cases hB : evalCore G env f (Req.expr e1 r (p + 1) (setPosv lb p g.pos))
              { g with reportFailures := g.reportFailures + 1 } with
          | none => rw [hA, hB] at HA; exact absurd HA (outRel_some_none _ _ resA)
          | some resB =>
            rw [hA, hB] at HA
            cases resA with
            | withVal g1 v =>
              cases resB with
              | withVal g2 v2 => exact trivial
              | withLoc g2 l2 => exact False.elim HA
            | withLoc g1 l2a =>
              cases resB with
              | withVal g2 v2 => exact False.elim HA
              | withLoc g2 l2b =>
                have HA2 : g1 = g2 ∧ windowAgree r (p + 1) l2a l2b := HA
                obtain ⟨rfl, hagl⟩ := HA2
                dsimp only
                have hpa : l2a.posv p = g.pos := by
                  rw [(HC e1 r (p + 1) (setPosv la p g.pos) { g with reportFailures := g.reportFailures + 1 } g1 l2a hwf hA).2.2.1.2
                    p (Nat.lt_succ_self p)]
                  exact setPosv_get la p g.pos
                have hpb : l2b.posv p = g.pos := by
                  rw [(HC e1 r (p + 1) (setPosv lb p g.pos) { g with reportFailures := g.reportFailures + 1 } g1 l2b hwf hB).2.2.1.2
                    p (Nat.lt_succ_self p)]
                  exact setPosv_get lb p g.pos
                have hagd : windowAgree r p l2a l2b :=
                  windowAgree_recover r (p + 1) r p (setPosv la p g.pos) (setPosv lb p g.pos)
                    l2a l2b (le_refl r) (Nat.le_succ p)
                    (windowAgree_setPosv r p la lb p g.pos hag)
                    (HC e1 r (p + 1) (setPosv la p g.pos) { g with reportFailures := g.reportFailures + 1 } g1 l2a hwf hA).2.2.1
                    (HC e1 r (p + 1) (setPosv lb p g.pos) { g with reportFailures := g.reportFailures + 1 } g1 l2b hwf hB).2.2.1 hagl
                have hrr : l2b.res r = l2a.res r := (hagl.1 r (le_refl r)).symm
                rw [hrr]
                by_cases hn : (l2a.res r).isNull = true
                · simp only [if_pos hn]
                  exact ⟨rfl, windowAgree_setRes r p l2a l2b r Value.vnull hagd⟩
                · simp only [if_neg hn]
                  refine ⟨?_, windowAgree_setRes r p l2a l2b r (Value.vstr []) hagd⟩
                  rw [hpa, hpb]
      | simple_not e1 =>
        simp only [evalCore]
        have hag1 : windowAgree r (p + 1) (setPosv la p g.pos) (setPosv lb p g.pos) :=
          windowAgree_mono r r p (p + 1) (le_refl r) (Nat.le_succ p)
            (windowAgree_setPosv r p la lb p g.pos hag)
        have HA := ih1 e1 r (p + 1) (setPosv la p g.pos) (setPosv lb p g.pos)
          { g with reportFailures := g.reportFailures + 1 } hwf hag1
        cases hA : evalCore G env f (Req.expr e1 r (p + 1) (setPosv la p g.pos))
            { g with reportFailures := g.reportFailures + 1 } with
        | none =>
          cases hB : evalCore G env f (Req.expr e1 r (p + 1) (setPosv lb p g.pos))
              { g with reportFailures := g.reportFailures + 1 } with
          | none => exact trivial
          | some resB => rw [hA, hB] at HA; exact absurd HA (outRel_none_some _ _ resB)
        | some resA =>
          cases hB : evalCore G env f (Req.expr e1 r (p + 1) (setPosv lb p g.pos))
              { g with reportFailures := g.reportFailures + 1 } with
          | none => rw [hA, hB] at HA; exact absurd HA (outRel_some_none _ _ resA)
          | some resB =>
            rw [hA, hB] at HA
            cases resA with
            | withVal g1 v =>
              cases resB with
              | withVal g2 v2 => exact trivial
              | withLoc g2 l2 => exact False.elim HA
            | withLoc g1 l2a =>
              cases resB with
              | withVal g2 v2 => exact False.elim HA
              | withLoc g2 l2b =>
                have HA2 : g1 = g2 ∧ windowAgree r (p + 1) l2a l2b := HA
                obtain ⟨rfl, hagl⟩ := HA2
                dsimp only
                have hpa : l2a.posv p = g.pos := by
                  rw [(HC e1 r (p + 1) (setPosv la p g.pos) { g with reportFailures := g.reportFailures + 1 } g1 l2a hwf hA).2.2.1.2
                    p (Nat.lt_succ_self p)]
                  exact setPosv_get la p g.pos
                have hpb : l2b.posv p = g.pos := by
                  rw [(HC e1 r (p + 1) (setPosv lb p g.pos) { g with reportFailures := g.reportFailures + 1 } g1 l2b hwf hB).2.2.1.2
                    p (Nat.lt_succ_self p)]
                  exact setPosv_get lb p g.pos
                have hagd : windowAgree r p l2a l2b :=
                  windowAgree_recover r (p + 1) r p (setPosv la p g.pos) (setPosv lb p g.pos)
                    l2a l2b (le_refl r) (Nat.le_succ p)
                    (windowAgree_setPosv r p la lb p g.pos hag)
                    (HC e1 r (p + 1) (setPosv la p g.pos) { g with reportFailures := g.reportFailures + 1 } g1 l2a hwf hA).2.2.1
                    (HC e1 r (p + 1) (setPosv lb p g.pos) { g with reportFailures := g.reportFailures + 1 } g1 l2b hwf hB).2.2.1 hagl
                have hrr : l2b.res r = l2a.res r := (hagl.1 r (le_refl r)).symm
                rw [hrr]
                by_cases hn : (l2a.res r).isNull = true
                · simp only [if_pos hn]
                  exact ⟨rfl, windowAgree_setRes r p l2a l2b r (Value.vstr []) hagd⟩
                · simp only [if_neg hn]
                  refine ⟨?_, windowAgree_setRes r p l2a l2b r Value.vnull hagd⟩
                  rw [hpa, hpb]
      | semantic_and code =>
        simp only [evalCore]
        exact ⟨rfl, windowAgree_setRes r p la lb r _ hag⟩
      | semantic_not code =>
        simp only [evalCore]
        exact ⟨rfl, windowAgree_setRes r p la lb r _ hag⟩
      | optional e1 =>
        simp only [evalCore]
        have HA := ih1 e1 r p la lb g hwf hag
        cases hA : evalCore G env f (Req.expr e1 r p la) g with
        | none =>
          cases hB : evalCore G env f (Req.expr e1 r p lb) g with
          | none => exact trivial
          | some resB => rw [hA, hB] at HA; exact absurd HA (outRel_none_some _ _ resB)
        | some resA =>
          cases hB : evalCore G env f (Req.expr e1 r p lb) g with
          | none => rw [hA, hB] at HA; exact absurd HA (outRel_some_none _ _ resA)
          | some resB =>
            rw [hA, hB] at HA
            cases resA with
            | withVal g1 v =>
              cases resB with
              | withVal g2 v2 => exact trivial
              | withLoc g2 l2 => exact False.elim HA
            | withLoc g1 l1a =>
              cases resB with
              | withVal g2 v2 => exact False.elim HA
              | withLoc g2 l1b =>
                have HA2 : g1 = g2 ∧ windowAgree r p l1a l1b := HA
                obtain ⟨rfl, hagl⟩ := HA2
                dsimp only
                have hrr : l1b.res r = l1a.res r := (hagl.1 r (le_refl r)).symm
                rw [hrr]
                exact ⟨rfl, windowAgree_setRes r p l1a l1b r _ hagl⟩
      | zero_or_more e1 =>
        simp only [evalCore]
        have hag1 : windowAgree (r + 1) p (setRes la r (Value.varr []))
            (setRes lb r (Value.varr [])) :=
          windowAgree_mono r (r + 1) p p (Nat.le_succ r) (le_refl p)
            (windowAgree_setRes r p la lb r (Value.varr []) hag)
        have HA := ih1 e1 (r + 1) p (setRes la r (Value.varr []))
          (setRes lb r (Value.varr [])) g hwf hag1
        cases hA : evalCore G env f
            (Req.expr e1 (r + 1) p (setRes la r (Value.varr []))) g with
        | none =>
          cases hB : evalCore G env f
              (Req.expr e1 (r + 1) p (setRes lb r (Value.varr []))) g with
          | none => exact trivial
          | some resB => rw [hA, hB] at HA; exact absurd HA (outRel_none_some _ _ resB)
        | some resA =>
          cases hB : evalCore G env f
              (Req.expr e1 (r + 1) p (setRes lb r (Value.varr []))) g with
          | none => rw [hA, hB] at HA; exact absurd HA (outRel_some_none _ _ resA)
          | some resB =>
            rw [hA, hB] at HA
            cases resA with
            | withVal g1 v =>
              cases resB with
              | withVal g2 v2 => exact trivial
              | withLoc g2 l2 => exact False.elim HA
            | withLoc g1 l1a =>
              cases resB with
              | withVal g2 v2 => exact False.elim HA
              | withLoc g2 l1b =>
                have HA2 : g1 = g2 ∧ windowAgree (r + 1) p l1a l1b := HA
                obtain ⟨rfl, hagl⟩ := HA2
                dsimp only
                have hagd : windowAgree r p l1a l1b :=
                  windowAgree_recover (r + 1) p r p (setRes la r (Value.varr []))
                    (setRes lb r (Value.varr [])) l1a l1b (Nat.le_succ r) (le_refl p)
                    (windowAgree_setRes r p la lb r (Value.varr []) hag)
                    (HC e1 (r + 1) p (setRes la r (Value.varr [])) g g1 l1a hwf hA).2.2.1
                    (HC e1 (r + 1) p (setRes lb r (Value.varr [])) g g1 l1b hwf hB).2.2.1 hagl
                have hwf1 : WFcache g1 :=
                  (HC e1 (r + 1) p (setRes la r (Value.varr [])) g g1 l1a hwf hA).1.1
                exact ih4 e1 r p l1a l1b g1 hwf1 hagd
      | one_or_more e1 =>
        simp only [evalCore]
        have hag1 : windowAgree (r + 1) p la lb :=
          windowAgree_mono r (r + 1) p p (Nat.le_succ r) (le_refl p) hag
        have HA := ih1 e1 (r + 1) p la lb g hwf hag1
        cases hA : evalCore G env f (Req.expr e1 (r + 1) p la) g with
        | none =>
          cases hB : evalCore G env f (Req.expr e1 (r + 1) p lb) g with
          | none => exact trivial
          | some resB => rw [hA, hB] at HA; exact absurd HA (outRel_none_some _ _ resB)
        | some resA =>
          cases hB : evalCore G env f (Req.expr e1 (r + 1) p lb) g with
          | none => rw [hA, hB] at HA; exact absurd HA (outRel_some_none _ _ resA)
          | some resB =>
            rw [hA, hB] at HA
            cases resA with
            | withVal g1 v =>
              cases resB with
              | withVal g2 v2 => exact trivial
              | withLoc g2 l2 => exact False.elim HA
            | withLoc g1 l1a =>
              cases resB with
              | withVal g2 v2 => exact False.elim HA
              | withLoc g2 l1b =>
                have HA2 : g1 = g2 ∧ windowAgree (r + 1) p l1a l1b := HA
                obtain ⟨rfl, hagl⟩ := HA2
                dsimp only
                have hagd : windowAgree r p l1a l1b :=
                  windowAgree_recover (r + 1) p r p la lb l1a l1b
                    (Nat.le_succ r) (le_refl p) hag
                    (HC e1 (r + 1) p la g g1 l1a hwf hA).2.2.1
                    (HC e1 (r + 1) p lb g g1 l1b hwf hB).2.2.1 hagl
                have hrr : l1b.res (r + 1) = l1a.res (r + 1) :=
                  (hagl.1 (r + 1) (le_refl (r + 1))).symm
                rw [hrr]
                by_cases hn : (l1a.res (r + 1)).isNull = true
                · simp only [if_pos hn]
                  exact ⟨rfl, windowAgree_setRes r p l1a l1b r Value.vnull hagd⟩
                · simp only [if_neg hn]
                  have hwf1 : WFcache g1 := (HC e1 (r + 1) p la g g1 l1a hwf hA).1.1
                  exact ih4 e1 r p (setRes l1a r (Value.varr []))
                    (setRes l1b r (Value.varr [])) g1 hwf1
                    (windowAgree_setRes r p l1a l1b r (Value.varr []) hagd)
      | action e1 code =>
        simp only [evalCore]
        have hag1 : windowAgree r (p + 1) (setPosv la p g.pos) (setPosv lb p g.pos) :=
          windowAgree_mono r r p (p + 1) (le_refl r) (Nat.le_succ p)
            (windowAgree_setPosv r p la lb p g.pos hag)
        have HA := ih1 e1 r (p + 1) (setPosv la p g.pos) (setPosv lb p g.pos) g hwf hag1
        cases hA : evalCore G env f (Req.expr e1 r (p + 1) (setPosv la p g.pos)) g with
        | none =>
          cases hB : evalCore G env f (Req.expr e1 r (p + 1) (setPosv lb p g.pos)) g with
          | none => exact trivial
          | some resB => rw [hA, hB] at HA; exact absurd HA (outRel_none_some _ _ resB)
        | some resA =>
          cases hB : evalCore G env f (Req.expr e1 r (p + 1) (setPosv lb p g.pos)) g with
          | none => rw [hA, hB] at HA; exact absurd HA (outRel_some_none _ _ resA)
          | some resB =>
            rw [hA, hB] at HA
            cases resA with
            | withVal g1 v =>
              cases resB with
              | withVal g2 v2 => exact trivial
              | withLoc g2 l2 => exact False.elim HA
            | withLoc g1 l1a =>
              cases resB with
              | withVal g2 v2 => exact False.elim HA
              | withLoc g2 l1b =>
                have HA2 : g1 = g2 ∧ windowAgree r (p + 1) l1a l1b := HA
                obtain ⟨rfl, hagl⟩ := HA2
                dsimp only
                have hpa : l1a.posv p = g.pos := by
                  rw [(HC e1 r (p + 1) (setPosv la p g.pos) g g1 l1a hwf hA).2.2.1.2
                    p (Nat.lt_succ_self p)]
                  exact setPosv_get la p g.pos
                have hpb : l1b.posv p = g.pos := by
                  rw [(HC e1 r (p + 1) (setPosv lb p g.pos) g g1 l1b hwf hB).2.2.1.2
                    p (Nat.lt_succ_self p)]
                  exact setPosv_get lb p g.pos
                have hagd : windowAgree r p l1a l1b :=
                  windowAgree_recover r (p + 1) r p (setPosv la p g.pos) (setPosv lb p g.pos)
                    l1a l1b (le_refl r) (Nat.le_succ p)
                    (windowAgree_setPosv r p la lb p g.pos hag)
                    (HC e1 r (p + 1) (setPosv la p g.pos) g g1 l1a hwf hA).2.2.1
                    (HC e1 r (p + 1) (setPosv lb p g.pos) g g1 l1b hwf hB).2.2.1 hagl
                have hrr : l1b.res r = l1a.res r := (hagl.1 r (le_refl r)).symm
                rw [hrr]
                by_cases ha : (l1a.res r).isNull = true
                · simp only [if_pos ha]
                  rw [hrr]
                  simp only [if_pos ha]
                  refine ⟨?_, hagd⟩
                  rw [hpa, hpb]
                · simp only [if_neg ha]
                  rw [setRes_get l1a r (env.act code (actionArgs e1 (l1a.res r))),
                    setRes_get l1b r (env.act code (actionArgs e1 (l1a.res r)))]
                  by_cases hb : (env.act code (actionArgs e1 (l1a.res r))).isNull = true
                  · simp only [if_pos hb]
                    refine ⟨?_, windowAgree_setRes r p l1a l1b r _ hagd⟩
                    rw [setRes_posv l1a r (env.act code (actionArgs e1 (l1a.res r))) p,
                      setRes_posv l1b r (env.act code (actionArgs e1 (l1a.res r))) p,
                      hpa, hpb]
                  · simp only [if_neg hb]
                    exact ⟨rfl, windowAgree_setRes r p l1a l1b r _ hagd⟩
      | rule_ref n =>
        simp only [evalCore]
        cases hA : evalCore G env f (Req.rule n) g with
        | none => exact trivial
        | some resA =>
          cases resA with
          | withLoc g1 l1 => exact trivial
          | withVal g1 v =>
            dsimp only
            exact ⟨rfl, windowAgree_setRes r p la lb r v hag⟩
      | literal v =>
        simp only [evalCore]
        by_cases he : v.isEmpty = true
        · simp only [if_pos he]
          exact ⟨rfl, windowAgree_setRes r p la lb r _ hag⟩
        · simp only [if_neg he]
          by_cases hm : (env.input.drop g.pos).take v.length = v
          · simp only [if_pos hm]
            exact ⟨rfl, windowAgree_setRes r p la lb r _ hag⟩
          · simp only [if_neg hm]
            exact ⟨rfl, windowAgree_setRes r p la lb r _ hag⟩
      | any =>
        simp only [evalCore]
        by_cases hm : g.pos < env.input.length
        · simp only [if_pos hm]
          exact ⟨rfl, windowAgree_setRes r p la lb r _ hag⟩
        · simp only [if_neg hm]
          exact ⟨rfl, windowAgree_setRes r p la lb r _ hag⟩
      | cls parts inverted rawText =>
        simp only [evalCore]
        by_cases hm : (g.pos < env.input.length
            && (inClassParts parts (charAtD env.input g.pos) != inverted)) = true
        · simp only [if_pos hm]
          exact ⟨rfl, windowAgree_setRes r p la lb r _ hag⟩
        · simp only [if_neg hm]
          exact ⟨rfl, windowAgree_setRes r p la lb r _ hag⟩
    · -- sequence elements
      intro elems i r p la lb g hwf hag
      cases elems with
      | nil =>
        simp only [evalCore]
        have hmap : (List.range i).map (fun j => lb.res (r + j))
            = (List.range i).map (fun j => la.res (r + j)) :=
          List.map_congr_left (fun x _ => (hag.1 (r + x) (Nat.le_add_right r x)).symm)
        rw [hmap]
        exact ⟨rfl, windowAgree_setRes r p la lb r _ hag⟩
      | cons e rest =>
        simp only [evalCore]
        have hag1 : windowAgree (r + i) (p + 1) la lb :=
          windowAgree_mono r (r + i) p (p + 1) (Nat.le_add_right r i) (Nat.le_succ p) hag
        have HA := ih1 e (r + i) (p + 1) la lb g hwf hag1
        cases hA : evalCore G env f (Req.expr e (r + i) (p + 1) la) g with
        | none =>
          cases hB : evalCore G env f (Req.expr e (r + i) (p + 1) lb) g with
          | none => exact trivial
          | some resB => rw [hA, hB] at HA; exact absurd HA (outRel_none_some _ _ resB)
        | some resA =>
          cases hB : evalCore G env f (Req.expr e (r + i) (p + 1) lb) g with
          | none => rw [hA, hB] at HA; exact absurd HA (outRel_some_none _ _ resA)
          | some resB =>
            rw [hA, hB] at HA
            cases resA with
            | withVal g1 v =>
              cases resB with
              | withVal g2 v2 => exact trivial
              | withLoc g2 l2 => exact False.elim HA
            | withLoc g1 l1a =>
              cases resB with
              | withVal g2 v2 => exact False.elim HA
              | withLoc g2 l1b =>
                have HA2 : g1 = g2 ∧ windowAgree (r + i) (p + 1) l1a l1b := HA
                obtain ⟨rfl, hagl⟩ := HA2
                dsimp only
                have hagd : windowAgree r p l1a l1b :=
                  windowAgree_recover (r + i) (p + 1) r p la lb l1a l1b
                    (Nat.le_add_right r i) (Nat.le_succ p) hag
                    (HC e (r + i) (p + 1) la g g1 l1a hwf hA).2.2.1
                    (HC e (r + i) (p + 1) lb g g1 l1b hwf hB).2.2.1 hagl
                have hrr : l1b.res (r + i) = l1a.res (r + i) :=
                  (hagl.1 (r + i) (le_refl (r + i))).symm
                rw [hrr]
                by_cases hn : (l1a.res (r + i)).isNull = true
                · simp only [if_pos hn]
                  refine ⟨?_, windowAgree_setRes r p l1a l1b r Value.vnull hagd⟩
                  rw [hagd.2 p (le_refl p)]
                · simp only [if_neg hn]
                  have hwf1 : WFcache g1 := (HC e (r + i) (p + 1) la g g1 l1a hwf hA).1.1
                  exact ih2 rest (i + 1) r p l1a l1b g1 hwf1 hagd
    · -- choice continuation
      intro alts r p la lb g hwf hag
      cases alts with
      | nil =>
        simp only [evalCore]
        exact ⟨rfl, hag⟩
      | cons a rest =>
        simp only [evalCore]
        have hrr : lb.res r = la.res r := (hag.1 r (le_refl r)).symm
        rw [hrr]
        by_cases hn : (la.res r).isNull = true
        · simp only [if_pos hn]
          have HA := ih1 a r p la lb g hwf hag
          cases hA : evalCore G env f (Req.expr a r p la) g with
          | none =>
            cases hB : evalCore G env f (Req.expr a r p lb) g with
            | none => exact trivial
            | some resB => rw [hA, hB] at HA; exact absurd HA (outRel_none_some _ _ resB)
          | some resA =>
            cases hB : evalCore G env f (Req.expr a r p lb) g with
            | none => rw [hA, hB] at HA; exact absurd HA (outRel_some_none _ _ resA)
            | some resB =>
              rw [hA, hB] at HA
              cases resA with
              | withVal g1 v =>
                cases resB with
                | withVal g2 v2 => exact trivial
                | withLoc g2 l2 => exact False.elim HA
              | withLoc g1 l1a =>
                cases resB with
                | withVal g2 v2 => exact False.elim HA
                | withLoc g2 l1b =>
                  have HA2 : g1 = g2 ∧ windowAgree r p l1a l1b := HA
                  obtain ⟨rfl, hagl⟩ := HA2
                  dsimp only
                  have hwf1 : WFcache g1 := (HC a r p la g g1 l1a hwf hA).1.1
                  exact ih3 rest r p l1a l1b g1 hwf1 hagl
        · simp only [if_neg hn]
          exact ⟨rfl, hag⟩
    · -- repetition loop
      intro e1 r p la lb g hwf hag
      simp only [evalCore]
      have hrr1 : lb.res (r + 1) = la.res (r + 1) := (hag.1 (r + 1) (Nat.le_succ r)).symm
      rw [hrr1]
      by_cases hn : (la.res (r + 1)).isNull = true
      · simp only [if_pos hn]
        exact ⟨rfl, hag⟩
      · simp only [if_neg hn]
        have hrr0 : lb.res r = la.res r := (hag.1 r (le_refl r)).symm
        rw [hrr0]
        cases hv : la.res r with
        | vnull => exact trivial
        | vstr s => exact trivial
        | varr vs =>
          dsimp only
          have hag1 : windowAgree (r + 1) p
              (setRes la r (Value.varr (vs ++ [la.res (r + 1)])))
              (setRes lb r (Value.varr (vs ++ [la.res (r + 1)]))) :=
            windowAgree_mono r (r + 1) p p (Nat.le_succ r) (le_refl p)
              (windowAgree_setRes r p la lb r _ hag)
          have HA := ih1 e1 (r + 1) p
            (setRes la r (Value.varr (vs ++ [la.res (r + 1)])))
            (setRes lb r (Value.varr (vs ++ [la.res (r + 1)]))) g hwf hag1
          cases hA : evalCore G env f
              (Req.expr e1 (r + 1) p (setRes la r (Value.varr (vs ++ [la.res (r + 1)])))) g with
          | none =>
            cases hB : evalCore G env f
                (Req.expr e1 (r + 1) p (setRes lb r (Value.varr (vs ++ [la.res (r + 1)])))) g with
            | none => exact trivial
            | some resB => rw [hA, hB] at HA; exact absurd HA (outRel_none_some _ _ resB)
          | some resA =>
            cases hB : evalCore G env f
                (Req.expr e1 (r + 1) p (setRes lb r (Value.varr (vs ++ [la.res (r + 1)])))) g with
            | none => rw [hA, hB] at HA; exact absurd HA (outRel_some_none _ _ resA)
            | some resB =>
              rw [hA, hB] at HA
              cases resA with
              | withVal g1 v =>
                cases resB with
                | withVal g2 v2 => exact trivial
                | withLoc g2 l2 => exact False.elim HA
              | withLoc g1 l1a =>
                cases resB with
                | withVal g2 v2 => exact False.elim HA
                | withLoc g2 l1b =>
                  have HA2 : g1 = g2 ∧ windowAgree (r + 1) p l1a l1b := HA
                  obtain ⟨rfl, hagl⟩ := HA2
                  dsimp only
                  have hagd : windowAgree r p l1a l1b :=
                    windowAgree_recover (r + 1) p r p
                      (setRes la r (Value.varr (vs ++ [la.res (r + 1)])))
                      (setRes lb r (Value.varr (vs ++ [la.res (r + 1)]))) l1a l1b
                      (Nat.le_succ r) (le_refl p)
                      (windowAgree_setRes r p la lb r _ hag)
                      (HC e1 (r + 1) p (setRes la r (Value.varr (vs ++ [la.res (r + 1)])))
                        g g1 l1a hwf hA).2.2.1
                      (HC e1 (r + 1) p (setRes lb r (Value.varr (vs ++ [la.res (r + 1)])))
                        g g1 l1b hwf hB).2.2.1 hagl
                  have hwf1 : WFcache g1 :=
                    (HC e1 (r + 1) p (setRes la r (Value.varr (vs ++ [la.res (r + 1)])))
                      g g1 l1a hwf hA).1.1
                  exact ih4 e1 r p l1a l1b g1 hwf1 hagd

/- ### C1 — the slot contract of emitted snippets -/

/-- C1 (counterexample): the `sequence` snippet saves the entry position
in `pos[posIndex + 0]` (`${posVar} = pos;` with `posVar(context.posIndex)`,
emitter.js line 523), so the claim's restriction of temporaries to
`pos[posIndex + k]` with `k >= 1` is violated: running
`sequence [literal "a", literal "b"]` at context (0, 0) over "ab" from a
frame with `pos0 = 42` ends with `pos0 = 0`, the entry position. -/
theorem c1_counterexample :
    (evalExpr gramA envAB 6 (Expr.sequence [Expr.literal [('a' : Char)],
        Expr.literal [('b' : Char)]]) 0 0 initGState loc42).map
      (fun x => x.2.posv 0) = some 0 ∧ loc42.posv 0 = 42 :=
  ⟨rfl, rfl⟩

/-- C1: the slot contract, as the emitted snippets actually satisfy it.
A completed snippet at context (resultIndex `r`, posIndex `p`) only moves
the global position forward; on a non-match (`result[r]` null) it has
restored `pos` to its entry value; it writes no local below the window —
`result[r + k]` and `pos[p + k]` for `k ≥ 0` only, the saved entry
position going into `pos[p + 0]` itself — it preserves the cache keys and
the body-evaluation log, and its outcome depends on no local outside that
window: a run from any frame agreeing on the window fails alike, produces
the same global state, and agrees on the window. -/
theorem slotContract_spec (G : Grammar) (env : Env) (f : Nat) (e : Expr) (r p : Nat)
    (loc : Locals) (g g' : GState) (loc' : Locals) (hwf : WFcache g)
    (h : evalCore G env f (Req.expr e r p loc) g = some (EvalRes.withLoc g' loc')) :
    g.pos ≤ g'.pos ∧ ((loc'.res r).isNull = true → g'.pos = g.pos) ∧
    framePre r p loc loc' ∧ gOK g g' ∧
    (∀ lb, windowAgree r p loc lb →
      outRel r p (some (EvalRes.withLoc g' loc'))
        (evalCore G env f (Req.expr e r p lb) g)) := by
  have H := (evalCore_contract G env f).1 e r p loc g g' loc' hwf h
  refine ⟨H.2.1, H.2.2.2, H.2.2.1, H.1, ?_⟩
  intro lb hab
  have HR := (evalCore_reads G env f).1 e r p loc lb g hwf hab
  rw [h] at HR
  exact HR

/-- C1 (witness): the contract theorem applied to `literal "a"` matching
at context (0, 0) over "ab" from the all-42 frame. -/
theorem slotContract_spec_witness :
    initGState.pos ≤ ({ initGState with pos := 1 } : GState).pos ∧
    ((locLitA.res 0).isNull = true →
      ({ initGState with pos := 1 } : GState).pos = initGState.pos) ∧
    framePre 0 0 loc42 locLitA ∧ gOK initGState { initGState with pos := 1 } ∧
    (∀ lb, windowAgree 0 0 loc42 lb →
      outRel 0 0 (some (EvalRes.withLoc { initGState with pos := 1 } locLitA))
        (evalCore gramA envAB 1 (Req.expr (Expr.literal [('a' : Char)]) 0 0 lb)
          initGState)) :=
  slotContract_spec gramA envAB 1 (Expr.literal [('a' : Char)]) 0 0 loc42 initGState
    { initGState with pos := 1 } locLitA (by intro e he; cases he) rfl

/- ### C2 — rule memoization -/

/-- C2: every emitted `parse_<name>` first consults the memo cache under
the key `(name, pos)`.  On a hit — including a memoized null failure —
it sets `pos` to the stored `nextPos` and returns the stored result
without touching the cache or evaluating the body (the log is unchanged).
On a miss it evaluates the body once — the log grows by exactly this
`(name, pos)` entry followed by the body's own rule evaluations — and
stores `{ nextPos, result }` under the key before returning, every
previously cached key remaining cached; so a later call at the same
(rule, position) hits the cache and does not evaluate the body again. -/
theorem ruleMemo_spec (G : Grammar) (env : Env) (f : Nat) (n : String) (rl : GRule)
    (g : GState) (hr : lookupRuleByName G n = some rl) (hwf : WFcache g) :
    (∀ q v, lookupCache g.cache (n, g.pos) = some (q, v) →
      evalRule G env (f + 1) n g = some ({ g with pos := q }, v)) ∧
    (lookupCache g.cache (n, g.pos) = none →
      ∀ g' v, evalRule G env (f + 1) n g = some (g', v) →
        lookupCache g'.cache (n, g.pos) = some (g'.pos, v) ∧
        (∃ L, g'.log = g.log ++ (n, g.pos) :: L) ∧
        cacheMono g g' ∧ WFcache g') := by
  constructor
  · intro q v hc
    unfold evalRule
    simp only [evalCore]
    rw [hr]
    dsimp only
    rw [hc]
  · intro hc g' v heval
    unfold evalRule at heval
    cases hcore : evalCore G env (f + 1) (Req.rule n) g with
    | none => rw [hcore] at heval; exact absurd heval (by simp)
    | some res =>
      rw [hcore] at heval
      cases res with
      | withLoc g1 l1 => exact absurd heval (by simp)
      | withVal g1 v1 =>
        dsimp only at heval
        obtain ⟨rfl, rfl⟩ := by simpa using heval
        simp only [evalCore] at hcore
        rw [hr] at hcore
        dsimp only at hcore
        rw [hc] at hcore
        dsimp only at hcore
        cases hdd : rl.displayName with
        | none =>
          rw [hdd] at hcore
          simp only [Option.isSome_none, Bool.false_eq_true, if_false] at hcore
          cases h1 : evalCore G env f (Req.expr rl.expression 0 0 freshLocals)
              { g with log := g.log ++ [(n, g.pos)] } with
          | none => rw [h1] at hcore; exact absurd hcore (by simp)
          | some res1 =>
            rw [h1] at hcore
            cases res1 with
            | withVal g2 v2 => exact absurd hcore (by simp)
            | withLoc g2 l2 =>
              dsimp only at hcore
              obtain ⟨rfl, rfl⟩ := by simpa using hcore
              have H1 := (evalCore_contract G env f).1 rl.expression 0 0 freshLocals
                { g with log := g.log ++ [(n, g.pos)] } g2 l2 hwf h1
              refine ⟨lookupCache_head (n, g.pos) (g2.pos, l2.res 0) g2.cache, ?_, ?_, ?_⟩
              · obtain ⟨L, hL⟩ := H1.1.2.2
                refine ⟨L, ?_⟩
                show g2.log = g.log ++ (n, g.pos) :: L
                rw [hL]
                simp
              · intro k hk
                exact lookupCache_cons _ _ k (H1.1.2.1 k hk)
              · intro entry hmem
                rcases List.mem_cons.mp hmem with rfl | hmem2
                · exact ⟨H1.2.1, fun hnull => H1.2.2.2 hnull⟩
                · exact H1.1.1 entry hmem2
        | some d =>
          rw [hdd] at hcore
          simp only [Option.isSome_some, if_true] at hcore
          cases h1 : evalCore G env f (Req.expr rl.expression 0 0 freshLocals)
              { g with log := g.log ++ [(n, g.pos)],
                       reportFailures := g.reportFailures + 1 } with
          | none => rw [h1] at hcore; exact absurd hcore (by simp)
          | some res1 =>
            rw [h1] at hcore
            cases res1 with
            | withVal g2 v2 => exact absurd hcore (by simp)
            | withLoc g2 l2 =>
              dsimp only at hcore
              have H1 := (evalCore_contract G env f).1 rl.expression 0 0 freshLocals
                { g with log := g.log ++ [(n, g.pos)],
                         reportFailures := g.reportFailures + 1 } g2 l2 hwf h1
              have hmf2 := matchFailed_fields d { g2 with reportFailures := g2.reportFailures - 1 }
              split at hcore
              · obtain ⟨rfl, rfl⟩ := by simpa using hcore
                refine ⟨?_, ?_, ?_, ?_⟩
                · exact lookupCache_head (n, g.pos) _ _
                · obtain ⟨L, hL⟩ := H1.1.2.2
                  refine ⟨L, ?_⟩
                  show (matchFailed d { g2 with reportFailures := g2.reportFailures - 1 }).log
                    = g.log ++ (n, g.pos) :: L
                  rw [hmf2.2.2.1]
                  show g2.log = g.log ++ (n, g.pos) :: L
                  rw [hL]
                  simp
                · intro k hk
                  refine lookupCache_cons _ _ k ?_
                  rw [hmf2.2.1]
                  exact H1.1.2.1 k hk
                · intro entry hmem
                  rcases List.mem_cons.mp hmem with rfl | hmem2
                  · refine ⟨?_, ?_⟩
                    · show g.pos ≤ (matchFailed d { g2 with
                        reportFailures := g2.reportFailures - 1 }).pos
                      rw [hmf2.1]
                      exact H1.2.1
                    · intro hnull
                      show (matchFailed d { g2 with
                        reportFailures := g2.reportFailures - 1 }).pos = g.pos
                      rw [hmf2.1]
                      exact H1.2.2.2 hnull
                  · rw [hmf2.2.1] at hmem2
                    exact H1.1.1 entry hmem2
              · obtain ⟨rfl, rfl⟩ := by simpa using hcore
                refine ⟨?_, ?_, ?_, ?_⟩
                · exact lookupCache_head (n, g.pos) _ _
                · obtain ⟨L, hL⟩ := H1.1.2.2
                  refine ⟨L, ?_⟩
                  show g2.log = g.log ++ (n, g.pos) :: L
                  rw [hL]
                  simp
                · intro k hk
                  exact lookupCache_cons _ _ k (H1.1.2.1 k hk)
                · intro entry hmem
                  rcases List.mem_cons.mp hmem with rfl | hmem2
                  · exact ⟨H1.2.1, fun hnull => H1.2.2.2 hnull⟩
                  · exact H1.1.1 entry hmem2

/-- C2 (witness): the theorem applied to the rule `s = "a"` of `gramA`
at the fresh state (an empty cache, hence a miss; fuel 2). -/
theorem ruleMemo_spec_witness :
    (∀ q v, lookupCache initGState.cache (("s" : String), initGState.pos) = some (q, v) →
      evalRule gramA envB 2 ("s") initGState = some ({ initGState with pos := q }, v)) ∧
    (lookupCache initGState.cache (("s" : String), initGState.pos) = none →
      ∀ g' v, evalRule gramA envB 2 ("s") initGState = some (g', v) →
        lookupCache g'.cache (("s" : String), initGState.pos) = some (g'.pos, v) ∧
        (∃ L, g'.log = initGState.log ++ (("s" : String), initGState.pos) :: L) ∧
        cacheMono initGState g' ∧ WFcache g') :=
  ruleMemo_spec gramA envB 1 ("s") ruleA initGState rfl (by intro e he; cases he)

/- ### C10 — optional / zero_or_more never fail -/

theorem starLoop_emptyLit_none (G : Grammar) (env : Env) (r p : Nat) :
    ∀ f : Nat, ∀ loc g, (loc.res (r + 1)).isNull = false →
    (∃ vs, loc.res r = Value.varr vs) →
    evalCore G env f (Req.starLoop (Expr.literal []) r p loc) g = none := by
  intro f
  induction f with
  | zero =>
    intro loc g _ _
    rfl
  | succ f ih =>
    intro loc g hnn hvs
    obtain ⟨vs, hvs⟩ := hvs
    simp only [evalCore]
    rw [if_neg (by simp [hnn]), hvs]
    dsimp only
    cases f with
    | zero => rfl
    | succ f2 =>
      have hchild : evalCore G env (f2 + 1)
          (Req.expr (Expr.literal []) (r + 1) p
            (setRes loc r (Value.varr (vs ++ [loc.res (r + 1)])))) g
          = some (EvalRes.withLoc g
              (setRes (setRes loc r (Value.varr (vs ++ [loc.res (r + 1)]))) (r + 1)
                (Value.vstr []))) := rfl
      rw [hchild]
      dsimp only
      refine ih _ g ?_ ?_
      · rw [setRes_get]
        rfl
      · refine ⟨vs ++ [loc.res (r + 1)], ?_⟩
        rw [setRes_get_ne _ _ _ r (by omega)]
        exact setRes_get loc r _

/-- Over the empty literal the `zero_or_more` snippet never terminates —
the emitted `while` loop matches `""` without consuming input forever.
In the fueled model the run returns `none` at every fuel. -/
theorem emptyStar_divergence (G : Grammar) (env : Env) : ∀ f : Nat, ∀ g : GState,
    evalCore G env f (Req.expr (Expr.zero_or_more (Expr.literal [])) 0 0 freshLocals)
      g = none := by
  intro f g
  cases f with
  | zero => rfl
  | succ f =>
    cases f with
    | zero => rfl
    | succ f2 =>
      show evalCore G env (f2 + 1)
        (Req.starLoop (Expr.literal []) 0 0
          (setRes (setRes freshLocals 0 (Value.varr [])) 1 (Value.vstr []))) g
        = none
      refine starLoop_emptyLit_none G env 0 0 (f2 + 1) _ g ?_ ?_
      · rw [setRes_get]
        rfl
      · refine ⟨[], ?_⟩
        rw [setRes_get_ne _ _ _ 0 (by omega)]
        exact setRes_get freshLocals 0 _

/-- C10 (counterexample): the `zero_or_more (literal "")` snippet at
context (0, 0) yields no result even with fuel 1000 — `emptyStar_divergence`
shows the same at every fuel — refuting the claim that these snippets
always terminate. -/
theorem c10_counterexample :
    evalCore gramA envB 1000 (Req.expr (Expr.zero_or_more (Expr.literal [])) 0 0 freshLocals)
      initGState = none :=
  emptyStar_divergence gramA envB 1000 initGState

/-- C10: when an `optional` or `zero_or_more` snippet does terminate its
result slot is non-null (`optional` replaces a null child result with the
empty string; `zero_or_more` always leaves an array), and a `choice`
whose first alternative terminates with a non-null result returns that
alternative's outcome unchanged — the remaining alternatives are never
tried.  Termination itself cannot be promised: over the empty literal the
repetition returns no result at any fuel. -/
theorem repeatNonNull_spec (G : Grammar) (env : Env) (f : Nat) :
    (∀ e1 r p loc g g' loc',
      evalCore G env f (Req.expr (Expr.optional e1) r p loc) g
        = some (EvalRes.withLoc g' loc') → (loc'.res r).isNull = false) ∧
    (∀ e1 r p loc g g' loc', WFcache g →
      evalCore G env f (Req.expr (Expr.zero_or_more e1) r p loc) g
        = some (EvalRes.withLoc g' loc') → (loc'.res r).isNull = false) ∧
    (∀ a rest r p loc g g1 l1,
      evalCore G env (f + 1) (Req.expr a r p loc) g = some (EvalRes.withLoc g1 l1) →
      (l1.res r).isNull = false →
      evalCore G env (f + 2) (Req.expr (Expr.choice (a :: rest)) r p loc) g
        = some (EvalRes.withLoc g1 l1)) ∧
    (∀ g, evalCore G env f (Req.expr (Expr.zero_or_more (Expr.literal [])) 0 0 freshLocals)
      g = none) := by
  refine ⟨?_, ?_, ?_, fun g => emptyStar_divergence G env f g⟩
  · intro e1 r p loc g g' loc' h
    cases f with
    | zero => exact absurd h (by simp [evalCore])
    | succ f2 =>
      simp only [evalCore] at h
      cases h1 : evalCore G env f2 (Req.expr e1 r p loc) g with
      | none => rw [h1] at h; exact absurd h (by simp)
      | some res1 =>
        rw [h1] at h
        cases res1 with
        | withVal g1 v => exact absurd h (by simp)
        | withLoc g1 l1 =>
          dsimp only at h
          obtain ⟨rfl, rfl⟩ := by simpa using h
          rw [setRes_get]
          by_cases hn : (l1.res r).isNull = true
          · rw [if_pos hn]
            rfl
          · rw [if_neg hn]
            cases hb : (l1.res r).isNull with
            | false => rfl
            | true => exact absurd hb hn
  · intro e1 r p loc g g' loc' hwf h
    cases f with
    | zero => exact absurd h (by simp [evalCore])
    | succ f2 =>
      simp only [evalCore] at h
      cases h1 : evalCore G env f2
          (Req.expr e1 (r + 1) p (setRes loc r (Value.varr []))) g with
      | none => rw [h1] at h; exact absurd h (by simp)
      | some res1 =>
        rw [h1] at h
        cases res1 with
        | withVal g1 v => exact absurd h (by simp)
        | withLoc g1 l1 =>
          dsimp only at h
          have H1 := (evalCore_contract G env f2).1 e1 (r + 1) p
            (setRes loc r (Value.varr [])) g g1 l1 hwf h1
          have H4 := (evalCore_contract G env f2).2.2.2.1 e1 r p l1 g1 g' loc' H1.1.1 h
          refine H4.2.2.2.1 ?_
          rw [H1.2.2.1.1 r (Nat.lt_succ_self r), setRes_get]
          rfl
  · intro a rest r p loc g g1 l1 hh hnn
    have hstep : evalCore G env ((f + 1) + 1) (Req.expr (Expr.choice (a :: rest)) r p loc) g
        = (match evalCore G env (f + 1) (Req.expr a r p loc) g with
           | some (EvalRes.withLoc g2 l2) => evalCore G env (f + 1) (Req.chRest rest r p l2) g2
           | _ => none) := rfl
    show evalCore G env ((f + 1) + 1) (Req.expr (Expr.choice (a :: rest)) r p loc) g
      = some (EvalRes.withLoc g1 l1)
    rw [hstep, hh]
    dsimp only
    cases rest with
    | nil => rfl
    | cons b rest2 =>
      simp only [evalCore]
      rw [if_neg (by simp [hnn])]

/-- C10 (witness): the theorem instantiated over `gramA` at fuel 2. -/
theorem repeatNonNull_spec_witness :
    (∀ e1 r p loc g g' loc',
      evalCore gramA envB 2 (Req.expr (Expr.optional e1) r p loc) g
        = some (EvalRes.withLoc g' loc') → (loc'.res r).isNull = false) ∧
    (∀ e1 r p loc g g' loc', WFcache g →
      evalCore gramA envB 2 (Req.expr (Expr.zero_or_more e1) r p loc) g
        = some (EvalRes.withLoc g' loc') → (loc'.res r).isNull = false) ∧
    (∀ a rest r p loc g g1 l1,
      evalCore gramA envB 3 (Req.expr a r p loc) g = some (EvalRes.withLoc g1 l1) →
      (l1.res r).isNull = false →
      evalCore gramA envB 4 (Req.expr (Expr.choice (a :: rest)) r p loc) g
        = some (EvalRes.withLoc g1 l1)) ∧
    (∀ g, evalCore gramA envB 2
      (Req.expr (Expr.zero_or_more (Expr.literal [])) 0 0 freshLocals) g = none) :=
  repeatNonNull_spec gramA envB 2
